import Mathlib

/-!
# gin-utils: the lock-free queue and the gRPC client pool (package `pool`)

A shallow embedding of `pool/queue.go` and `pool/grpc.go`, executed
sequentially (one operation at a time). The queue is also run by several
goroutines at once: their `Enqueue` and `Dequeue` calls are cut into their
atomic loads and CASes (Go's `sync/atomic` operations are sequentially
consistent), and a schedule interleaves them.

* Go pointers are addresses into an explicit heap: `unsafe.Pointer` is
  `Option Nat` (`none` is `nil`), a dereference of `nil` or of an address that
  was never allocated is the fault `Fault.nilDeref`.
* Go `for` loops without a bound take a fuel argument, one unit per iteration;
  running out of it is the fault `Fault.fuel`.
* `uint64` fields are natural numbers, every `atomic.AddUint64` reduces
  modulo `2^64`.
-/

namespace GinUtils

/-! ## Machine arithmetic -/

/-- The number of values of a Go `uint64`. -/
def u64 : Nat := 2 ^ 64

/-- Go `atomic.AddUint64(&x, d)`: the new value of `x`. -/
def AddUint64 (x d : Nat) : Nat := (x + d) % u64

/-- Go `^uint64(0)`, all bits set. -/
def allOnes : Nat := u64 - 1

/-- Go `uint64(i)` for an `int`: two's complement reinterpretation. -/
def toUint64 (i : Int) : Nat := (i % (u64 : Int)).toNat

/-- Why a run did not return: the loop bound given as fuel was reached, or a
nil (or dangling) pointer was dereferenced. -/
inductive Fault where
  | fuel
  | nilDeref
  deriving DecidableEq, Repr

/-! ## queue.go -/

/-- Go `type node struct { value interface{}; next unsafe.Pointer }`.
A `nil` interface value is `none`. -/
structure node (α : Type) where
  value : Option α
  next : Option Nat
  deriving DecidableEq, Repr

/-- Go `type Queue struct { head, tail unsafe.Pointer; len uint64 }` together
with the heap cells holding its nodes: `nodes[a]` is the node at address `a`,
and allocation appends a cell. -/
structure Queue (α : Type) where
  nodes : List (node α)
  head : Option Nat
  tail : Option Nat
  len : Nat
  deriving DecidableEq, Repr

/-- Go `NewQueue`: one sentinel node, `head` and `tail` both point to it. -/
def NewQueue (α : Type) : Queue α :=
  { nodes := [{ value := none, next := none }], head := some 0, tail := some 0, len := 0 }

/-- Dereference of a node pointer. -/
def deref {α : Type} (q : Queue α) (p : Option Nat) : Option (node α) :=
  match p with
  | none => none
  | some a => q.nodes[a]?

/-- Go `cas(p, old, new)` on a pointer cell whose current content is `cur`:
the new content and whether the swap happened. -/
def cas (cur old new : Option Nat) : Option Nat × Bool :=
  if cur = old then (new, true) else (cur, false)

/-- Go `cas(&t.next, old, new)` for the node at address `t`. -/
def casNext {α : Type} (q : Queue α) (t : Nat) (old new : Option Nat) : Queue α × Bool :=
  match q.nodes[t]? with
  | none => (q, false)
  | some nd =>
    let r := cas nd.next old new
    ({ q with nodes := q.nodes.set t { nd with next := r.1 } }, r.2)

/-- The `for` loop of `Queue.Enqueue`; `n` is the address of the new node. -/
def EnqueueLoop {α : Type} (n : Nat) : Nat → Queue α → Except Fault (Queue α)
  | 0, _ => .error .fuel
  | fuel + 1, q =>
    let tail := q.tail
    match deref q tail, tail with
    | some tnode, some t =>
      let next := tnode.next
      if tail = q.tail then
        if next = none then
          let r := casNext q t next (some n)
          if r.2 then
            .ok { r.1 with tail := (cas r.1.tail tail (some n)).1 }
          else EnqueueLoop n fuel r.1
        else
          EnqueueLoop n fuel { q with tail := (cas q.tail tail next).1 }
      else EnqueueLoop n fuel q
    | _, _ => .error .nilDeref

/-- Go `Queue.Enqueue(v)`: allocate `&node{value: v}`, link it, and on return
run the deferred `atomic.AddUint64(&q.len, 1)`. -/
def Enqueue {α : Type} (fuel : Nat) (q : Queue α) (v : Option α) : Except Fault (Queue α) :=
  let n := q.nodes.length
  let q0 : Queue α := { q with nodes := q.nodes ++ [{ value := v, next := none }] }
  match EnqueueLoop n fuel q0 with
  | .error e => .error e
  | .ok q1 => .ok { q1 with len := AddUint64 q1.len 1 }

/-- The `for` loop of `Queue.Dequeue`: the returned value and the queue. -/
def DequeueLoop {α : Type} : Nat → Queue α → Except Fault (Option α × Queue α)
  | 0, _ => .error .fuel
  | fuel + 1, q =>
    let head := q.head
    let tail := q.tail
    match deref q head with
    | none => .error .nilDeref
    | some hnode =>
      let next := hnode.next
      if head = q.head then
        if head = tail then
          if next = none then .ok (none, q)
          else DequeueLoop fuel { q with tail := (cas q.tail tail next).1 }
        else
          match deref q next with
          | none => .error .nilDeref
          | some nnode =>
            let v := nnode.value
            let r := cas q.head head next
            if r.2 then .ok (v, { q with head := r.1 })
            else DequeueLoop fuel q
      else DequeueLoop fuel q

/-- Go `Queue.Dequeue()`: the loop, and on return the deferred decrement of
`len` (adding `^uint64(0)`), run only when the returned value is not `nil`. -/
def Dequeue {α : Type} (fuel : Nat) (q : Queue α) : Except Fault (Option α × Queue α) :=
  match DequeueLoop fuel q with
  | .error e => .error e
  | .ok (data, q1) =>
    if data.isSome then .ok (data, { q1 with len := AddUint64 q1.len allOnes })
    else .ok (data, q1)

/-- Go `Queue.Len()`. -/
def Queue.Len {α : Type} (q : Queue α) : Nat := q.len

/-! ### The list model of the queue -/

/-- A queue operation of a sequential client: `Enqueue` of a non-nil value, or
`Dequeue`. -/
inductive QOp (α : Type) where
  | enq (v : α)
  | deq
  deriving DecidableEq, Repr

/-- Run a sequence of operations on the queue, giving each loop `fuel`
iterations; the results of the `Dequeue` calls, in order. -/
def runQueue {α : Type} (fuel : Nat) : List (QOp α) → Queue α → Except Fault (List (Option α))
  | [], _ => .ok []
  | .enq v :: ops, q =>
    match Enqueue fuel q (some v) with
    | .error e => .error e
    | .ok q1 => runQueue fuel ops q1
  | .deq :: ops, q =>
    match Dequeue fuel q with
    | .error e => .error e
    | .ok (r, q1) =>
      match runQueue fuel ops q1 with
      | .error e => .error e
      | .ok rs => .ok (r :: rs)

/-- The specification: a plain FIFO list. `Enqueue` appends at the back,
`Dequeue` pops the front, or gives `nil` on the empty list. -/
def runModel {α : Type} : List (QOp α) → List α → List (Option α)
  | [], _ => []
  | .enq v :: ops, l => runModel ops (l ++ [v])
  | .deq :: ops, [] => none :: runModel ops []
  | .deq :: ops, x :: l => some x :: runModel ops l

/-- Run a sequence of operations on the queue, `Enqueue` of any value (`nil`
included) or `Dequeue`; the queue at the end. -/
def execQueue {α : Type} (fuel : Nat) : List (Option (Option α)) → Queue α →
    Except Fault (Queue α)
  | [], q => .ok q
  | some v :: ops, q =>
    match Enqueue fuel q v with
    | .error e => .error e
    | .ok q1 => execQueue fuel ops q1
  | none :: ops, q =>
    match Dequeue fuel q with
    | .error e => .error e
    | .ok (_, q1) => execQueue fuel ops q1

/-- The list model of `execQueue`: `some v` appends `v`, `none` drops the
front. -/
def execModel {α : Type} : List (Option (Option α)) → List (Option α) → List (Option α)
  | [], l => l
  | some v :: ops, l => execModel ops (l ++ [v])
  | none :: ops, l => execModel ops l.tail

/-- The queue `q` holds the values `l`, oldest first: `head` is the sentinel
at some address `h`, the nodes after it carry `l`, `tail` is the last node, and
every node's `next` is the node allocated right after it (`nil` for the
last). -/
def QInv {α : Type} (q : Queue α) (l : List (Option α)) : Prop :=
  ∃ h, q.head = some h ∧ q.tail = some (h + l.length) ∧
    q.nodes.length = h + l.length + 1 ∧
    (∀ i, (q.nodes[h + 1 + i]?).map (fun nd => nd.value) = l[i]?) ∧
    (∀ i nd, q.nodes[i]? = some nd →
      nd.next = if i + 1 < q.nodes.length then some (i + 1) else none)


/-! ### Interleaved runs of the queue -/

/-- A call a goroutine makes on the queue: `Enqueue(v)`, where `v` may be
`nil`, or `Dequeue()`. -/
inductive Call (α : Type) where
  | enqueue (v : Option α)
  | dequeue
  deriving DecidableEq, Repr

/-- Where a goroutine stands: between two calls (`idle`), or inside `Enqueue`
or `Dequeue` right before one of their atomic actions, with the locals it has
set so far. `n` is the address of the node allocated by `Enqueue`.

* `enqLoadTail`: before `tail := load(&q.tail)`;
* `enqLoadNext`: before `next := load(&tail.next)`;
* `enqCheck`: before `if tail == load(&q.tail)` and the test `next == nil`;
* `enqCasNext`: before `cas(&tail.next, next, n)`;
* `enqCasTail`: before `cas(&q.tail, tail, n)`;
* `enqHelp`: before `cas(&q.tail, tail, next)` of `Enqueue`;
* `enqLen`: before the deferred `atomic.AddUint64(&q.len, 1)` and the return;
* `deqLoadHead`: before `head := load(&q.head)`;
* `deqLoadTail`: before `tail := load(&q.tail)`;
* `deqLoadNext`: before `next := load(&head.next)`;
* `deqCheck`: before `if head == load(&q.head)` and the tests `head == tail`,
  `next == nil`;
* `deqHelp`: before `cas(&q.tail, tail, next)` of `Dequeue`;
* `deqValue`: before `v := next.value`;
* `deqCasHead`: before `cas(&q.head, head, next)`;
* `deqLen`: before the deferred decrement of `q.len` and the return of `v`. -/
inductive PC (α : Type) where
  | idle
  | enqLoadTail (n : Nat)
  | enqLoadNext (n : Nat) (tail : Option Nat)
  | enqCheck (n : Nat) (tail next : Option Nat)
  | enqCasNext (n : Nat) (tail next : Option Nat)
  | enqCasTail (n : Nat) (tail : Option Nat)
  | enqHelp (n : Nat) (tail next : Option Nat)
  | enqLen (n : Nat)
  | deqLoadHead
  | deqLoadTail (head : Option Nat)
  | deqLoadNext (head tail : Option Nat)
  | deqCheck (head tail next : Option Nat)
  | deqHelp (tail next : Option Nat)
  | deqValue (head next : Option Nat)
  | deqCasHead (head next : Option Nat) (v : Option α)
  | deqLen (v : Option α)
  deriving DecidableEq, Repr

/-- A goroutine using the queue: its program point, the calls it has still to
make, and the values its `Dequeue` calls have returned so far. -/
structure Goroutine (α : Type) where
  pc : PC α
  todo : List (Call α)
  results : List (Option α)
  deriving DecidableEq, Repr

/-- The memory shared by the goroutines: the queue with its heap, and four
history variables that no step reads:

* `linked`: the addresses of the nodes linked into the queue, in the order of
  the successful `cas(&tail.next, next, n)`;
* `taken`: the addresses of the nodes whose value a `Dequeue` call returns, in
  the order of the successful `cas(&q.head, head, next)`;
* `finished`: the nodes of the `Enqueue` calls that have returned, in the
  order of their return;
* `allocs`: for each `Enqueue(v)` call that has started, the node it
  allocated, the value `v`, and the nodes of the `Enqueue` calls that had
  returned before it started. -/
structure Shared (α : Type) where
  q : Queue α
  linked : List Nat
  taken : List Nat
  finished : List Nat
  allocs : List (Nat × Option α × List Nat)
  deriving DecidableEq, Repr

/-- One atomic action of a goroutine on the shared memory: the start of its
next call (for `Enqueue`, with the allocation `n := &node{value: v}`), or the
load, CAS or add at its program point. An idle goroutine with no call left
does nothing. -/
def atomicStep {α : Type} (s : Shared α) (t : Goroutine α) :
    Except Fault (Shared α × Goroutine α) :=
  match t.pc with
  | .idle =>
    match t.todo with
    | [] => .ok (s, t)
    | .enqueue v :: rest =>
      .ok ({ s with q := { s.q with nodes := s.q.nodes ++ [{ value := v, next := none }] },
                    allocs := s.allocs ++ [(s.q.nodes.length, v, s.finished)] },
           { t with pc := .enqLoadTail s.q.nodes.length, todo := rest })
    | .dequeue :: rest => .ok (s, { t with pc := .deqLoadHead, todo := rest })
  | .enqLoadTail n => .ok (s, { t with pc := .enqLoadNext n s.q.tail })
  | .enqLoadNext n tail =>
    match deref s.q tail with
    | none => .error .nilDeref
    | some tnode => .ok (s, { t with pc := .enqCheck n tail tnode.next })
  | .enqCheck n tail next =>
    if tail = s.q.tail then
      if next = none then .ok (s, { t with pc := .enqCasNext n tail next })
      else .ok (s, { t with pc := .enqHelp n tail next })
    else .ok (s, { t with pc := .enqLoadTail n })
  | .enqCasNext n tail next =>
    match deref s.q tail, tail with
    | some _, some a =>
      let r := casNext s.q a next (some n)
      if r.2 then
        .ok ({ s with q := r.1, linked := s.linked ++ [n] }, { t with pc := .enqCasTail n tail })
      else .ok ({ s with q := r.1 }, { t with pc := .enqLoadTail n })
    | _, _ => .error .nilDeref
  | .enqCasTail n tail =>
    .ok ({ s with q := { s.q with tail := (cas s.q.tail tail (some n)).1 } },
         { t with pc := .enqLen n })
  | .enqHelp n tail next =>
    .ok ({ s with q := { s.q with tail := (cas s.q.tail tail next).1 } },
         { t with pc := .enqLoadTail n })
  | .enqLen n =>
    .ok ({ s with q := { s.q with len := AddUint64 s.q.len 1 },
                  finished := s.finished ++ [n] },
         { t with pc := .idle })
  | .deqLoadHead => .ok (s, { t with pc := .deqLoadTail s.q.head })
  | .deqLoadTail head => .ok (s, { t with pc := .deqLoadNext head s.q.tail })
  | .deqLoadNext head tail =>
    match deref s.q head with
    | none => .error .nilDeref
    | some hnode => .ok (s, { t with pc := .deqCheck head tail hnode.next })
  | .deqCheck head tail next =>
    if head = s.q.head then
      if head = tail then
        if next = none then .ok (s, { t with pc := .idle, results := t.results ++ [none] })
        else .ok (s, { t with pc := .deqHelp tail next })
      else .ok (s, { t with pc := .deqValue head next })
    else .ok (s, { t with pc := .deqLoadHead })
  | .deqHelp tail next =>
    .ok ({ s with q := { s.q with tail := (cas s.q.tail tail next).1 } },
         { t with pc := .deqLoadHead })
  | .deqValue head next =>
    match deref s.q next with
    | none => .error .nilDeref
    | some nnode => .ok (s, { t with pc := .deqCasHead head next nnode.value })
  | .deqCasHead head next v =>
    let r := cas s.q.head head next
    if r.2 then
      .ok ({ s with q := { s.q with head := r.1 }, taken := s.taken ++ next.toList },
           { t with pc := .deqLen v })
    else .ok (s, { t with pc := .deqLoadHead })
  | .deqLen v =>
    .ok ({ s with q := { s.q with len := if v.isSome then AddUint64 s.q.len allOnes
                                         else s.q.len } },
         { t with pc := .idle, results := t.results ++ [v] })

/-- The shared memory and the goroutines running on it. -/
structure Conc (α : Type) where
  s : Shared α
  threads : List (Goroutine α)
  deriving DecidableEq, Repr

/-- The start: `NewQueue()` and one idle goroutine for each list of calls. -/
def initConc {α : Type} (progs : List (List (Call α))) : Conc α :=
  { s := { q := NewQueue α, linked := [], taken := [], finished := [], allocs := [] },
    threads := progs.map (fun p => { pc := .idle, todo := p, results := [] }) }

/-- One step of the goroutine number `i`; a number that names no goroutine
changes nothing. -/
def stepAt {α : Type} (i : Nat) (c : Conc α) : Except Fault (Conc α) :=
  match c.threads[i]? with
  | none => .ok c
  | some t =>
    match atomicStep c.s t with
    | .error e => .error e
    | .ok (s1, t1) => .ok { s := s1, threads := c.threads.set i t1 }

/-- An interleaving: the goroutines take their steps in the order given by
the schedule `sched`. -/
def runSched {α : Type} : List Nat → Conc α → Except Fault (Conc α)
  | [], c => .ok c
  | i :: sched, c =>
    match stepAt i c with
    | .error e => .error e
    | .ok c1 => runSched sched c1

/-- Go `error` values met by the pool: the two package variables `ErrClosed`
and `ErrTimeout`, and any other error (such as one returned by the factory),
told apart by a code. -/
inductive error where
  | ErrClosed
  | ErrTimeout
  | other (code : Nat)
  deriving DecidableEq, Repr

/-- Go `type ClientConn struct`. The embedded `*grpc.ClientConn` is kept by
identity in `conn`; `timeInitiated` is a time in nanoseconds. The back pointer
`pool` is not stored: a `World` has one pool. -/
structure ClientConn where
  conn : Nat
  timeInitiated : Int
  use : Nat
  useCount : Nat
  unhealthy : Bool
  deriving DecidableEq, Repr

/-- Go `type Pool struct`. The values of `clients` are addresses of
`ClientConn` objects; `maxLifeDuration` is a `time.Duration` in nanoseconds.
The field `factory` is passed to the functions that call it. -/
structure Pool where
  clients : Queue Nat
  maxLifeDuration : Int
  maxUseCount : Nat
  close : Int
  unHealthyCount : Nat
  cap : Int
  deriving DecidableEq, Repr

/-- Go `Factory` / `FactoryWithContext`: `factory k` is what call number `k`
(counted from 0) returns, a connection identity or an error. -/
abbrev Factory := Nat → Except error Nat

/-- Everything the pool code reads and writes: the pool `p`, the heap of
`ClientConn` objects (`conns[a]` is the object at address `a`), the
connections on which `grpc.ClientConn.Close()` has been called, in call
order, the number of factory calls made so far, and whether
`go p.healthy(ctx)` has been started. -/
structure World where
  p : Pool
  conns : List ClientConn
  closeLog : List Nat
  factoryCalls : Nat
  healthyStarted : Bool
  deriving DecidableEq, Repr

/-- Go `newClientConn(p, c)`, with `now` the value of `time.Now()`. -/
def newClientConn (c : Nat) (now : Int) : ClientConn :=
  { conn := c, timeInitiated := now, unhealthy := false, use := 0, useCount := 0 }

/-- Go `(*ClientConn).IsHealthy`. -/
def ClientConn.IsHealthy (c : ClientConn) : Bool := c.unhealthy == false

/-- Go `(*Pool).IsClosed`. -/
def Pool.IsClosed (p : Pool) : Bool := p.close == 1

/-- Go `(*Pool).Capacity`. -/
def Pool.Capacity (p : Pool) : Int := if p.IsClosed then 0 else p.cap

/-- The loop `for i := 0; i < capacity; i++` of `NewWithContext`, with `k`
iterations left; `clock i` is `time.Now()` in iteration `i`. Gives the error
returned from inside the loop, if any. -/
def NewLoop (factory : Factory) (clock : Nat → Int) (fuel : Nat) :
    Nat → Nat → World → Except Fault (Option error × World)
  | 0, _, w => .ok (none, w)
  | k + 1, i, w =>
    match factory w.factoryCalls with
    | .error err => .ok (some err, { w with factoryCalls := w.factoryCalls + 1 })
    | .ok c =>
      let a := w.conns.length
      match Enqueue fuel w.p.clients (some a) with
      | .error e => .error e
      | .ok q1 =>
        NewLoop factory clock fuel k (i + 1)
          { w with p := { w.p with clients := q1 },
                   conns := w.conns ++ [newClientConn c (clock i)],
                   factoryCalls := w.factoryCalls + 1 }

/-- Go `NewWithContext`: the returned `*Pool` (`true` when it is not nil, the
pool is then `p` of the world), the returned error, and the world. -/
def NewWithContext (factory : Factory) (clock : Nat → Int) (fuel : Nat) (capacity : Int)
    (maxLifeDuration : Int) (maxUseCount : Nat) : Except Fault ((Bool × Option error) × World) :=
  let capacity := if capacity < 2 then 2 else capacity
  let p : Pool :=
    { clients := NewQueue Nat, maxLifeDuration := maxLifeDuration, maxUseCount := maxUseCount,
      cap := capacity, close := 0, unHealthyCount := 0 }
  let w : World :=
    { p := p, conns := [], closeLog := [], factoryCalls := 0, healthyStarted := false }
  match NewLoop factory clock fuel capacity.toNat 0 w with
  | .error e => .error e
  | .ok (some err, w1) => .ok ((false, some err), w1)
  | .ok (none, w1) => .ok ((true, none), { w1 with healthyStarted := true })

/-- Go `New`: `NewWithContext` with the background context. -/
def New (factory : Factory) (clock : Nat → Int) (fuel : Nat) (capacity : Int)
    (maxLifeDuration : Int) (maxUseCount : Nat) : Except Fault ((Bool × Option error) × World) :=
  NewWithContext factory clock fuel capacity maxLifeDuration maxUseCount

/-- The body of the loop of `(*Pool).Close`: `v.(*ClientConn).ClientConn.Close()`. -/
def CloseIter (v : Nat) (w : World) : Except Fault World :=
  match w.conns[v]? with
  | none => .error .nilDeref
  | some c => .ok { w with closeLog := w.closeLog ++ [c.conn] }

/-- The loop `for v := p.clients.Dequeue(); v != nil; { ... }` of
`(*Pool).Close` after its init statement: the condition tests `v`, the body
closes `v`, and there is no post statement, so `v` stays what it is. -/
def CloseLoop : Nat → Option Nat → World → Except Fault World
  | _, none, w => .ok w
  | 0, some _, _ => .error .fuel
  | fuel + 1, some v, w =>
    match CloseIter v w with
    | .error e => .error e
    | .ok w1 => CloseLoop fuel (some v) w1

/-- The body of the loop of `(*Pool).Close` run `k` times in a row for the
same `v`. -/
def CloseIters : Nat → Nat → World → Except Fault World
  | 0, _, w => .ok w
  | k + 1, v, w =>
    match CloseIter v w with
    | .error e => .error e
    | .ok w1 => CloseIters k v w1

/-- Go `(*Pool).Close`. -/
def Pool.Close (fuel : Nat) (w : World) : Except Fault World :=
  if w.p.close = 0 then
    let w1 : World := { w with p := { w.p with close := 1 } }
    match Dequeue fuel w1.p.clients with
    | .error e => .error e
    | .ok (v, q1) => CloseLoop fuel v { w1 with p := { w1.p with clients := q1 } }
  else .ok w

/-- The `for` loop of `(*Pool).Get`; `ctx i` tells whether `ctx.Done()` is
ready when the `select` of iteration `i` runs. The queue operations run with
`qfuel`. Gives the returned pair `(*ClientConn, error)` and the world. -/
def GetLoop (ctx : Nat → Bool) (qfuel : Nat) :
    Nat → Nat → World → Except Fault ((Option Nat × Option error) × World)
  | 0, _, _ => .error .fuel
  | fuel + 1, i, w =>
    if ctx i then .ok ((none, some .ErrTimeout), w)
    else
      match Dequeue qfuel w.p.clients with
      | .error e => .error e
      | .ok (none, q1) => GetLoop ctx qfuel fuel (i + 1) { w with p := { w.p with clients := q1 } }
      | .ok (some conn, q1) =>
        match Enqueue qfuel q1 (some conn) with
        | .error e => .error e
        | .ok q2 =>
          match w.conns[conn]? with
          | none => .error .nilDeref
          | some c =>
            if c.IsHealthy then
              let c1 := { c with use := AddUint64 c.use 1 }
              let c2 := { c1 with useCount := AddUint64 c1.useCount 1 }
              .ok ((some conn, none),
                { w with p := { w.p with clients := q2 }, conns := w.conns.set conn c2 })
            else
              GetLoop ctx qfuel fuel (i + 1) { w with p := { w.p with clients := q2 } }

/-- Go `(*Pool).Get(ctx)`; every loop may run `fuel` iterations. -/
def Pool.Get (fuel : Nat) (ctx : Nat → Bool) (w : World) :
    Except Fault ((Option Nat × Option error) × World) :=
  if w.p.IsClosed then .ok ((none, some .ErrClosed), w)
  else GetLoop ctx fuel fuel 0 w

/-- Go `(*ClientConn).Unhealthy` for the object at address `a`. -/
def ClientConn.Unhealthy (a : Nat) (w : World) : Except Fault World :=
  match w.conns[a]? with
  | none => .error .nilDeref
  | some c =>
    if w.p.unHealthyCount < toUint64 (Int.tdiv w.p.cap 2) then
      .ok { w with conns := w.conns.set a { c with unhealthy := true },
                   p := { w.p with unHealthyCount := AddUint64 w.p.unHealthyCount 1 } }
    else .ok w

/-- Go `(*ClientConn).Close` (release) for the object at address `a`, with
`now` the value of `time.Now()`. -/
def ClientConn.Close (now : Int) (a : Nat) (w : World) : Except Fault World :=
  match w.conns[a]? with
  | none => .error .nilDeref
  | some c =>
    let w1 : World := { w with conns := w.conns.set a { c with use := AddUint64 c.use allOnes } }
    let maxDuration := w1.p.maxLifeDuration
    let r2 : Except Fault World :=
      if maxDuration > 0 ∧ c.timeInitiated + maxDuration < now then ClientConn.Unhealthy a w1
      else .ok w1
    match r2 with
    | .error e => .error e
    | .ok w2 =>
      let maxUseCount := w2.p.maxUseCount
      if maxUseCount > 0 ∧ c.useCount > maxUseCount then ClientConn.Unhealthy a w2
      else .ok w2

/-- The body of the loop of `(*Pool).healthy`, one eviction step, without the
sleep; `now` is `time.Now()` in `newClientConn`. -/
def healthyIter (factory : Factory) (now : Int) (fuel : Nat) (w : World) : Except Fault World :=
  match Dequeue fuel w.p.clients with
  | .error e => .error e
  | .ok (none, q1) => .ok { w with p := { w.p with clients := q1 } }
  | .ok (some conn, q1) =>
    match w.conns[conn]? with
    | none => .error .nilDeref
    | some c =>
      if !c.IsHealthy && c.use == 0 then
        match factory w.factoryCalls with
        | .error _ =>
          match Enqueue fuel q1 (some conn) with
          | .error e => .error e
          | .ok q2 =>
            .ok { w with p := { w.p with clients := q2 }, factoryCalls := w.factoryCalls + 1 }
        | .ok r =>
          let a := w.conns.length
          match Enqueue fuel q1 (some a) with
          | .error e => .error e
          | .ok q2 =>
            .ok { w with p := { w.p with clients := q2,
                                          unHealthyCount := AddUint64 w.p.unHealthyCount allOnes },
                         conns := w.conns ++ [newClientConn r now],
                         closeLog := w.closeLog ++ [c.conn],
                         factoryCalls := w.factoryCalls + 1 }
      else
        match Enqueue fuel q1 (some conn) with
        | .error e => .error e
        | .ok q2 => .ok { w with p := { w.p with clients := q2 } }

/-- Go `(*Pool).healthy`: `for !p.IsClosed() { ...; time.Sleep(500ms) }`;
`clock i` is `time.Now()` in iteration `i`. -/
def healthy (factory : Factory) (clock : Nat → Int) (qfuel : Nat) :
    Nat → Nat → World → Except Fault World
  | fuel, i, w =>
    if w.p.IsClosed then .ok w
    else
      match fuel with
      | 0 => .error .fuel
      | fuel + 1 =>
        match healthyIter factory (clock i) qfuel w with
        | .error e => .error e
        | .ok w1 => healthy factory clock qfuel fuel (i + 1) w1


/-- Go `time.Second`, a `time.Duration` in nanoseconds. -/
def Second : Int := 1000000000

/-- The package variable `client` (a `sync.Map` from names to pools): the
pool stored last under a name comes first. -/
abbrev Registry := List (String × World)

/-- Go `Register(name, addr, capacity, maxLifeDuration, maxUseCount, key)`.
The factory handed to `New` dials `addr` with `key`: `factory k` is what its
call number `k` returns. Gives the returned error and the registry. -/
def Register (client : Registry) (factory : Factory) (clock : Nat → Int) (fuel : Nat)
    (name : String) (capacity : Int) (maxLifeDuration : Int) (maxUseCount : Nat) :
    Except Fault (Option error × Registry) :=
  let maxLifeDuration := if maxLifeDuration = 0 then 3600 * Second else maxLifeDuration
  let maxUseCount := if maxUseCount = 0 then 256 else maxUseCount
  match New factory clock fuel capacity maxLifeDuration maxUseCount with
  | .error e => .error e
  | .ok ((_, some err), _) => .ok (some err, client)
  | .ok ((_, none), pool) => .ok (none, (name, pool) :: client)

/-! ## aescbc.go -/

/-- Go `byte(i)` for an `int`. -/
def toByte (i : Int) : Nat := (i % 256).toNat

/-- Go `PKCS7Padding(cipherText, blockSize)` on a slice of bytes; `none` is a
run-time panic (division by zero, or a negative count in `bytes.Repeat`). -/
def PKCS7Padding (cipherText : List Nat) (blockSize : Int) : Option (List Nat) :=
  if blockSize = 0 then none
  else
    let padding : Int := blockSize - Int.tmod (cipherText.length : Int) blockSize
    if padding < 0 then none
    else
      let paddingText := List.replicate padding.toNat (toByte padding)
      some (cipherText ++ paddingText)

/-- Go `PKCS7UnPadding(origData)`; `none` is a run-time panic (index or slice
bound out of range). -/
def PKCS7UnPadding (origData : List Nat) : Option (List Nat) :=
  let length := origData.length
  if length = 0 then none
  else
    match origData[length - 1]? with
    | none => none
    | some b =>
      let unPadding := b
      if length < unPadding then none
      else some (origData.take (length - unPadding))

/-! ## Reading a world -/

/-- The pool's queue holds the handles `l` (addresses of `ClientConn`
objects), oldest first. -/
def Queued (w : World) (l : List Nat) : Prop := QInv w.p.clients (l.map some)

/-- The handle at address `a` of the heap `conns` exists and its `unhealthy`
flag is set. -/
def unhealthyAt (conns : List ClientConn) (a : Nat) : Bool :=
  match conns[a]? with
  | some c => c.unhealthy
  | none => false

/-- Every handle of `l` exists and is unhealthy. -/
def AllUnhealthy (w : World) (l : List Nat) : Prop :=
  ∀ a ∈ l, ∃ c, w.conns[a]? = some c ∧ c.unhealthy = true

/-- The world `w` with the pool's queue replaced by `q`. -/
def World.withClients (w : World) (q : Queue Nat) : World :=
  { w with p := { w.p with clients := q } }

/-! ### Runs of the pool -/

/-- One step of a run of the pool: a completed `Get`, release, or `Close`
call, one eviction step of the background task (its loop runs the body only
while the pool is not closed), or a piece of a `Close` call in progress: its
compare-and-swap with the init statement of its loop (`closeStart`), and one
run of its loop body (`closeSpin`). -/
inductive Step (factory : Factory) : World → World → Prop
  | get (fuel : Nat) (ctx : Nat → Bool) (r : Option Nat × Option error) (w w1 : World) :
      Pool.Get fuel ctx w = .ok (r, w1) → Step factory w w1
  | release (now : Int) (a : Nat) (w w1 : World) :
      ClientConn.Close now a w = .ok w1 → Step factory w w1
  | evict (now : Int) (fuel : Nat) (w w1 : World) :
      w.p.IsClosed = false → healthyIter factory now fuel w = .ok w1 → Step factory w w1
  | close (fuel : Nat) (w w1 : World) :
      Pool.Close fuel w = .ok w1 → Step factory w w1
  | closeStart (fuel : Nat) (w : World) (v : Option Nat) (q : Queue Nat) :
      w.p.close = 0 → Dequeue fuel w.p.clients = .ok (v, q) →
      Step factory w { w with p := { w.p with close := 1, clients := q } }
  | closeSpin (v : Nat) (w w1 : World) :
      CloseIter v w = .ok w1 → Step factory w w1

/-- A step of a run that is not a `Get` call returning the handle at address
`a`. -/
def StepOther (factory : Factory) (a : Nat) (w w1 : World) : Prop :=
  Step factory w w1 ∧
    ¬ ∃ (fuel : Nat) (ctx : Nat → Bool), Pool.Get fuel ctx w = .ok ((some a, none), w1)

/-- The worlds reachable from a successfully constructed pool. -/
def Reachable (factory : Factory) (w : World) : Prop :=
  ∃ (clock : Nat → Int) (fuel : Nat) (capacity maxLifeDuration : Int) (maxUseCount : Nat)
    (w0 : World),
    NewWithContext factory clock fuel capacity maxLifeDuration maxUseCount
      = .ok ((true, none), w0) ∧
    Relation.ReflTransGen (Step factory) w0 w

/-- The invariant of the pool: the queue holds distinct existing handles, as
many as `cap` while the pool is open; the unhealthy ones among them are at
most `unHealthyCount`, which is at most `uint64(cap/2)`; `cap` is at least 2
and the closed flag is 0 or 1. -/
def PoolInv (w : World) : Prop :=
  ∃ l : List Nat, Queued w l ∧ l.Nodup ∧ (∀ a ∈ l, a < w.conns.length) ∧
    l.countP (unhealthyAt w.conns) ≤ w.p.unHealthyCount ∧
    w.p.unHealthyCount ≤ toUint64 (Int.tdiv w.p.cap 2) ∧
    2 ≤ w.p.cap ∧ (w.p.close = 0 ∨ w.p.close = 1) ∧
    (w.p.close = 0 → (l.length : Int) = w.p.cap)

/-- The call `Get(ctx)` made `k` times in a row: the returned pairs, in call
order, and the world. -/
def Gets (fuel : Nat) (ctx : Nat → Bool) :
    Nat → World → Except Fault (List (Option Nat × Option error) × World)
  | 0, w => .ok ([], w)
  | k + 1, w =>
    match Pool.Get fuel ctx w with
    | .error e => .error e
    | .ok (r, w1) =>
      match Gets fuel ctx k w1 with
      | .error e => .error e
      | .ok (rs, w2) => .ok (r :: rs, w2)

/-! ### Example worlds -/

/-- A factory that always succeeds: call `k` gives connection `100 + k`. -/
def exFactory : Factory := fun k => .ok (100 + k)

/-- A factory that fails on its second call (call number 1) with error code
7 and succeeds otherwise. -/
def failFactory : Factory := fun k => if k = 1 then .error (.other 7) else .ok (100 + k)

/-- A clock: iteration `i` runs at time `i`. -/
def exClock : Nat → Int := fun i => i

/-- The queue of a fresh pool of two handles, at addresses 0 and 1. -/
def exQueue : Queue Nat :=
  { nodes := [⟨none, some 1⟩, ⟨some 0, some 2⟩, ⟨some 1, none⟩],
    head := some 0, tail := some 2, len := 2 }

/-- The world built by `New(exFactory, 2, 0, 0)`. -/
def exWorld : World :=
  { p := { clients := exQueue, maxLifeDuration := 0, maxUseCount := 0, close := 0,
           unHealthyCount := 0, cap := 2 },
    conns := [newClientConn 100 0, newClientConn 101 1],
    closeLog := [], factoryCalls := 2, healthyStarted := true }

/-- The world `exWorld` with the handle at address 0 marked unhealthy. -/
def exWorldU : World :=
  { exWorld with
    p := { exWorld.p with unHealthyCount := 1 },
    conns := [{ newClientConn 100 0 with unhealthy := true }, newClientConn 101 1] }

/-- The world `exWorld` with the handle at address 1 marked unhealthy. -/
def exWorldV : World :=
  { exWorld with
    p := { exWorld.p with unHealthyCount := 1 },
    conns := [newClientConn 100 0, { newClientConn 101 1 with unhealthy := true }] }

/-- The world `exWorld` with the closed flag set. -/
def exWorldClosed : World :=
  { exWorld with p := { exWorld.p with close := 1 } }

/-- The world `exWorldV` once `Close` has set the closed flag and its init
statement has dequeued the handle at address 0: the queue holds the unhealthy
handle 1 only. -/
def spinWorld : World :=
  { exWorldV with
    p := { exWorldV.p with
           close := 1,
           clients := { exQueue with head := some 1, len := 1 } } }

/-- The world `exWorld` with a maximal life time of 5 and a maximal use count
of 3. -/
def exWorldLimits : World :=
  { exWorld with p := { exWorld.p with maxLifeDuration := 5, maxUseCount := 3 } }

/-- The world reached from `exWorldLimits` by `Get` (handle 0) and a release
of handle 0 at time 6, which marks it unhealthy for its age: the queue is
`[1, 0]`. -/
def exWorldAged : World :=
  { p := { clients :=
             { nodes := [⟨none, some 1⟩, ⟨some 0, some 2⟩, ⟨some 1, some 3⟩, ⟨some 0, none⟩],
               head := some 1, tail := some 3, len := 2 },
           maxLifeDuration := 5, maxUseCount := 3, close := 0, unHealthyCount := 1, cap := 2 },
    conns := [{ conn := 100, timeInitiated := 0, use := 0, useCount := 1, unhealthy := true },
              { conn := 101, timeInitiated := 1, use := 0, useCount := 0, unhealthy := false }],
    closeLog := [], factoryCalls := 2, healthyStarted := true }

/-- The world reached from `exWorldAged` by `Get` (handle 1) and a release of
handle 1 at time 6: the queue is `[0, 1]`, its head is unhealthy and not in
use. -/
def exWorldEvict : World :=
  { p := { clients :=
             { nodes := [⟨none, some 1⟩, ⟨some 0, some 2⟩, ⟨some 1, some 3⟩, ⟨some 0, some 4⟩,
                         ⟨some 1, none⟩],
               head := some 2, tail := some 4, len := 2 },
           maxLifeDuration := 5, maxUseCount := 3, close := 0, unHealthyCount := 1, cap := 2 },
    conns := [{ conn := 100, timeInitiated := 0, use := 0, useCount := 1, unhealthy := true },
              { conn := 101, timeInitiated := 1, use := 0, useCount := 1, unhealthy := false }],
    closeLog := [], factoryCalls := 2, healthyStarted := true }

/-- A factory that fails on call number 2 (the first call after a pool of two
has been built) with error code 9 and succeeds otherwise. -/
def failFactory2 : Factory := fun k => if k = 2 then .error (.other 9) else .ok (100 + k)

/-- A context that is done from poll `n` on. -/
def ctxAfter (n : Nat) : Nat → Bool := fun i => decide (n ≤ i)

/-- A context that is never done. -/
def ctxNever : Nat → Bool := fun _ => false

/-- A client run: build a pool of two, `Get` (handle 0), release handle 0
twice, `Get` (handle 1). -/
def wrapTrace : Except Fault World :=
  match New exFactory exClock 1 2 0 0 with
  | .error e => .error e
  | .ok (_, w0) =>
    match Pool.Get 1 ctxNever w0 with
    | .error e => .error e
    | .ok (_, w1) =>
      match ClientConn.Close 5 0 w1 with
      | .error e => .error e
      | .ok w2 =>
        match ClientConn.Close 6 0 w2 with
        | .error e => .error e
        | .ok w3 =>
          match Pool.Get 1 ctxNever w3 with
          | .error e => .error e
          | .ok (_, w4) => .ok w4

/-- The world at the end of `wrapTrace`: the queue is `[0, 1]` again, handle 0
has been released once more than acquired. -/
def wrapWorld : World :=
  { p := { clients :=
             { nodes := [⟨none, some 1⟩, ⟨some 0, some 2⟩, ⟨some 1, some 3⟩, ⟨some 0, some 4⟩,
                         ⟨some 1, none⟩],
               head := some 2, tail := some 4, len := 2 },
           maxLifeDuration := 0, maxUseCount := 0, close := 0, unHealthyCount := 0, cap := 2 },
    conns := [{ conn := 100, timeInitiated := 0, use := 18446744073709551615, useCount := 1,
                unhealthy := false },
              { conn := 101, timeInitiated := 1, use := 1, useCount := 1, unhealthy := false }],
    closeLog := [], factoryCalls := 2, healthyStarted := true }

/-- The fresh pool of four handles with `maxLifeDuration = 5` and
`maxUseCount = 1`, as built by `New exFactory exClock 1 4 5 1`. -/
def doubleCountStart : World :=
  { p := { clients :=
             { nodes := [⟨none, some 1⟩, ⟨some 0, some 2⟩, ⟨some 1, some 3⟩, ⟨some 2, some 4⟩,
                         ⟨some 3, none⟩],
               head := some 0, tail := some 4, len := 4 },
           maxLifeDuration := 5, maxUseCount := 1, close := 0, unHealthyCount := 0, cap := 4 },
    conns := [{ conn := 100, timeInitiated := 0, use := 0, useCount := 0, unhealthy := false },
              { conn := 101, timeInitiated := 1, use := 0, useCount := 0, unhealthy := false },
              { conn := 102, timeInitiated := 2, use := 0, useCount := 0, unhealthy := false },
              { conn := 103, timeInitiated := 3, use := 0, useCount := 0, unhealthy := false }],
    closeLog := [], factoryCalls := 4, healthyStarted := true }

/-- The world reached from `doubleCountStart` by five `Get` calls, which return
the handles 0, 1, 2, 3, 0: the queue is `[1, 2, 3, 0]`, no handle is
unhealthy. -/
def doubleCountBefore : World :=
  { p := { clients :=
             { nodes := [⟨none, some 1⟩, ⟨some 0, some 2⟩, ⟨some 1, some 3⟩, ⟨some 2, some 4⟩,
                         ⟨some 3, some 5⟩, ⟨some 0, some 6⟩, ⟨some 1, some 7⟩,
                         ⟨some 2, some 8⟩, ⟨some 3, some 9⟩, ⟨some 0, none⟩],
               head := some 5, tail := some 9, len := 4 },
           maxLifeDuration := 5, maxUseCount := 1, close := 0, unHealthyCount := 0, cap := 4 },
    conns := [{ conn := 100, timeInitiated := 0, use := 2, useCount := 2, unhealthy := false },
              { conn := 101, timeInitiated := 1, use := 1, useCount := 1, unhealthy := false },
              { conn := 102, timeInitiated := 2, use := 1, useCount := 1, unhealthy := false },
              { conn := 103, timeInitiated := 3, use := 1, useCount := 1, unhealthy := false }],
    closeLog := [], factoryCalls := 4, healthyStarted := true }

/-- The world reached from `doubleCountBefore` by one release of handle 0 at
time 6, when both its age and its use count are over the limit. -/
def doubleCountWorld : World :=
  { doubleCountBefore with
    p := { doubleCountBefore.p with unHealthyCount := 2 },
    conns := [{ conn := 100, timeInitiated := 0, use := 1, useCount := 2, unhealthy := true },
              { conn := 101, timeInitiated := 1, use := 1, useCount := 1, unhealthy := false },
              { conn := 102, timeInitiated := 2, use := 1, useCount := 1, unhealthy := false },
              { conn := 103, timeInitiated := 3, use := 1, useCount := 1, unhealthy := false }] }

/-! ## Theorems: the queue -/

theorem EnqueueLoop_spec {α : Type} (q : Queue α) (l : List (Option α)) (v : Option α)
    (fuel : Nat) (hq : QInv q l) :
    ∃ q1, EnqueueLoop q.nodes.length (fuel + 1)
        { q with nodes := q.nodes ++ [{ value := v, next := none }] } = .ok q1 ∧
      QInv q1 (l ++ [v]) ∧ q1.len = q.len := by
  obtain ⟨h, hh, ht, hlen, hval, hnext⟩ := hq
  have hlt : h + l.length < q.nodes.length := by omega
  obtain ⟨tnode, htn⟩ : ∃ nd, q.nodes[h + l.length]? = some nd :=
    ⟨q.nodes[h + l.length], List.getElem?_eq_getElem hlt⟩
  have htnext : tnode.next = none := by
    have := hnext _ _ htn
    rw [this, if_neg (by omega)]
  have hd : (q.nodes ++ [({ value := v, next := none } : node α)])[h + l.length]? = some tnode := by
    rw [List.getElem?_append_left hlt, htn]
  refine ⟨{ nodes := (q.nodes ++ [({ value := v, next := none } : node α)]).set (h + l.length)
              { tnode with next := some q.nodes.length },
            head := q.head, tail := some q.nodes.length, len := q.len }, ?_, ?_, rfl⟩
  · simp only [EnqueueLoop, deref, ht, hd, htnext, casNext, cas, if_true]
  · refine ⟨h, hh, ?_, ?_, ?_, ?_⟩
    · simp [hlen]; omega
    · simp [hlen]; omega
    · intro i
      show Option.map _ ((q.nodes ++ [_]).set _ _)[h + 1 + i]? = _
      rw [List.getElem?_set]
      by_cases hi : h + l.length = h + 1 + i
      · have hi' : i < l.length := by omega
        have := hval i
        rw [← hi, htn] at this
        simp [hi, List.getElem?_append_left hi', ← this]
        omega
      · rw [if_neg hi]
        by_cases h2 : i < l.length
        · rw [List.getElem?_append_left (by omega), List.getElem?_append_left h2]
          exact hval i
        · by_cases h3 : i = l.length
          · subst h3
            rw [List.getElem?_append_right (by omega), List.getElem?_append_right (by omega)]
            have e : h + 1 + l.length - q.nodes.length = 0 := by omega
            simp [e]
          · rw [List.getElem?_eq_none (by simp; omega), List.getElem?_eq_none (by simp; omega)]
            rfl
    · intro i nd
      show ((q.nodes ++ [_]).set _ _)[i]? = _ → _
      rw [List.getElem?_set]
      simp only [List.length_set, List.length_append, List.length_singleton]
      by_cases hi : h + l.length = i
      · subst hi
        simp only [if_true]
        rw [if_pos (by omega)]
        intro e
        cases e
        simp [hlen]
      · rw [if_neg hi]
        by_cases h2 : i < q.nodes.length
        · rw [List.getElem?_append_left h2]
          intro e
          rw [hnext i nd e]
          have : i + 1 < q.nodes.length := by omega
          simp [this]; omega
        · by_cases h3 : i = q.nodes.length
          · subst h3
            rw [List.getElem?_append_right (by omega)]
            simp
            intro e; subst e; rfl
          · rw [List.getElem?_eq_none (by simp; omega)]
            intro e; cases e

theorem QInv_NewQueue (α : Type) : QInv (NewQueue α) [] := by
  refine ⟨0, rfl, rfl, rfl, ?_, ?_⟩
  · intro i; simp [NewQueue]
  · intro i nd
    cases i with
    | zero => simp [NewQueue]; intro e; subst e; rfl
    | succ i => simp [NewQueue]

theorem DequeueLoop_nil {α : Type} (q : Queue α) (fuel : Nat) (hq : QInv q []) :
    DequeueLoop (fuel + 1) q = .ok (none, q) := by
  obtain ⟨h, hh, ht, hlen, hval, hnext⟩ := hq
  simp only [List.length_nil, Nat.add_zero] at ht hlen
  obtain ⟨hnode, hhn⟩ : ∃ nd, q.nodes[h]? = some nd :=
    ⟨q.nodes[h], List.getElem?_eq_getElem (by omega)⟩
  have hn : hnode.next = none := by
    rw [hnext _ _ hhn, if_neg (by omega)]
  simp only [DequeueLoop, deref, hh, ht, hhn, hn, if_true]

theorem DequeueLoop_cons {α : Type} (q : Queue α) (x : Option α) (l : List (Option α))
    (fuel : Nat) (hq : QInv q (x :: l)) :
    ∃ q1, DequeueLoop (fuel + 1) q = .ok (x, q1) ∧ QInv q1 l ∧ q1.len = q.len := by
  obtain ⟨h, hh, ht, hlen, hval, hnext⟩ := hq
  simp only [List.length_cons] at ht hlen
  obtain ⟨hnode, hhn⟩ : ∃ nd, q.nodes[h]? = some nd :=
    ⟨q.nodes[h], List.getElem?_eq_getElem (by omega)⟩
  obtain ⟨nnode, hnn⟩ : ∃ nd, q.nodes[h + 1]? = some nd :=
    ⟨q.nodes[h + 1], List.getElem?_eq_getElem (by omega)⟩
  have hn : hnode.next = some (h + 1) := by
    rw [hnext _ _ hhn, if_pos (by omega)]
  have hv : nnode.value = x := by
    have := hval 0
    simpa [hnn] using this
  have hne : ¬ (some h = some (h + (l.length + 1))) := by
    intro e; injection e; omega
  refine ⟨{ q with head := some (h + 1) }, ?_, ?_, rfl⟩
  · simp only [DequeueLoop, deref, hh, ht, hhn, hn, hnn, hv, cas, if_true, hne, if_false]
  · refine ⟨h + 1, rfl, ?_, ?_, ?_, hnext⟩
    · show q.tail = _
      rw [ht]; congr 1; omega
    · show q.nodes.length = _
      omega
    · intro i
      have := hval (i + 1)
      simp only [List.getElem?_cons_succ] at this
      rw [← this]
      congr 2
      omega
  
theorem QInv_len {α : Type} (q : Queue α) (l : List (Option α)) (n : Nat) (hq : QInv q l) :
    QInv { q with len := n } l := by
  obtain ⟨h, h1, h2, h3, h4, h5⟩ := hq
  exact ⟨h, h1, h2, h3, h4, h5⟩

theorem Enqueue_spec {α : Type} (q : Queue α) (l : List (Option α)) (v : Option α)
    (fuel : Nat) (hq : QInv q l) :
    ∃ q1, Enqueue (fuel + 1) q v = .ok q1 ∧ QInv q1 (l ++ [v]) ∧
      q1.len = AddUint64 q.len 1 := by
  obtain ⟨q1, h1, h2, h3⟩ := EnqueueLoop_spec q l v fuel hq
  refine ⟨{ q1 with len := AddUint64 q1.len 1 }, ?_, ?_, ?_⟩
  · simp only [Enqueue, h1]
  · exact QInv_len q1 _ _ h2
  · show AddUint64 q1.len 1 = _
    rw [h3]

theorem Dequeue_nil {α : Type} (q : Queue α) (fuel : Nat) (hq : QInv q []) :
    Dequeue (fuel + 1) q = .ok (none, q) := by
  simp [Dequeue, DequeueLoop_nil q fuel hq]

theorem Dequeue_cons {α : Type} (q : Queue α) (x : Option α) (l : List (Option α))
    (fuel : Nat) (hq : QInv q (x :: l)) :
    ∃ q1, Dequeue (fuel + 1) q = .ok (x, q1) ∧ QInv q1 l := by
  obtain ⟨q1, h1, h2, _⟩ := DequeueLoop_cons q x l fuel hq
  cases x with
  | none =>
    refine ⟨q1, ?_, h2⟩
    simp only [Dequeue, h1, Option.isSome_none, Bool.false_eq_true, if_false]
  | some x =>
    refine ⟨{ q1 with len := AddUint64 q1.len allOnes }, ?_, ?_⟩
    · simp only [Dequeue, h1, Option.isSome_some, if_true]
    · exact QInv_len q1 _ _ h2

theorem Dequeue_inv {α : Type} (q q1 : Queue α) (l : List (Option α)) (v : Option α)
    (fuel : Nat) (hq : QInv q l) (h : Dequeue fuel q = .ok (v, q1)) :
    (l = [] ∧ v = none ∧ q1 = q) ∨ (∃ l1, l = v :: l1 ∧ QInv q1 l1) := by
  cases fuel with
  | zero => simp [Dequeue, DequeueLoop] at h
  | succ fuel =>
    cases l with
    | nil =>
      rw [Dequeue_nil q fuel hq] at h
      injection h with h
      injection h with h1 h2
      exact Or.inl ⟨rfl, h1.symm, h2.symm⟩
    | cons x l =>
      obtain ⟨q2, e, hq2⟩ := Dequeue_cons q x l fuel hq
      rw [e] at h
      injection h with h
      injection h with h1 h2
      subst h1; subst h2
      exact Or.inr ⟨l, rfl, hq2⟩

theorem Enqueue_inv {α : Type} (q q1 : Queue α) (l : List (Option α)) (v : Option α)
    (fuel : Nat) (hq : QInv q l) (h : Enqueue fuel q v = .ok q1) : QInv q1 (l ++ [v]) := by
  cases fuel with
  | zero => simp [Enqueue, EnqueueLoop] at h
  | succ fuel =>
    obtain ⟨q2, e, hq2, _⟩ := Enqueue_spec q l v fuel hq
    rw [e] at h
    injection h with h
    subst h
    exact hq2

theorem runQueue_refines {α : Type} (fuel : Nat) (ops : List (QOp α)) :
    ∀ (q : Queue α) (l : List α), QInv q (l.map some) →
      runQueue (fuel + 1) ops q = .ok (runModel ops l) := by
  induction ops with
  | nil => intro q l _; rfl
  | cons op ops ih =>
    intro q l hq
    cases op with
    | enq v =>
      obtain ⟨q1, h1, h2, _⟩ := Enqueue_spec q _ (some v) fuel hq
      have h2' : QInv q1 ((l ++ [v]).map some) := by simpa using h2
      simp only [runQueue, h1, runModel, ih q1 _ h2']
    | deq =>
      cases l with
      | nil =>
        have h1 := Dequeue_nil q fuel (by simpa using hq)
        simp only [runQueue, h1, runModel, ih q [] hq]
      | cons x l =>
        obtain ⟨q1, h1, h2⟩ := Dequeue_cons q (some x) (l.map some) fuel (by simpa using hq)
        simp only [runQueue, h1, runModel, ih q1 l h2]

/-- C1: run sequentially from `NewQueue()`, with any positive loop bound, every
sequence of `Enqueue(v)` (`v` non-nil) and `Dequeue` calls returns from each
`Dequeue` exactly what the FIFO list model returns: the oldest value not yet
dequeued, or nil when the model is empty. -/
theorem Queue_refines_fifo {α : Type} (fuel : Nat) (ops : List (QOp α)) :
    runQueue (fuel + 1) ops (NewQueue α) = .ok (runModel ops []) :=
  runQueue_refines fuel ops (NewQueue α) [] (QInv_NewQueue α)

/-! ## Theorems: `Get` -/

theorem GetLoop_done (ctx : Nat → Bool) (qfuel fuel i : Nat) (w : World) (h : ctx i = true) :
    GetLoop ctx qfuel (fuel + 1) i w = .ok ((none, some .ErrTimeout), w) := by
  simp only [GetLoop, h, if_true]

theorem GetLoop_skip_one (ctx : Nat → Bool) (qfuel fuel i : Nat) (w : World) (a : Nat)
    (l : List Nat) (c : ClientConn) (hctx : ctx i = false) (hq : Queued w (a :: l))
    (hc : w.conns[a]? = some c) (hu : c.unhealthy = true) :
    ∃ q, GetLoop ctx (qfuel + 1) (fuel + 1) i w
        = GetLoop ctx (qfuel + 1) fuel (i + 1) (w.withClients q) ∧
      QInv q ((l ++ [a]).map some) := by
  obtain ⟨q1, e1, hq1⟩ := Dequeue_cons w.p.clients (some a) (l.map some) qfuel hq
  obtain ⟨q2, e2, hq2, _⟩ := Enqueue_spec q1 (l.map some) (some a) qfuel hq1
  refine ⟨q2, ?_, by simpa using hq2⟩
  simp only [GetLoop, hctx, e1, e2, hc, ClientConn.IsHealthy, hu, World.withClients]
  rfl

theorem GetLoop_hit (ctx : Nat → Bool) (qfuel fuel i : Nat) (w : World) (a : Nat)
    (l : List Nat) (c : ClientConn) (hctx : ctx i = false) (hq : Queued w (a :: l))
    (hc : w.conns[a]? = some c) (hu : c.unhealthy = false) :
    ∃ q, GetLoop ctx (qfuel + 1) (fuel + 1) i w
        = .ok ((some a, none),
            { w.withClients q with
              conns := w.conns.set a
                { c with use := AddUint64 c.use 1, useCount := AddUint64 c.useCount 1 } }) ∧
      QInv q ((l ++ [a]).map some) := by
  obtain ⟨q1, e1, hq1⟩ := Dequeue_cons w.p.clients (some a) (l.map some) qfuel hq
  obtain ⟨q2, e2, hq2, _⟩ := Enqueue_spec q1 (l.map some) (some a) qfuel hq1
  refine ⟨q2, ?_, by simpa using hq2⟩
  simp only [GetLoop, hctx, e1, e2, hc, ClientConn.IsHealthy, hu, World.withClients]
  rfl

theorem GetLoop_empty (ctx : Nat → Bool) (qfuel fuel i : Nat) (w : World)
    (hctx : ctx i = false) (hq : Queued w []) :
    GetLoop ctx (qfuel + 1) (fuel + 1) i w = GetLoop ctx (qfuel + 1) fuel (i + 1) w := by
  have e1 := Dequeue_nil w.p.clients qfuel hq
  simp only [GetLoop, hctx, e1]
  rfl

theorem GetLoop_skip (ctx : Nat → Bool) (qfuel : Nat) :
    ∀ (pre rest : List Nat) (fuel i : Nat) (w : World),
      Queued w (pre ++ rest) → AllUnhealthy w pre →
      (∀ j, j < pre.length → ctx (i + j) = false) →
      ∃ q, GetLoop ctx (qfuel + 1) (fuel + pre.length) i w
          = GetLoop ctx (qfuel + 1) fuel (i + pre.length) (w.withClients q) ∧
        QInv q ((rest ++ pre).map some) := by
  intro pre
  induction pre with
  | nil =>
    intro rest fuel i w hq _ _
    exact ⟨w.p.clients, rfl, by simpa [Queued] using hq⟩
  | cons a pre ih =>
    intro rest fuel i w hq hu hctx
    obtain ⟨c, hc, hcu⟩ := hu a (List.mem_cons_self a pre)
    have h0 : ctx i = false := by simpa using hctx 0 (by simp)
    obtain ⟨q1, e1, hq1⟩ := GetLoop_skip_one ctx qfuel (fuel + pre.length) i w a (pre ++ rest) c
      h0 hq hc hcu
    have hq1' : Queued (w.withClients q1) (pre ++ (rest ++ [a])) := by
      simpa [Queued, World.withClients] using hq1
    have hu' : AllUnhealthy (w.withClients q1) pre := fun b hb =>
      hu b (List.mem_cons_of_mem a hb)
    have hctx' : ∀ j, j < pre.length → ctx (i + 1 + j) = false := by
      intro j hj
      have := hctx (j + 1) (by simpa using hj)
      rwa [show i + (j + 1) = i + 1 + j by omega] at this
    obtain ⟨q2, e2, hq2⟩ := ih (rest ++ [a]) fuel (i + 1) (w.withClients q1) hq1' hu' hctx'
    refine ⟨q2, ?_, by simpa using hq2⟩
    rw [List.length_cons, show fuel + (pre.length + 1) = fuel + pre.length + 1 by omega, e1, e2,
      show i + 1 + pre.length = i + (pre.length + 1) by omega]
    rfl

theorem GetLoop_spin (ctx : Nat → Bool) (qfuel : Nat) :
    ∀ (k : Nat) (l : List Nat) (fuel i : Nat) (w : World),
      Queued w l → AllUnhealthy w l → (∀ j, j < k → ctx (i + j) = false) →
      ∃ q, GetLoop ctx (qfuel + 1) (fuel + k) i w
          = GetLoop ctx (qfuel + 1) fuel (i + k) (w.withClients q) ∧
        QInv q ((l.rotate k).map some) := by
  intro k
  induction k with
  | zero =>
    intro l fuel i w hq _ _
    exact ⟨w.p.clients, rfl, by simpa [Queued] using hq⟩
  | succ k ih =>
    intro l fuel i w hq hu hctx
    have h0 : ctx i = false := by simpa using hctx 0 (by simp)
    have hctx' : ∀ j, j < k → ctx (i + 1 + j) = false := by
      intro j hj
      have := hctx (j + 1) (by omega)
      rwa [show i + (j + 1) = i + 1 + j by omega] at this
    cases l with
    | nil =>
      obtain ⟨q2, e2, hq2⟩ := ih [] fuel (i + 1) w hq hu hctx'
      refine ⟨q2, ?_, by simpa using hq2⟩
      rw [show fuel + (k + 1) = fuel + k + 1 by omega, GetLoop_empty ctx qfuel _ i w h0 hq, e2,
        show i + 1 + k = i + (k + 1) by omega]
    | cons a l =>
      obtain ⟨c, hc, hcu⟩ := hu a (List.mem_cons_self a l)
      obtain ⟨q1, e1, hq1⟩ := GetLoop_skip_one ctx qfuel (fuel + k) i w a l c h0 hq hc hcu
      have hu' : AllUnhealthy (w.withClients q1) (l ++ [a]) := by
        intro b hb
        apply hu b
        simp only [List.mem_append, List.mem_singleton] at hb
        rcases hb with hb | hb
        · exact List.mem_cons_of_mem a hb
        · subst hb; exact List.mem_cons_self _ _
      obtain ⟨q2, e2, hq2⟩ := ih (l ++ [a]) fuel (i + 1) (w.withClients q1) hq1 hu' hctx'
      refine ⟨q2, ?_, by simpa [List.rotate_cons_succ] using hq2⟩
      rw [show fuel + (k + 1) = fuel + k + 1 by omega, e1, e2,
        show i + 1 + k = i + (k + 1) by omega]
      rfl

/-! ## Theorems: the example worlds -/

theorem exQueue_QInv : QInv exQueue [some 0, some 1] := by
  have h1 := Enqueue_inv (NewQueue Nat) _ [] (some 0) 1 (QInv_NewQueue Nat) rfl
  exact Enqueue_inv _ exQueue _ (some 1) 1 h1 rfl

theorem exWorld_Queued : Queued exWorld [0, 1] := exQueue_QInv

theorem exWorldU_Queued : Queued exWorldU [0, 1] := exQueue_QInv

theorem exWorld_New : New exFactory exClock 1 2 0 0 = .ok ((true, none), exWorld) := by
  rfl

theorem exWorldV_Queued : Queued exWorldV [0, 1] := exQueue_QInv

theorem spinWorld_Queued : Queued spinWorld [1] := by
  obtain ⟨q1, e, hq⟩ := Dequeue_cons exQueue (some 0) [some 1] 0 exQueue_QInv
  have e2 : Dequeue 1 exQueue = .ok (some 0, spinWorld.p.clients) := rfl
  rw [e2] at e
  injection e with e
  injection e with _ e
  rw [← e] at hq
  exact hq

theorem wrapWorld_Queued : Queued wrapWorld [0, 1] := by
  have h1 := Enqueue_inv (NewQueue Nat) _ [] (some 0) 1 (QInv_NewQueue Nat) rfl
  have h2 := Enqueue_inv _ _ _ (some 1) 1 h1 rfl
  obtain ⟨l1, e1, h3⟩ := (Dequeue_inv _ _ _ (some 0) 1 h2 rfl).resolve_left (by simp)
  have h4 := Enqueue_inv _ _ _ (some 0) 1 h3 rfl
  obtain ⟨l2, e2, h5⟩ := (Dequeue_inv _ _ _ (some 1) 1 h4 rfl).resolve_left (by simp)
  have h6 := Enqueue_inv _ wrapWorld.p.clients _ (some 1) 1 h5 rfl
  simp at e1
  subst e1
  simp at e2
  subst e2
  exact h6

theorem wrapTrace_eq : wrapTrace = .ok wrapWorld := by rfl

/-! ## Theorems: the claims about `Get` -/

theorem AddUint64_one (x : Nat) (h : x + 1 < u64) : AddUint64 x 1 = x + 1 := by
  unfold AddUint64
  exact Nat.mod_eq_of_lt h

theorem GetLoop_never_ErrClosed (ctx : Nat → Bool) (qfuel : Nat) :
    ∀ (fuel i : Nat) (w w1 : World) (r : Option Nat × Option error),
      GetLoop ctx qfuel fuel i w = .ok (r, w1) → r.2 ≠ some .ErrClosed := by
  intro fuel
  induction fuel with
  | zero => intro i w w1 r h; simp [GetLoop] at h
  | succ fuel ih =>
    intro i w w1 r h
    unfold GetLoop at h
    split at h
    · injection h with h
      injection h with h _
      subst h
      simp
    · split at h
      · cases h
      · exact ih _ _ _ _ h
      · split at h
        · cases h
        · split at h
          · cases h
          · split at h
            · injection h with h
              injection h with h _
              subst h
              simp
            · exact ih _ _ _ _ h

/-- C4: for every closed pool and every context, cancelled or not, `Get`
returns `(nil, ErrClosed)` and the whole world — the queue and every handle's
counters — is what it was. -/
theorem Get_closed (fuel : Nat) (ctx : Nat → Bool) (w : World) (hclosed : w.p.IsClosed = true) :
    Pool.Get fuel ctx w = .ok ((none, some .ErrClosed), w) := by
  simp only [Pool.Get, hclosed, if_true]

theorem Get_closed_witness :
    exWorldClosed.p.IsClosed = true ∧
      Pool.Get 0 (ctxAfter 0) exWorldClosed = .ok ((none, some .ErrClosed), exWorldClosed) ∧
      Pool.Get 3 ctxNever exWorldClosed = .ok ((none, some .ErrClosed), exWorldClosed) :=
  ⟨rfl, Get_closed 0 (ctxAfter 0) exWorldClosed rfl, Get_closed 3 ctxNever exWorldClosed rfl⟩

/-- C6: for every open pool, (1) `Get` with a context that is already done
returns `(nil, ErrTimeout)` and leaves the world as it was, nothing is
dequeued; (2) in every iteration of the retry loop and every world, a done
context makes the loop return `(nil, ErrTimeout)` before it touches the queue;
(3) when the handles `pre` at the front of the queue are unhealthy and the
context becomes done exactly at iteration `pre.length`, `Get` skips `pre`
(each is re-enqueued at the back) and then returns `(nil, ErrTimeout)`,
having changed nothing but the queue order. -/
theorem Get_cancelled (fuel : Nat) (ctx : Nat → Bool) (w : World)
    (hopen : w.p.IsClosed = false) :
    (ctx 0 = true → Pool.Get (fuel + 1) ctx w = .ok ((none, some .ErrTimeout), w)) ∧
    (∀ (qfuel n i : Nat) (w1 : World), ctx i = true →
      GetLoop ctx qfuel (n + 1) i w1 = .ok ((none, some .ErrTimeout), w1)) ∧
    (∀ (pre rest : List Nat), Queued w (pre ++ rest) → AllUnhealthy w pre →
      (∀ j, j < pre.length → ctx j = false) → ctx pre.length = true → pre.length ≤ fuel →
      ∃ q, Pool.Get (fuel + 1) ctx w = .ok ((none, some .ErrTimeout), w.withClients q) ∧
        QInv q ((rest ++ pre).map some)) := by
  refine ⟨?_, ?_, ?_⟩
  · intro h0
    simp only [Pool.Get, hopen, Bool.false_eq_true, if_false]
    exact GetLoop_done ctx _ fuel 0 w h0
  · intro qfuel n i w1 h
    exact GetLoop_done ctx qfuel n i w1 h
  · intro pre rest hq hu hctx hdone hfuel
    obtain ⟨q, e, hq1⟩ := GetLoop_skip ctx fuel pre rest (fuel - pre.length + 1) 0 w hq hu
      (by intro j hj; simpa using hctx j hj)
    refine ⟨q, ?_, hq1⟩
    simp only [Pool.Get, hopen, Bool.false_eq_true, if_false]
    rw [show fuel - pre.length + 1 + pre.length = fuel + 1 by omega] at e
    rw [e]
    exact GetLoop_done ctx _ _ _ _ (by simpa using hdone)

theorem Get_cancelled_witness :
    exWorldU.p.IsClosed = false ∧
    Pool.Get 2 (ctxAfter 0) exWorldU = .ok ((none, some .ErrTimeout), exWorldU) ∧
    (∃ q, Pool.Get 2 (ctxAfter 1) exWorldU = .ok ((none, some .ErrTimeout), exWorldU.withClients q) ∧
      QInv q (([1] ++ [0]).map some)) :=
  ⟨rfl, (Get_cancelled 1 (ctxAfter 0) exWorldU rfl).1 rfl,
    (Get_cancelled 1 (ctxAfter 1) exWorldU rfl).2.2 [0] [1] exWorldU_Queued
      (by intro a ha
          simp only [List.mem_singleton] at ha
          subst ha
          exact ⟨_, rfl, rfl⟩)
      (by intro j hj
          simp only [List.length_singleton, Nat.lt_one_iff] at hj
          subst hj
          rfl)
      rfl (by simp)⟩

/-- C3 (as stated, refuted): in the open pool `wrapWorld`, reached by
`wrapTrace` (handle 0 acquired once and released twice), the queue is `[0, 1]`,
handle 0 is healthy with `use = 2^64 - 1`; `Get` with a live context returns
handle 0 and its `use` becomes 0: it has not been increased by 1. -/
theorem Get_use_wraps :
    wrapTrace = .ok wrapWorld ∧ wrapWorld.p.IsClosed = false ∧ Queued wrapWorld [0, 1] ∧
      (wrapWorld.conns[0]?).map (fun c => (c.unhealthy, c.use)) =
        some (false, 18446744073709551615) ∧
      ∃ w1, Pool.Get 1 ctxNever wrapWorld = .ok ((some 0, none), w1) ∧
        (w1.conns[0]?).map (fun c => c.use) = some 0 ∧
        (0 : Nat) ≠ 18446744073709551615 + 1 :=
  ⟨rfl, rfl, wrapWorld_Queued, rfl, _, rfl, rfl, by decide⟩

/-- C3 (amended): for every open pool whose queue is `pre ++ hk :: post` with
every handle of `pre` unhealthy and `hk` healthy, and a context that is not
done during the first `pre.length + 1` polls, `Get` returns `hk` with no
error; `hk.use` and `hk.useCount` are each increased by 1 modulo `2^64` (by
exactly 1 unless the counter was `2^64 - 1`); the queue becomes
`post ++ pre ++ [hk]`; no other handle and nothing else in the world
changes. -/
theorem Get_first_healthy (fuel : Nat) (ctx : Nat → Bool) (w : World) (pre post : List Nat)
    (hk : Nat) (c : ClientConn) (hopen : w.p.IsClosed = false)
    (hctx : ∀ j, j ≤ pre.length → ctx j = false) (hq : Queued w (pre ++ hk :: post))
    (hpre : AllUnhealthy w pre) (hc : w.conns[hk]? = some c) (hh : c.IsHealthy = true)
    (hfuel : pre.length ≤ fuel) :
    ∃ q, Pool.Get (fuel + 1) ctx w =
        .ok ((some hk, none),
          { w.withClients q with
            conns := w.conns.set hk
              { c with use := AddUint64 c.use 1, useCount := AddUint64 c.useCount 1 } }) ∧
      QInv q ((post ++ pre ++ [hk]).map some) ∧
      (∀ b, b ≠ hk →
        (w.conns.set hk
          { c with use := AddUint64 c.use 1, useCount := AddUint64 c.useCount 1 })[b]? =
          w.conns[b]?) ∧
      (c.use + 1 < u64 → AddUint64 c.use 1 = c.use + 1) ∧
      (c.useCount + 1 < u64 → AddUint64 c.useCount 1 = c.useCount + 1) := by
  have hu : c.unhealthy = false := by simpa [ClientConn.IsHealthy] using hh
  obtain ⟨q1, e1, hq1⟩ := GetLoop_skip ctx fuel pre (hk :: post) (fuel - pre.length + 1) 0 w hq
    hpre (by intro j hj; simpa using hctx j (by omega))
  rw [show fuel - pre.length + 1 + pre.length = fuel + 1 by omega] at e1
  have hq1' : Queued (w.withClients q1) (hk :: (post ++ pre)) := by
    simpa [Queued, World.withClients] using hq1
  obtain ⟨q2, e2, hq2⟩ := GetLoop_hit ctx fuel (fuel - pre.length) (0 + pre.length)
    (w.withClients q1) hk (post ++ pre) c (by simpa using hctx pre.length (le_refl _)) hq1' hc hu
  refine ⟨q2, ?_, by simpa using hq2, ?_, AddUint64_one _, AddUint64_one _⟩
  · simp only [Pool.Get, hopen, Bool.false_eq_true, if_false]
    rw [e1, e2]
    rfl
  · intro b hb
    exact List.getElem?_set_ne (Ne.symm hb)

theorem Get_first_healthy_witness :
    ∃ q, Pool.Get 2 ctxNever exWorldU =
        .ok ((some 1, none),
          { exWorldU.withClients q with
            conns := exWorldU.conns.set 1
              { newClientConn 101 1 with
                use := AddUint64 (newClientConn 101 1).use 1,
                useCount := AddUint64 (newClientConn 101 1).useCount 1 } }) ∧
      QInv q (([] ++ [0] ++ [1]).map some) :=
  have h := Get_first_healthy 1 ctxNever exWorldU [0] [] 1 (newClientConn 101 1) rfl
    (fun _ _ => rfl) exWorldU_Queued
    (by intro a ha
        simp only [List.mem_singleton] at ha
        subst ha
        exact ⟨_, rfl, rfl⟩)
    rfl rfl (by simp)
  ⟨h.choose, h.choose_spec.1, h.choose_spec.2.1⟩

/-- C5 (as stated, refuted): `exWorldV` is open, so a `Get` call passes its
entry check; `Close` then sets the closed flag and dequeues handle 0, giving
`spinWorld`, whose only queued handle is unhealthy. With a context that is
done from poll 3 on, the retry loop of that `Get` in the closed pool is still
running after three iterations and returns `(nil, ErrTimeout)` in the
fourth: it never returns `ErrClosed`. -/
theorem Get_spin_closed_timeout :
    exWorldV.p.IsClosed = false ∧
      Dequeue 1 exWorldV.p.clients = .ok (some 0, spinWorld.p.clients) ∧
      spinWorld.p.IsClosed = true ∧
      (spinWorld.conns[1]?).map (fun c => c.unhealthy) = some true ∧
      GetLoop (ctxAfter 3) 1 3 0 spinWorld = .error .fuel ∧
      ∃ w1, GetLoop (ctxAfter 3) 1 4 0 spinWorld = .ok ((none, some .ErrTimeout), w1) :=
  ⟨rfl, rfl, rfl, rfl, rfl, _, rfl⟩

/-- C5 (amended): the closed flag is read once, on entry to `Get`; the retry
loop never reads it and never returns `ErrClosed`. If the pool is closed
while the loop is at iteration `i`, every queued handle is unhealthy, and the
context is first done at iteration `i + k`, the loop runs `k` more
iterations (rotating the queue `k` times) and returns `(nil, ErrTimeout)`. -/
theorem GetLoop_closed_spins (ctx : Nat → Bool) (qfuel n k i : Nat) (w : World) (l : List Nat)
    (hclosed : w.p.IsClosed = true) (hq : Queued w l) (hu : AllUnhealthy w l)
    (hctx : ∀ j, j < k → ctx (i + j) = false) (hdone : ctx (i + k) = true) :
    (∃ q, GetLoop ctx (qfuel + 1) (n + 1 + k) i w =
        .ok ((none, some .ErrTimeout), w.withClients q) ∧
      QInv q ((l.rotate k).map some) ∧ (w.withClients q).p.IsClosed = true) ∧
    (∀ fuel w1 r, GetLoop ctx (qfuel + 1) fuel i w = .ok (r, w1) → r.2 ≠ some .ErrClosed) := by
  refine ⟨?_, fun fuel w1 r h => GetLoop_never_ErrClosed ctx _ fuel i w w1 r h⟩
  obtain ⟨q, e, hq1⟩ := GetLoop_spin ctx qfuel k l (n + 1) i w hq hu hctx
  refine ⟨q, ?_, hq1, hclosed⟩
  rw [e]
  exact GetLoop_done ctx _ n _ _ hdone

theorem GetLoop_closed_spins_witness :
    spinWorld.p.IsClosed = true ∧
    ∃ q, GetLoop (ctxAfter 3) (0 + 1) (0 + 1 + 3) 0 spinWorld =
        .ok ((none, some .ErrTimeout), spinWorld.withClients q) ∧
      QInv q (([1].rotate 3).map some) ∧ (spinWorld.withClients q).p.IsClosed = true :=
  ⟨rfl, (GetLoop_closed_spins (ctxAfter 3) 0 0 3 0 spinWorld [1] rfl spinWorld_Queued
    (by intro a ha
        simp only [List.mem_singleton] at ha
        subst ha
        exact ⟨_, rfl, rfl⟩)
    (by intro j hj
        have : j = 0 ∨ j = 1 ∨ j = 2 := by omega
        rcases this with h | h | h <;> subst h <;> rfl)
    rfl).1⟩

/-! ## Theorems: `Close` of the pool -/

theorem CloseLoop_some (a : Nat) (c : ClientConn) :
    ∀ (fuel : Nat) (w : World), w.conns[a]? = some c →
      CloseLoop fuel (some a) w = .error .fuel := by
  intro fuel
  induction fuel with
  | zero => intro w _; rfl
  | succ fuel ih =>
    intro w hc
    simp only [CloseLoop, CloseIter, hc]
    exact ih _ hc

theorem CloseIters_eq (a : Nat) (c : ClientConn) :
    ∀ (k : Nat) (w : World), w.conns[a]? = some c →
      CloseIters k a w = .ok { w with closeLog := w.closeLog ++ List.replicate k c.conn } := by
  intro k
  induction k with
  | zero => intro w _; simp [CloseIters]
  | succ k ih =>
    intro w hc
    simp only [CloseIters, CloseIter, hc]
    rw [ih { w with closeLog := w.closeLog ++ [c.conn] } hc]
    simp [List.replicate_succ]

/-- C2 (what the code does): for every open pool whose queue `a :: l` is not
empty, `Close` never returns, whatever the loop bound: it sets the closed
flag, dequeues the first handle `a` only, and then every iteration of its loop
calls `Close` on the connection of that same handle again; after `k`
iterations the connection of `a` has been closed `k` times, and the handles
`l` are still in the queue, their connections not closed. -/
theorem Close_never_returns (w : World) (a : Nat) (l : List Nat) (c : ClientConn)
    (hopen : w.p.close = 0) (hq : Queued w (a :: l)) (hc : w.conns[a]? = some c) :
    (∀ fuel, Pool.Close fuel w = .error .fuel) ∧
    ∃ q, Dequeue 1 w.p.clients = .ok (some a, q) ∧ QInv q (l.map some) ∧
      ∀ k, CloseIters k a { w with p := { w.p with close := 1, clients := q } } =
        .ok { w with p := { w.p with close := 1, clients := q },
                     closeLog := w.closeLog ++ List.replicate k c.conn } := by
  constructor
  · intro fuel
    cases fuel with
    | zero => simp [Pool.Close, hopen, Dequeue, DequeueLoop]
    | succ fuel =>
      obtain ⟨q, e, _⟩ := Dequeue_cons w.p.clients (some a) (l.map some) fuel hq
      simp only [Pool.Close, hopen, if_true, e]
      exact CloseLoop_some a c _ _ hc
  · obtain ⟨q, e, hq1⟩ := Dequeue_cons w.p.clients (some a) (l.map some) 0 hq
    exact ⟨q, e, hq1, fun k => CloseIters_eq a c k _ hc⟩

theorem Close_never_returns_witness :
    exWorld.p.close = 0 ∧ (∀ fuel, Pool.Close fuel exWorld = .error .fuel) ∧
    ∃ q, Dequeue 1 exWorld.p.clients = .ok (some 0, q) ∧ QInv q ([1].map some) ∧
      ∀ k, CloseIters k 0 { exWorld with p := { exWorld.p with close := 1, clients := q } } =
        .ok { exWorld with p := { exWorld.p with close := 1, clients := q },
                           closeLog := exWorld.closeLog ++ List.replicate k 100 } :=
  ⟨rfl, Close_never_returns exWorld 0 [1] (newClientConn 100 0) rfl exWorld_Queued rfl⟩

/-! ## Theorems: release (`ClientConn.Close`) -/

theorem toUint64_lt (i : Int) : toUint64 i < u64 := by
  unfold toUint64
  have h : (0 : Int) < (u64 : Int) := by
    unfold u64; norm_num
  have h1 := Int.emod_lt_of_pos i h
  have h2 := Int.emod_nonneg i (ne_of_gt h)
  omega

theorem AddUint64_one_of_lt (u : Nat) (i : Int) (h : u < toUint64 i) :
    AddUint64 u 1 = u + 1 :=
  AddUint64_one u (by have := toUint64_lt i; omega)

theorem toUint64_half (cap : Int) (h0 : 0 ≤ cap) (h1 : cap < 2 ^ 63) :
    (toUint64 (Int.tdiv cap 2) : Int) = cap / 2 := by
  unfold toUint64
  have e : Int.tdiv cap 2 = cap / 2 := by
    rw [Int.tdiv_eq_ediv h0 (by norm_num)]
  rw [e]
  have hu : ((u64 : Nat) : Int) = 18446744073709551616 := by
    unfold u64; norm_num
  rw [hu]
  have h2 : 0 ≤ cap / 2 := by omega
  have h3 : cap / 2 < 18446744073709551616 := by omega
  rw [Int.emod_eq_of_lt h2 h3]
  exact Int.toNat_of_nonneg h2

theorem Unhealthy_eq (a : Nat) (w : World) (c : ClientConn) (hc : w.conns[a]? = some c) :
    ClientConn.Unhealthy a w =
      .ok (if w.p.unHealthyCount < toUint64 (Int.tdiv w.p.cap 2) then
          { w with conns := w.conns.set a { c with unhealthy := true },
                   p := { w.p with unHealthyCount := AddUint64 w.p.unHealthyCount 1 } }
        else w) := by
  simp only [ClientConn.Unhealthy, hc]
  split <;> rfl

theorem getElem?_set_self_of_some {α : Type} (l : List α) (a : Nat) (x y : α)
    (h : l[a]? = some x) : (l.set a y)[a]? = some y := by
  have ha : a < l.length := by
    by_contra hn
    rw [List.getElem?_eq_none (by omega)] at h
    cases h
  rw [List.getElem?_set]
  simp [ha]

theorem Unhealthy_pos (a : Nat) (w : World) (c : ClientConn) (hc : w.conns[a]? = some c)
    (hu : w.p.unHealthyCount < toUint64 (Int.tdiv w.p.cap 2)) :
    ClientConn.Unhealthy a w =
      .ok { w with conns := w.conns.set a { c with unhealthy := true },
                   p := { w.p with unHealthyCount := w.p.unHealthyCount + 1 } } := by
  rw [Unhealthy_eq a w c hc, if_pos hu, AddUint64_one_of_lt _ _ hu]

theorem Unhealthy_neg (a : Nat) (w : World) (c : ClientConn) (hc : w.conns[a]? = some c)
    (hu : ¬ w.p.unHealthyCount < toUint64 (Int.tdiv w.p.cap 2)) :
    ClientConn.Unhealthy a w = .ok w := by
  rw [Unhealthy_eq a w c hc, if_neg hu]

theorem Release_eq (now : Int) (a : Nat) (w : World) (c : ClientConn)
    (hc : w.conns[a]? = some c) :
    ∃ (f : Bool) (n : Nat),
      ClientConn.Close now a w =
        .ok { w with
              conns := w.conns.set a
                { c with use := AddUint64 c.use allOnes, unhealthy := f },
              p := { w.p with unHealthyCount := n } } ∧
      (f = true ↔ (c.unhealthy = true ∨
        (((0 < w.p.maxLifeDuration ∧ c.timeInitiated + w.p.maxLifeDuration < now) ∨
          (0 < w.p.maxUseCount ∧ w.p.maxUseCount < c.useCount)) ∧
         w.p.unHealthyCount < toUint64 (Int.tdiv w.p.cap 2)))) ∧
      w.p.unHealthyCount ≤ n ∧
      (w.p.unHealthyCount ≤ toUint64 (Int.tdiv w.p.cap 2) → n ≤ toUint64 (Int.tdiv w.p.cap 2)) ∧
      (c.unhealthy = false → f = true → w.p.unHealthyCount + 1 ≤ n) := by
  have hc1 := getElem?_set_self_of_some w.conns a c
    { c with use := AddUint64 c.use allOnes } hc
  have hc2 := getElem?_set_self_of_some _ a _
    { c with use := AddUint64 c.use allOnes, unhealthy := true } hc1
  by_cases hA : 0 < w.p.maxLifeDuration ∧ c.timeInitiated + w.p.maxLifeDuration < now
  · by_cases hu : w.p.unHealthyCount < toUint64 (Int.tdiv w.p.cap 2)
    · by_cases hB : 0 < w.p.maxUseCount ∧ w.p.maxUseCount < c.useCount
      · by_cases hu2 : w.p.unHealthyCount + 1 < toUint64 (Int.tdiv w.p.cap 2)
        · refine ⟨true, w.p.unHealthyCount + 1 + 1, ?_, ?_, ?_, ?_, ?_⟩
          · simp only [ClientConn.Close, hc]
            rw [if_pos hA, Unhealthy_pos a
              { w with conns := w.conns.set a { c with use := AddUint64 c.use allOnes } } _ hc1 hu]
            simp only []
            rw [if_pos hB, Unhealthy_pos a
              { w with
                conns := (w.conns.set a { c with use := AddUint64 c.use allOnes }).set a
                  { c with use := AddUint64 c.use allOnes, unhealthy := true },
                p := { w.p with unHealthyCount := w.p.unHealthyCount + 1 } } _ hc2 hu2]
            simp only [List.set_set]
          · exact ⟨fun _ => Or.inr ⟨Or.inl hA, hu⟩, fun _ => rfl⟩
          · omega
          · intro; omega
          · intro _ _; omega
        · refine ⟨true, w.p.unHealthyCount + 1, ?_, ?_, ?_, ?_, ?_⟩
          · simp only [ClientConn.Close, hc]
            rw [if_pos hA, Unhealthy_pos a
              { w with conns := w.conns.set a { c with use := AddUint64 c.use allOnes } } _ hc1 hu]
            simp only []
            rw [if_pos hB, Unhealthy_neg a
              { w with
                conns := (w.conns.set a { c with use := AddUint64 c.use allOnes }).set a
                  { c with use := AddUint64 c.use allOnes, unhealthy := true },
                p := { w.p with unHealthyCount := w.p.unHealthyCount + 1 } } _ hc2 hu2]
            simp only [List.set_set]
          · exact ⟨fun _ => Or.inr ⟨Or.inl hA, hu⟩, fun _ => rfl⟩
          · omega
          · intro; omega
          · intro _ _; omega
      · refine ⟨true, w.p.unHealthyCount + 1, ?_, ?_, ?_, ?_, ?_⟩
        · simp only [ClientConn.Close, hc]
          rw [if_pos hA, Unhealthy_pos a
            { w with conns := w.conns.set a { c with use := AddUint64 c.use allOnes } } _ hc1 hu]
          simp only []
          rw [if_neg hB]
          simp only [List.set_set]
        · exact ⟨fun _ => Or.inr ⟨Or.inl hA, hu⟩, fun _ => rfl⟩
        · omega
        · intro; omega
        · intro _ _; omega
    · refine ⟨c.unhealthy, w.p.unHealthyCount, ?_, ?_, ?_, ?_, ?_⟩
      · simp only [ClientConn.Close, hc]
        rw [if_pos hA, Unhealthy_neg a
          { w with conns := w.conns.set a { c with use := AddUint64 c.use allOnes } } _ hc1 hu]
        simp only []
        by_cases hB : 0 < w.p.maxUseCount ∧ w.p.maxUseCount < c.useCount
        · rw [if_pos hB, Unhealthy_neg a
            { w with conns := w.conns.set a { c with use := AddUint64 c.use allOnes } } _ hc1 hu]
        · rw [if_neg hB]
      · exact ⟨fun h => Or.inl h, fun h => h.elim id (fun h => absurd h.2 hu)⟩
      · exact le_refl _
      · exact id
      · intro h1 h2; rw [h1] at h2; cases h2
  · by_cases hB : 0 < w.p.maxUseCount ∧ w.p.maxUseCount < c.useCount
    · by_cases hu : w.p.unHealthyCount < toUint64 (Int.tdiv w.p.cap 2)
      · refine ⟨true, w.p.unHealthyCount + 1, ?_, ?_, ?_, ?_, ?_⟩
        · simp only [ClientConn.Close, hc]
          rw [if_neg hA]
          simp only []
          rw [if_pos hB, Unhealthy_pos a
            { w with conns := w.conns.set a { c with use := AddUint64 c.use allOnes } } _ hc1 hu]
          simp only [List.set_set]
        · exact ⟨fun _ => Or.inr ⟨Or.inr hB, hu⟩, fun _ => rfl⟩
        · omega
        · intro; omega
        · intro _ _; omega
      · refine ⟨c.unhealthy, w.p.unHealthyCount, ?_, ?_, ?_, ?_, ?_⟩
        · simp only [ClientConn.Close, hc]
          rw [if_neg hA]
          simp only []
          rw [if_pos hB, Unhealthy_neg a
            { w with conns := w.conns.set a { c with use := AddUint64 c.use allOnes } } _ hc1 hu]
        · exact ⟨fun h => Or.inl h, fun h => h.elim id (fun h => absurd h.2 hu)⟩
        · exact le_refl _
        · exact id
        · intro h1 h2; rw [h1] at h2; cases h2
    · refine ⟨c.unhealthy, w.p.unHealthyCount, ?_, ?_, ?_, ?_, ?_⟩
      · simp only [ClientConn.Close, hc]
        rw [if_neg hA]
        simp only []
        rw [if_neg hB]
      · exact ⟨fun h => Or.inl h,
          fun h => h.elim id (fun h => h.1.elim (fun h => absurd h hA) (fun h => absurd h hB))⟩
      · exact le_refl _
      · exact id
      · intro h1 h2; rw [h1] at h2; cases h2

theorem u64_val : u64 = 18446744073709551616 := by
  unfold u64; norm_num

theorem AddUint64_allOnes_pos (x : Nat) (h1 : 1 ≤ x) (h2 : x < u64) :
    AddUint64 x allOnes = x - 1 := by
  unfold AddUint64 allOnes
  rw [u64_val] at *
  omega

theorem AddUint64_allOnes_zero : AddUint64 0 allOnes = u64 - 1 := by
  unfold AddUint64 allOnes
  rw [u64_val]

/-- C7 (as stated, refuted): handle 0 of the pool `exWorld` is acquired once
(`use = 1`), released (`use = 0`) and released again: the second release does
not decrement `use` by 1, it sets it to `2^64 - 1`. -/
theorem Release_use_wraps :
    ∃ w1 w2 w3, Pool.Get 1 ctxNever exWorld = .ok ((some 0, none), w1) ∧
      ClientConn.Close 5 0 w1 = .ok w2 ∧ (w2.conns[0]?).map (fun c => c.use) = some 0 ∧
      ClientConn.Close 6 0 w2 = .ok w3 ∧
      (w3.conns[0]?).map (fun c => c.use) = some 18446744073709551615 :=
  ⟨_, _, _, rfl, rfl, rfl, rfl, rfl⟩

/-- C7 (amended): for every handle `c` (at address `a`, of a pool with
`0 ≤ cap < 2^63`) and time `now`, release (`ClientConn.Close`) decrements
`c.use` by 1 modulo `2^64` (`use - 1` when `use ≥ 1`, `2^64 - 1` when
`use = 0`), and afterwards `c` is unhealthy if and only if it was already
unhealthy, or ((`maxLifeDuration > 0` and `now > createdAt + maxLifeDuration`)
or (`maxUseCount > 0` and `useCount > maxUseCount`)) and `unHealthyCount` was
`< cap / 2`; a handle exactly at `createdAt + maxLifeDuration`, or with
`useCount = maxUseCount`, is not marked unless the other limit is
exceeded. -/
theorem Release_spec (now : Int) (a : Nat) (w : World) (c : ClientConn)
    (hc : w.conns[a]? = some c) (huse : c.use < u64) (hcap0 : 0 ≤ w.p.cap)
    (hcap1 : w.p.cap < 2 ^ 63) :
    ∃ w1 c1, ClientConn.Close now a w = .ok w1 ∧ w1.conns[a]? = some c1 ∧
      c1.use = AddUint64 c.use allOnes ∧
      (1 ≤ c.use → c1.use = c.use - 1) ∧ (c.use = 0 → c1.use = u64 - 1) ∧
      (c1.unhealthy = true ↔ (c.unhealthy = true ∨
        (((0 < w.p.maxLifeDuration ∧ c.timeInitiated + w.p.maxLifeDuration < now) ∨
          (0 < w.p.maxUseCount ∧ w.p.maxUseCount < c.useCount)) ∧
         (w.p.unHealthyCount : Int) < w.p.cap / 2))) ∧
      (now = c.timeInitiated + w.p.maxLifeDuration →
        ¬ (0 < w.p.maxUseCount ∧ w.p.maxUseCount < c.useCount) →
        c1.unhealthy = c.unhealthy) ∧
      (c.useCount = w.p.maxUseCount →
        ¬ (0 < w.p.maxLifeDuration ∧ c.timeInitiated + w.p.maxLifeDuration < now) →
        c1.unhealthy = c.unhealthy) := by
  obtain ⟨f, n, e, hf, _, _, _⟩ := Release_eq now a w c hc
  have hb : (w.p.unHealthyCount < toUint64 (Int.tdiv w.p.cap 2)) ↔
      ((w.p.unHealthyCount : Int) < w.p.cap / 2) := by
    rw [← toUint64_half w.p.cap hcap0 hcap1]
    exact Nat.cast_lt.symm
  rw [hb] at hf
  have key : ∀ (g : Bool), (f = true ↔ (g = true ∨ False)) → f = g := by
    intro g h
    cases f <;> cases g <;> simp at h ⊢
  refine ⟨_, _, e, getElem?_set_self_of_some _ _ _ _ hc, rfl, ?_, ?_, hf, ?_, ?_⟩
  · intro h1
    exact AddUint64_allOnes_pos c.use h1 huse
  · intro h0
    show AddUint64 c.use allOnes = u64 - 1
    rw [h0]
    exact AddUint64_allOnes_zero
  · intro hnow hB
    show f = c.unhealthy
    apply key
    rw [hf]
    have hA : ¬ (0 < w.p.maxLifeDuration ∧ c.timeInitiated + w.p.maxLifeDuration < now) := by
      intro h; omega
    simp [hA, hB]
  · intro hcnt hA
    show f = c.unhealthy
    apply key
    rw [hf]
    have hB : ¬ (0 < w.p.maxUseCount ∧ w.p.maxUseCount < c.useCount) := by
      intro h; omega
    simp [hA, hB]

theorem Release_spec_witness :
    ∃ w1 c1, ClientConn.Close 6 0 exWorldLimits = .ok w1 ∧ w1.conns[0]? = some c1 ∧
      c1.use = AddUint64 (newClientConn 100 0).use allOnes ∧
      (c1.unhealthy = true ↔ ((newClientConn 100 0).unhealthy = true ∨
        (((0 < exWorldLimits.p.maxLifeDuration ∧
            (newClientConn 100 0).timeInitiated + exWorldLimits.p.maxLifeDuration < 6) ∨
          (0 < exWorldLimits.p.maxUseCount ∧
            exWorldLimits.p.maxUseCount < (newClientConn 100 0).useCount)) ∧
         (exWorldLimits.p.unHealthyCount : Int) < exWorldLimits.p.cap / 2))) :=
  have h := Release_spec 6 0 exWorldLimits (newClientConn 100 0) rfl
    (by rw [u64_val]; decide) (by decide) (by decide)
  ⟨h.choose, h.choose_spec.choose, h.choose_spec.choose_spec.1, h.choose_spec.choose_spec.2.1,
    h.choose_spec.choose_spec.2.2.1, h.choose_spec.choose_spec.2.2.2.2.2.1⟩

/-- C8: release (`ClientConn.Close`) of an existing handle `c` at address `a`
returns, never closes a connection (the log of `grpc.ClientConn.Close` calls is
unchanged) and never touches the queue; the resulting world is the old one
with only `c.use`, `c.unhealthy` and the pool's `unHealthyCount` replaced: the
handle's `useCount`, `timeInitiated` and connection, every other handle, the
queue contents and order, and all other pool fields are what they were. -/
theorem Release_frame (now : Int) (a : Nat) (w : World) (c : ClientConn)
    (hc : w.conns[a]? = some c) :
    ∃ w1, ClientConn.Close now a w = .ok w1 ∧
      w1.closeLog = w.closeLog ∧ w1.p.clients = w.p.clients ∧
      (∀ b, b ≠ a → w1.conns[b]? = w.conns[b]?) ∧
      w1.conns.length = w.conns.length ∧
      (∃ c1, w1.conns[a]? = some c1 ∧ c1.useCount = c.useCount ∧
        c1.timeInitiated = c.timeInitiated ∧ c1.conn = c.conn) ∧
      (∃ (u : Nat) (f : Bool) (n : Nat),
        w1 = { w with conns := w.conns.set a { c with use := u, unhealthy := f },
                      p := { w.p with unHealthyCount := n } }) := by
  obtain ⟨f, n, e, _⟩ := Release_eq now a w c hc
  refine ⟨_, e, rfl, rfl, ?_, ?_, ⟨_, getElem?_set_self_of_some _ _ _ _ hc, rfl, rfl, rfl⟩,
    ⟨_, f, n, rfl⟩⟩
  · intro b hb
    exact List.getElem?_set_ne (Ne.symm hb)
  · exact List.length_set _ _ _

theorem Release_frame_witness :
    ∃ w1, ClientConn.Close 6 0 exWorldLimits = .ok w1 ∧
      w1.closeLog = exWorldLimits.closeLog ∧ w1.p.clients = exWorldLimits.p.clients ∧
      (∀ b, b ≠ 0 → w1.conns[b]? = exWorldLimits.conns[b]?) :=
  have h := Release_frame 6 0 exWorldLimits (newClientConn 100 0) rfl
  ⟨h.choose, h.choose_spec.1, h.choose_spec.2.1, h.choose_spec.2.2.1, h.choose_spec.2.2.2.1⟩

/-! ## Theorems: the eviction step (`healthy`) -/

theorem healthyIter_empty (factory : Factory) (now : Int) (fuel : Nat) (w : World)
    (hq : Queued w []) : healthyIter factory now (fuel + 1) w = .ok w := by
  have e := Dequeue_nil w.p.clients fuel hq
  simp only [healthyIter, e]

theorem healthyIter_keep (factory : Factory) (now : Int) (fuel : Nat) (w : World) (a : Nat)
    (l : List Nat) (c : ClientConn) (hq : Queued w (a :: l)) (hc : w.conns[a]? = some c)
    (h : ¬ (c.unhealthy = true ∧ c.use = 0)) :
    ∃ q, healthyIter factory now (fuel + 1) w = .ok (w.withClients q) ∧
      QInv q ((l ++ [a]).map some) := by
  obtain ⟨q1, e1, hq1⟩ := Dequeue_cons w.p.clients (some a) (l.map some) fuel hq
  obtain ⟨q2, e2, hq2, _⟩ := Enqueue_spec q1 (l.map some) (some a) fuel hq1
  refine ⟨q2, ?_, by simpa using hq2⟩
  have hcond : (!c.IsHealthy && c.use == 0) = false := by
    cases hu : c.unhealthy
    · simp [ClientConn.IsHealthy, hu]
    · have : c.use ≠ 0 := fun h0 => h ⟨hu, h0⟩
      simp [ClientConn.IsHealthy, hu, this]
  simp only [healthyIter, e1, hc, hcond, e2, World.withClients]
  rfl

theorem healthyIter_factory_fails (factory : Factory) (now : Int) (fuel : Nat) (w : World)
    (a : Nat) (l : List Nat) (c : ClientConn) (err : error) (hq : Queued w (a :: l))
    (hc : w.conns[a]? = some c) (hu : c.unhealthy = true) (h0 : c.use = 0)
    (hf : factory w.factoryCalls = .error err) :
    ∃ q, healthyIter factory now (fuel + 1) w =
        .ok { w.withClients q with factoryCalls := w.factoryCalls + 1 } ∧
      QInv q ((l ++ [a]).map some) := by
  obtain ⟨q1, e1, hq1⟩ := Dequeue_cons w.p.clients (some a) (l.map some) fuel hq
  obtain ⟨q2, e2, hq2, _⟩ := Enqueue_spec q1 (l.map some) (some a) fuel hq1
  refine ⟨q2, ?_, by simpa using hq2⟩
  have hcond : (!c.IsHealthy && c.use == 0) = true := by
    simp [ClientConn.IsHealthy, hu, h0]
  simp only [healthyIter, e1, hc, hcond, hf, e2, World.withClients]
  rfl

theorem healthyIter_replace (factory : Factory) (now : Int) (fuel : Nat) (w : World)
    (a : Nat) (l : List Nat) (c : ClientConn) (r : Nat) (hq : Queued w (a :: l))
    (hc : w.conns[a]? = some c) (hu : c.unhealthy = true) (h0 : c.use = 0)
    (hf : factory w.factoryCalls = .ok r) :
    ∃ q, healthyIter factory now (fuel + 1) w =
        .ok { w with
              p := { w.p with clients := q,
                              unHealthyCount := AddUint64 w.p.unHealthyCount allOnes },
              conns := w.conns ++ [newClientConn r now],
              closeLog := w.closeLog ++ [c.conn],
              factoryCalls := w.factoryCalls + 1 } ∧
      QInv q ((l ++ [w.conns.length]).map some) := by
  obtain ⟨q1, e1, hq1⟩ := Dequeue_cons w.p.clients (some a) (l.map some) fuel hq
  obtain ⟨q2, e2, hq2, _⟩ := Enqueue_spec q1 (l.map some) (some w.conns.length) fuel hq1
  refine ⟨q2, ?_, by simpa using hq2⟩
  have hcond : (!c.IsHealthy && c.use == 0) = true := by
    simp [ClientConn.IsHealthy, hu, h0]
  simp only [healthyIter, e1, hc, hcond, hf, e2]
  rfl

/-- C10: an eviction step (one run of the loop body of `healthy`) on a pool
whose queue `l` holds existing handles returns, and it closes at most one
connection: either no connection is closed, or the closed one belongs to the
handle at the head of the queue, which was unhealthy with `use = 0` when it
was checked. When the head handle has `use ≠ 0` nothing is closed, no handle
object changes and that same handle is re-enqueued at the back: it is not
replaced. No existing handle object is ever modified by the step. -/
theorem healthyIter_safe (factory : Factory) (now : Int) (fuel : Nat) (w : World)
    (l : List Nat) (hq : Queued w l) (hvalid : ∀ a ∈ l, ∃ c, w.conns[a]? = some c) :
    ∃ w1, healthyIter factory now (fuel + 1) w = .ok w1 ∧
      (w1.closeLog = w.closeLog ∨
        ∃ a rest c, l = a :: rest ∧ w.conns[a]? = some c ∧ c.unhealthy = true ∧ c.use = 0 ∧
          w1.closeLog = w.closeLog ++ [c.conn]) ∧
      (∀ a rest c, l = a :: rest → w.conns[a]? = some c → c.use ≠ 0 →
        w1.closeLog = w.closeLog ∧ w1.conns = w.conns ∧ Queued w1 (rest ++ [a])) ∧
      (∀ (b : Nat) (c : ClientConn), w.conns[b]? = some c → w1.conns[b]? = some c) := by
  cases l with
  | nil =>
    refine ⟨w, healthyIter_empty factory now fuel w hq, Or.inl rfl, ?_, fun _ _ h => h⟩
    intro a rest c h
    cases h
  | cons a rest =>
    obtain ⟨c, hc⟩ := hvalid a (List.mem_cons_self a rest)
    by_cases h : c.unhealthy = true ∧ c.use = 0
    · cases hf : factory w.factoryCalls with
      | error err =>
        obtain ⟨q, e, hq1⟩ := healthyIter_factory_fails factory now fuel w a rest c err hq hc
          h.1 h.2 hf
        refine ⟨_, e, Or.inl rfl, ?_, fun _ _ h => h⟩
        intro a1 rest1 c1 hl hc1 hne
        injection hl with h1 h2
        subst h1; subst h2
        exact ⟨rfl, rfl, hq1⟩
      | ok r =>
        obtain ⟨q, e, hq1⟩ := healthyIter_replace factory now fuel w a rest c r hq hc
          h.1 h.2 hf
        refine ⟨_, e, Or.inr ⟨a, rest, c, rfl, hc, h.1, h.2, rfl⟩, ?_, ?_⟩
        · intro a1 rest1 c1 hl hc1 hne
          injection hl with h1 h2
          subst h1; subst h2
          rw [hc] at hc1
          injection hc1 with hc1
          subst hc1
          exact absurd h.2 hne
        · intro b c1 hb
          show (w.conns ++ [newClientConn r now])[b]? = some c1
          have hlt : b < w.conns.length := by
            by_contra hn
            rw [List.getElem?_eq_none (by omega)] at hb
            cases hb
          rw [List.getElem?_append_left hlt]
          exact hb
    · obtain ⟨q, e, hq1⟩ := healthyIter_keep factory now fuel w a rest c hq hc h
      refine ⟨_, e, Or.inl rfl, ?_, fun _ _ h => h⟩
      intro a1 rest1 c1 hl hc1 hne
      injection hl with h1 h2
      subst h1; subst h2
      exact ⟨rfl, rfl, hq1⟩

theorem healthyIter_safe_witness :
    ∃ w1, healthyIter exFactory 7 (0 + 1) exWorldU = .ok w1 ∧
      (w1.closeLog = exWorldU.closeLog ∨
        ∃ a rest c, [0, 1] = a :: rest ∧ exWorldU.conns[a]? = some c ∧ c.unhealthy = true ∧
          c.use = 0 ∧ w1.closeLog = exWorldU.closeLog ++ [c.conn]) :=
  have h := healthyIter_safe exFactory 7 0 exWorldU [0, 1] exWorldU_Queued
    (by intro a ha
        simp only [List.mem_cons, List.mem_singleton, List.not_mem_nil, or_false] at ha
        rcases ha with h | h <;> subst h <;> exact ⟨_, rfl⟩)
  ⟨h.choose, h.choose_spec.1, h.choose_spec.2.1⟩

/-! ## Theorems: the invariant of the pool -/

theorem countP_congr_mem (l : List Nat) (p q : Nat → Bool) (h : ∀ b ∈ l, p b = q b) :
    l.countP p = l.countP q := by
  induction l with
  | nil => rfl
  | cons x xs ih =>
    have hx := h x (List.mem_cons_self x xs)
    have ih1 := ih (fun b hb => h b (List.mem_cons_of_mem x hb))
    simp only [List.countP_cons, hx, ih1]

theorem countP_update_le (l : List Nat) (a : Nat) (p q : Nat → Bool) (hnd : l.Nodup)
    (h : ∀ b, b ≠ a → q b = p b) : l.countP q ≤ l.countP p + 1 := by
  induction l with
  | nil => simp
  | cons x xs ih =>
    rw [List.nodup_cons] at hnd
    by_cases hx : x = a
    · subst hx
      have e : xs.countP q = xs.countP p :=
        countP_congr_mem xs q p (fun b hb => h b (fun hba => hnd.1 (hba ▸ hb)))
      simp only [List.countP_cons, e]
      split <;> split <;> omega
    · have e := h x hx
      have ih1 := ih hnd.2
      simp only [List.countP_cons, e]
      omega

theorem unhealthyAt_set (conns : List ClientConn) (a b : Nat) (c1 : ClientConn)
    (ha : a < conns.length) :
    unhealthyAt (conns.set a c1) b = if b = a then c1.unhealthy else unhealthyAt conns b := by
  unfold unhealthyAt
  by_cases hb : b = a
  · subst hb
    rw [List.getElem?_set_self ha]
    simp
  · rw [List.getElem?_set_ne (Ne.symm hb)]
    simp [hb]

theorem unhealthyAt_append (conns : List ClientConn) (b : Nat) (c1 : ClientConn) :
    unhealthyAt (conns ++ [c1]) b =
      if b = conns.length then c1.unhealthy else unhealthyAt conns b := by
  unfold unhealthyAt
  by_cases hb : b < conns.length
  · rw [List.getElem?_append_left hb]
    simp [Nat.ne_of_lt hb]
  · by_cases hb2 : b = conns.length
    · subst hb2
      simp
    · rw [List.getElem?_eq_none (by simp; omega), List.getElem?_eq_none (by omega)]
      simp [hb2]

theorem unhealthyAt_of_some (conns : List ClientConn) (a : Nat) (c : ClientConn)
    (h : conns[a]? = some c) : unhealthyAt conns a = c.unhealthy := by
  unfold unhealthyAt
  rw [h]

theorem lt_length_of_some {α : Type} (l : List α) (a : Nat) (x : α) (h : l[a]? = some x) :
    a < l.length := by
  by_contra hn
  rw [List.getElem?_eq_none (by omega)] at h
  cases h

theorem toUint64_le (i : Int) (h : 0 ≤ i) : (toUint64 i : Int) ≤ i := by
  unfold toUint64
  have hu : ((u64 : Nat) : Int) = 18446744073709551616 := by
    rw [u64_val]; rfl
  rw [hu]
  have h2 : 0 ≤ i % 18446744073709551616 := by omega
  rw [Int.toNat_of_nonneg h2]
  omega

theorem NewLoop_inv (factory : Factory) (clock : Nat → Int) (fuel : Nat) :
    ∀ (k i : Nat) (w w1 : World) (r : Option error),
      NewLoop factory clock fuel k i w = .ok (r, w1) →
      Queued w (List.range w.conns.length) → (∀ a, unhealthyAt w.conns a = false) →
      (Queued w1 (List.range w1.conns.length) ∧ (∀ a, unhealthyAt w1.conns a = false) ∧
        w1.p.cap = w.p.cap ∧ w1.p.close = w.p.close ∧
        w1.p.unHealthyCount = w.p.unHealthyCount ∧
        (r = none → w1.conns.length = w.conns.length + k)) := by
  intro k
  induction k with
  | zero =>
    intro i w w1 r h hq hu
    simp only [NewLoop] at h
    injection h with h
    injection h with h1 h2
    subst h1; subst h2
    exact ⟨hq, hu, rfl, rfl, rfl, fun _ => rfl⟩
  | succ k ih =>
    intro i w w1 r h hq hu
    unfold NewLoop at h
    split at h
    · injection h with h
      injection h with h1 h2
      subst h1; subst h2
      refine ⟨hq, hu, rfl, rfl, rfl, ?_⟩
      intro h; cases h
    · simp only [] at h
      split at h
      · cases h
      · rename_i c _ _ q1 he
        have hq1 := Enqueue_inv _ _ _ _ _ hq he
        obtain ⟨h1, h2, h3, h4, h5, h6⟩ := ih (i + 1) _ w1 r h
          (by
            show QInv q1 ((List.range (w.conns ++ [newClientConn c (clock i)]).length).map some)
            rw [List.length_append, List.length_singleton, List.range_succ, List.map_append]
            exact hq1)
          (by
            intro a
            show unhealthyAt (w.conns ++ [newClientConn c (clock i)]) a = false
            rw [unhealthyAt_append]
            split
            · rfl
            · exact hu a)
        refine ⟨h1, h2, h3, h4, h5, ?_⟩
        intro hr
        rw [h6 hr]
        show (w.conns ++ [newClientConn c (clock i)]).length + k = _
        rw [List.length_append, List.length_singleton]
        omega

theorem NewWithContext_PoolInv (factory : Factory) (clock : Nat → Int) (fuel : Nat)
    (capacity maxLifeDuration : Int) (maxUseCount : Nat) (w0 : World)
    (h : NewWithContext factory clock fuel capacity maxLifeDuration maxUseCount
      = .ok ((true, none), w0)) : PoolInv w0 := by
  unfold NewWithContext at h
  simp only at h
  split at h
  · cases h
  · injection h with h
    injection h with h _
    injection h with h _
    cases h
  · rename_i w1 he
    injection h with h
    injection h with _ h
    subst h
    obtain ⟨h1, h2, h3, h4, h5, h6⟩ := NewLoop_inv factory clock fuel _ 0 _ w1 none he
      (QInv_NewQueue Nat) (fun a => by simp [unhealthyAt])
    have hcap : (2 : Int) ≤ if capacity < 2 then 2 else capacity := by
      split <;> omega
    have hlen := h6 rfl
    simp only [List.length_nil, Nat.zero_add] at hlen
    refine ⟨List.range w1.conns.length, h1, List.nodup_range _, ?_, ?_, ?_, ?_, ?_, ?_⟩
    · intro a ha
      exact List.mem_range.mp ha
    · show List.countP (unhealthyAt w1.conns) _ ≤ w1.p.unHealthyCount
      rw [countP_congr_mem _ _ (fun _ => false) (fun b _ => h2 b)]
      simp
    · show w1.p.unHealthyCount ≤ toUint64 (Int.tdiv w1.p.cap 2)
      rw [h5]
      exact Nat.zero_le _
    · show 2 ≤ w1.p.cap
      rw [h3]
      exact hcap
    · show w1.p.close = 0 ∨ w1.p.close = 1
      rw [h4]
      exact Or.inl rfl
    · intro _
      show ((List.range w1.conns.length).length : Int) = w1.p.cap
      rw [List.length_range, hlen, h3]
      show ((Int.toNat (if capacity < 2 then 2 else capacity) : Nat) : Int) = _
      rw [Int.toNat_of_nonneg (by omega)]

theorem QInv_unique {α : Type} (q : Queue α) (l l1 : List (Option α)) (h : QInv q l)
    (h1 : QInv q l1) : l = l1 := by
  obtain ⟨a, ha, _, _, hv, _⟩ := h
  obtain ⟨b, hb, _, _, hv1, _⟩ := h1
  rw [ha] at hb
  injection hb with hb
  subst hb
  apply List.ext_getElem?
  intro i
  rw [← hv i, ← hv1 i]

theorem Queued_unique (w : World) (l l1 : List Nat) (h : Queued w l) (h1 : Queued w l1) :
    l = l1 := by
  have e := QInv_unique _ _ _ h h1
  exact List.map_injective_iff.mpr (Option.some_injective Nat) e

theorem PoolInv_open (w : World) (l : List Nat) (hinv : PoolInv w) (hq : Queued w l) :
    l.Nodup ∧ (∀ a ∈ l, a < w.conns.length) ∧
      l.countP (unhealthyAt w.conns) ≤ w.p.unHealthyCount ∧
      w.p.unHealthyCount ≤ toUint64 (Int.tdiv w.p.cap 2) ∧
      2 ≤ w.p.cap ∧ (w.p.close = 0 ∨ w.p.close = 1) ∧
      (w.p.close = 0 → (l.length : Int) = w.p.cap) := by
  obtain ⟨l1, h1, h2⟩ := hinv
  have e := Queued_unique w l l1 hq h1
  subst e
  exact h2

theorem PoolInv_perm (w w1 : World) (l l1 : List Nat) (hinv : PoolInv w) (hq : Queued w l)
    (hq1 : Queued w1 l1) (hp : l1.Perm l) (hlen : w1.conns.length = w.conns.length)
    (hflag : ∀ b, unhealthyAt w1.conns b = unhealthyAt w.conns b)
    (hcount : w1.p.unHealthyCount = w.p.unHealthyCount) (hcap : w1.p.cap = w.p.cap)
    (hclose : w1.p.close = w.p.close) : PoolInv w1 := by
  obtain ⟨h1, h2, h3, h4, h5, h6, h7⟩ := PoolInv_open w l hinv hq
  refine ⟨l1, hq1, hp.nodup_iff.mpr h1, ?_, ?_, ?_, ?_, ?_, ?_⟩
  · intro a ha
    rw [hlen]
    exact h2 a (hp.mem_iff.mp ha)
  · rw [hcount, countP_congr_mem l1 _ _ (fun b _ => hflag b), hp.countP_eq]
    exact h3
  · rw [hcount, hcap]
    exact h4
  · rw [hcap]
    exact h5
  · rw [hclose]
    exact h6
  · intro h0
    rw [hp.length_eq, hcap]
    exact h7 (hclose ▸ h0)

theorem Dequeue_inv_some (w : World) (l : List Nat) (v : Option Nat) (q1 : Queue Nat)
    (fuel : Nat) (hq : Queued w l) (h : Dequeue fuel w.p.clients = .ok (v, q1)) :
    (l = [] ∧ v = none ∧ q1 = w.p.clients) ∨
      (∃ a l1, l = a :: l1 ∧ v = some a ∧ QInv q1 (l1.map some)) := by
  rcases Dequeue_inv _ _ _ _ _ hq h with ⟨h1, h2, h3⟩ | ⟨l1, h1, h2⟩
  · exact Or.inl ⟨by simpa using h1, h2, h3⟩
  · cases l with
    | nil => simp at h1
    | cons a l2 =>
      simp only [List.map_cons, List.cons.injEq] at h1
      obtain ⟨h3, h4⟩ := h1
      subst h4
      exact Or.inr ⟨a, l2, rfl, h3.symm, h2⟩

theorem GetLoop_PoolInv (ctx : Nat → Bool) (qfuel : Nat) :
    ∀ (fuel i : Nat) (w w1 : World) (r : Option Nat × Option error),
      GetLoop ctx qfuel fuel i w = .ok (r, w1) → PoolInv w → PoolInv w1 := by
  intro fuel
  induction fuel with
  | zero => intro i w w1 r h; simp [GetLoop] at h
  | succ fuel ih =>
    intro i w w1 r h hinv
    obtain ⟨l, hq, hrest⟩ := hinv
    have hinv : PoolInv w := ⟨l, hq, hrest⟩
    unfold GetLoop at h
    split at h
    · injection h with h
      injection h with _ h
      subst h
      exact hinv
    · split at h
      · cases h
      · rename_i q1 he
        rcases Dequeue_inv_some w l _ _ _ hq he with ⟨_, _, h3⟩ | ⟨a, l1, _, h2, _⟩
        · subst h3
          exact ih _ _ _ _ h hinv
        · cases h2
      · rename_i conn q1 he
        rcases Dequeue_inv_some w l _ _ _ hq he with ⟨_, h2, _⟩ | ⟨a, l1, h1, h2, h3⟩
        · cases h2
        · injection h2 with h2
          subst h2
          subst h1
          split at h
          · cases h
          · rename_i q2 he2
            have hq2 : QInv q2 ((l1 ++ [conn]).map some) := by
              simpa using Enqueue_inv _ _ _ _ _ h3 he2
            have hp : (l1 ++ [conn]).Perm (conn :: l1) := List.perm_append_singleton conn l1
            split at h
            · cases h
            · rename_i c hc
              split at h
              · rename_i hh
                injection h with h
                injection h with _ h
                subst h
                have ha := lt_length_of_some _ _ _ hc
                refine PoolInv_perm w _ _ _ hinv hq hq2 hp (List.length_set _ _ _) ?_ rfl rfl rfl
                intro b
                show unhealthyAt (w.conns.set conn _) b = _
                rw [unhealthyAt_set _ _ _ _ ha]
                split
                · rename_i hb
                  subst hb
                  rw [unhealthyAt_of_some _ _ _ hc]
                · rfl
              · exact ih _ _ _ _ h
                  (PoolInv_perm w _ _ _ hinv hq hq2 hp rfl (fun _ => rfl) rfl rfl rfl)

theorem Get_PoolInv (fuel : Nat) (ctx : Nat → Bool) (w w1 : World)
    (r : Option Nat × Option error) (h : Pool.Get fuel ctx w = .ok (r, w1))
    (hinv : PoolInv w) : PoolInv w1 := by
  unfold Pool.Get at h
  split at h
  · injection h with h
    injection h with _ h
    subst h
    exact hinv
  · exact GetLoop_PoolInv ctx fuel fuel 0 w w1 r h hinv

theorem Release_PoolInv (now : Int) (a : Nat) (w w1 : World)
    (h : ClientConn.Close now a w = .ok w1) (hinv : PoolInv w) : PoolInv w1 := by
  cases hc : w.conns[a]? with
  | none => simp [ClientConn.Close, hc] at h
  | some c =>
    obtain ⟨f, n, e, hf, hn1, hn2, hn3⟩ := Release_eq now a w c hc
    rw [e] at h
    injection h with h
    subst h
    obtain ⟨l, hq, h1, h2, h3, h4, h5, h6, h7⟩ := hinv
    have ha := lt_length_of_some _ _ _ hc
    have hold := unhealthyAt_of_some _ _ _ hc
    refine ⟨l, hq, h1, ?_, ?_, hn2 h4, h5, h6, h7⟩
    · intro b hb
      show b < (w.conns.set a _).length
      rw [List.length_set]
      exact h2 b hb
    · show List.countP (unhealthyAt (w.conns.set a _)) l ≤ n
      by_cases hsame : f = c.unhealthy
      · have : List.countP (unhealthyAt (w.conns.set a
            { c with use := AddUint64 c.use allOnes, unhealthy := f })) l =
            List.countP (unhealthyAt w.conns) l := by
          apply countP_congr_mem
          intro b _
          rw [unhealthyAt_set _ _ _ _ ha]
          split
          · rename_i hb
            subst hb
            rw [hold]
            exact hsame
          · rfl
        rw [this]
        omega
      · have hcu : c.unhealthy = false := by
          cases hcu : c.unhealthy
          · rfl
          · have : f = true := hf.mpr (Or.inl hcu)
            rw [this, hcu] at hsame
            exact absurd rfl hsame
        have hft : f = true := by
          cases hft : f
          · rw [hft, hcu] at hsame
            exact absurd rfl hsame
          · rfl
        have hle := countP_update_le l a (unhealthyAt w.conns)
          (unhealthyAt (w.conns.set a { c with use := AddUint64 c.use allOnes, unhealthy := f }))
          h1 (by
            intro b hb
            rw [unhealthyAt_set _ _ _ _ ha, if_neg hb])
        have := hn3 hcu hft
        omega

theorem some_of_lt_length {α : Type} (l : List α) (a : Nat) (h : a < l.length) :
    ∃ x, l[a]? = some x := ⟨l[a], List.getElem?_eq_getElem h⟩

theorem healthyIter_PoolInv (factory : Factory) (now : Int) (fuel : Nat) (w w1 : World)
    (h : healthyIter factory now fuel w = .ok w1) (hinv : PoolInv w) : PoolInv w1 := by
  cases fuel with
  | zero => simp [healthyIter, Dequeue, DequeueLoop] at h
  | succ fuel =>
    obtain ⟨l, hq, hrest⟩ := hinv
    have hinv : PoolInv w := ⟨l, hq, hrest⟩
    obtain ⟨h1, h2, h3, h4, h5, h6, h7⟩ := hrest
    cases l with
    | nil =>
      rw [healthyIter_empty factory now fuel w hq] at h
      injection h with h
      subst h
      exact hinv
    | cons a rest =>
      obtain ⟨c, hc⟩ := some_of_lt_length _ _ (h2 a (List.mem_cons_self a rest))
      have hp : (rest ++ [a]).Perm (a :: rest) := List.perm_append_singleton a rest
      by_cases hcond : c.unhealthy = true ∧ c.use = 0
      · cases hf : factory w.factoryCalls with
        | error err =>
          obtain ⟨q, e, hq1⟩ := healthyIter_factory_fails factory now fuel w a rest c err hq hc
            hcond.1 hcond.2 hf
          rw [e] at h
          injection h with h
          subst h
          exact PoolInv_perm w _ _ _ hinv hq hq1 hp rfl (fun _ => rfl) rfl rfl rfl
        | ok r =>
          obtain ⟨q, e, hq1⟩ := healthyIter_replace factory now fuel w a rest c r hq hc
            hcond.1 hcond.2 hf
          rw [e] at h
          injection h with h
          subst h
          rw [List.nodup_cons] at h1
          have hua : unhealthyAt w.conns a = true := by
            rw [unhealthyAt_of_some _ _ _ hc]; exact hcond.1
          have hcnt : List.countP (unhealthyAt (w.conns ++ [newClientConn r now]))
              (rest ++ [w.conns.length]) = List.countP (unhealthyAt w.conns) rest := by
            rw [List.countP_append]
            have e1 : List.countP (unhealthyAt (w.conns ++ [newClientConn r now])) rest =
                List.countP (unhealthyAt w.conns) rest := by
              apply countP_congr_mem
              intro b hb
              rw [unhealthyAt_append, if_neg]
              exact Nat.ne_of_lt (h2 b (List.mem_cons_of_mem a hb))
            have e2 : List.countP (unhealthyAt (w.conns ++ [newClientConn r now]))
                [w.conns.length] = 0 := by
              simp [List.countP_cons, unhealthyAt_append, newClientConn]
            rw [e1, e2, Nat.add_zero]
          have hold : List.countP (unhealthyAt w.conns) (a :: rest) =
              List.countP (unhealthyAt w.conns) rest + 1 := by
            simp [List.countP_cons, hua]
          rw [hold] at h3
          have hlt := toUint64_lt (Int.tdiv w.p.cap 2)
          have hdec : AddUint64 w.p.unHealthyCount allOnes = w.p.unHealthyCount - 1 :=
            AddUint64_allOnes_pos _ (by omega) (by omega)
          refine ⟨rest ++ [w.conns.length], hq1, ?_, ?_, ?_, ?_, h5, h6, ?_⟩
          · apply (List.perm_append_singleton _ rest).nodup_iff.mpr
            rw [List.nodup_cons]
            refine ⟨?_, h1.2⟩
            intro hm
            exact Nat.lt_irrefl _ (h2 _ (List.mem_cons_of_mem a hm))
          · intro b hb
            show b < (w.conns ++ [newClientConn r now]).length
            rw [List.length_append, List.length_singleton]
            simp only [List.mem_append, List.mem_singleton] at hb
            rcases hb with hb | hb
            · have := h2 b (List.mem_cons_of_mem a hb)
              omega
            · omega
          · show List.countP (unhealthyAt (w.conns ++ [newClientConn r now])) _ ≤
              AddUint64 w.p.unHealthyCount allOnes
            rw [hcnt, hdec]
            omega
          · show AddUint64 w.p.unHealthyCount allOnes ≤ toUint64 (Int.tdiv w.p.cap 2)
            rw [hdec]
            omega
          · intro h0
            have := h7 h0
            simp only [List.length_append, List.length_singleton, List.length_cons] at this ⊢
            exact this
      · obtain ⟨q, e, hq1⟩ := healthyIter_keep factory now fuel w a rest c hq hc hcond
        rw [e] at h
        injection h with h
        subst h
        exact PoolInv_perm w _ _ _ hinv hq hq1 hp rfl (fun _ => rfl) rfl rfl rfl

theorem CloseStart_PoolInv (fuel : Nat) (w : World) (v : Option Nat) (q : Queue Nat)
    (hd : Dequeue fuel w.p.clients = .ok (v, q)) (hinv : PoolInv w) :
    PoolInv { w with p := { w.p with close := 1, clients := q } } := by
  obtain ⟨l, hq, h1, h2, h3, h4, h5, h6, h7⟩ := hinv
  rcases Dequeue_inv_some w l _ _ _ hq hd with ⟨_, _, e⟩ | ⟨a, l1, e, _, hq1⟩
  · subst e
    exact ⟨l, hq, h1, h2, h3, h4, h5, Or.inr rfl, fun h => absurd h (show (1 : Int) ≠ 0 by decide)⟩
  · subst e
    rw [List.nodup_cons] at h1
    refine ⟨l1, hq1, h1.2, fun b hb => h2 b (List.mem_cons_of_mem a hb), ?_, h4, h5,
      Or.inr rfl, fun h => absurd h (show (1 : Int) ≠ 0 by decide)⟩
    have : List.countP (unhealthyAt w.conns) l1 ≤ List.countP (unhealthyAt w.conns) (a :: l1) := by
      rw [List.countP_cons]
      omega
    exact le_trans this h3

theorem CloseIter_PoolInv (v : Nat) (w w1 : World) (h : CloseIter v w = .ok w1)
    (hinv : PoolInv w) : PoolInv w1 := by
  unfold CloseIter at h
  split at h
  · cases h
  · injection h with h
    subst h
    obtain ⟨l, hq, hrest⟩ := hinv
    exact ⟨l, hq, hrest⟩

theorem Close_PoolInv (fuel : Nat) (w w1 : World) (h : Pool.Close fuel w = .ok w1)
    (hinv : PoolInv w) : PoolInv w1 := by
  unfold Pool.Close at h
  split at h
  · simp only [] at h
    split at h
    · cases h
    · rename_i v q1 hd
      have hinv1 := CloseStart_PoolInv fuel w v q1 hd hinv
      cases v with
      | none =>
        have e : w1 = { w with p := { w.p with close := 1, clients := q1 } } := by
          cases fuel <;> simp [CloseLoop] at h <;> exact h.symm
        rw [e]
        exact hinv1
      | some a =>
        obtain ⟨l, hq, _, h2, _⟩ := hinv
        rcases Dequeue_inv_some w l _ _ _ hq hd with ⟨_, e, _⟩ | ⟨b, l1, e, e2, _⟩
        · cases e
        · injection e2 with e2
          subst e2
          subst e
          obtain ⟨c, hc⟩ := some_of_lt_length _ _ (h2 a (List.mem_cons_self a l1))
          have hc1 : ({ w with p := { w.p with close := 1, clients := q1 } } : World).conns[a]?
              = some c := hc
          rw [CloseLoop_some a c fuel _ hc1] at h
          cases h
  · injection h with h
    subst h
    exact hinv

theorem Step_PoolInv (factory : Factory) (w w1 : World) (h : Step factory w w1)
    (hinv : PoolInv w) : PoolInv w1 := by
  cases h with
  | get fuel ctx r _ _ h => exact Get_PoolInv fuel ctx w w1 r h hinv
  | release now a _ _ h => exact Release_PoolInv now a w w1 h hinv
  | evict now fuel _ _ _ h => exact healthyIter_PoolInv factory now fuel w w1 h hinv
  | close fuel _ _ h => exact Close_PoolInv fuel w w1 h hinv
  | closeStart fuel _ v q _ h => exact CloseStart_PoolInv fuel w v q h hinv
  | closeSpin v _ _ h => exact CloseIter_PoolInv v w w1 h hinv

theorem Reachable_PoolInv (factory : Factory) (w : World) (h : Reachable factory w) :
    PoolInv w := by
  obtain ⟨clock, fuel, capacity, maxLife, maxUse, w0, h0, hsteps⟩ := h
  induction hsteps with
  | refl => exact NewWithContext_PoolInv factory clock fuel capacity maxLife maxUse w0 h0
  | tail _ hstep ih => exact Step_PoolInv factory _ _ hstep ih

/-- C9: in every world reachable from a successfully constructed pool by any
sequence of `Get`, release, eviction steps and `Close` (completed, or in
progress), the pool's `unHealthyCount` is at most `cap / 2` (integer
division). -/
theorem unHealthyCount_le_half (factory : Factory) (w : World) (h : Reachable factory w) :
    (w.p.unHealthyCount : Int) ≤ w.p.cap / 2 := by
  obtain ⟨l, _, _, _, _, h4, h5, _⟩ := Reachable_PoolInv factory w h
  have h6 : (0 : Int) ≤ w.p.cap := by omega
  have e : Int.tdiv w.p.cap 2 = w.p.cap / 2 := Int.tdiv_eq_ediv h6 (by norm_num)
  have h7 := toUint64_le (Int.tdiv w.p.cap 2) (by rw [e]; omega)
  rw [e] at h7 h4
  have h8 : (w.p.unHealthyCount : Int) ≤ (toUint64 (w.p.cap / 2) : Int) := by
    exact_mod_cast h4
  omega

theorem unHealthyCount_le_half_witness :
    ∃ w1, New exFactory exClock 1 2 5 3 = .ok ((true, none), exWorldLimits) ∧
      ClientConn.Close 6 0 exWorldLimits = .ok w1 ∧ w1.p.unHealthyCount = 1 ∧
      (w1.p.unHealthyCount : Int) ≤ w1.p.cap / 2 :=
  ⟨_, rfl, rfl, rfl,
    unHealthyCount_le_half exFactory _
      ⟨exClock, 1, 2, 5, 3, exWorldLimits, rfl,
        Relation.ReflTransGen.single (Step.release 6 0 _ _ rfl)⟩⟩

/-! ## Theorems: construction (`New`, `NewWithContext`) -/

theorem NewLoop_ok (factory : Factory) (clock : Nat → Int) (fuel : Nat) (res : Nat → Nat) :
    ∀ (k i : Nat) (w : World), Queued w (List.range w.conns.length) →
      (∀ j, j < k → factory (w.factoryCalls + j) = .ok (res (w.factoryCalls + j))) →
      ∃ w1, NewLoop factory clock (fuel + 1) k i w = .ok (none, w1) ∧
        Queued w1 (List.range w1.conns.length) ∧
        w1.conns.length = w.conns.length + k ∧
        (∀ j, j < k → w1.conns[w.conns.length + j]? =
          some (newClientConn (res (w.factoryCalls + j)) (clock (i + j)))) ∧
        (∀ b, b < w.conns.length → w1.conns[b]? = w.conns[b]?) ∧
        w1.factoryCalls = w.factoryCalls + k ∧
        w1.p = { w.p with clients := w1.p.clients } ∧
        w1.closeLog = w.closeLog ∧ w1.healthyStarted = w.healthyStarted := by
  intro k
  induction k with
  | zero =>
    intro i w hq _
    refine ⟨w, rfl, hq, rfl, ?_, fun _ _ => rfl, rfl, rfl, rfl, rfl⟩
    intro j hj
    omega
  | succ k ih =>
    intro i w hq hf
    have hf0 := hf 0 (by omega)
    rw [Nat.add_zero] at hf0
    obtain ⟨q1, e1, hq1, _⟩ := Enqueue_spec w.p.clients _ (some w.conns.length) fuel hq
    obtain ⟨w1, e, h1, h2, h3, h4, h5, h6, h7, h8⟩ := ih (i + 1)
      { w with p := { w.p with clients := q1 },
               conns := w.conns ++ [newClientConn (res w.factoryCalls) (clock i)],
               factoryCalls := w.factoryCalls + 1 }
      (by
        show QInv q1 ((List.range
          (w.conns ++ [newClientConn (res w.factoryCalls) (clock i)]).length).map some)
        rw [List.length_append, List.length_singleton, List.range_succ, List.map_append]
        exact hq1)
      (by
        intro j hj
        have := hf (j + 1) (by omega)
        rw [show w.factoryCalls + (j + 1) = w.factoryCalls + 1 + j by omega] at this
        exact this)
    simp only [List.length_append, List.length_singleton] at h2 h3 h4
    have h5a : w1.factoryCalls = w.factoryCalls + 1 + k := h5
    refine ⟨w1, ?_, h1, by omega, ?_, ?_, by omega, ?_, h7, h8⟩
    · simp only [NewLoop, hf0, e1]
      exact e
    · intro j hj
      cases j with
      | zero =>
        rw [Nat.add_zero, Nat.add_zero, h4 _ (by omega)]
        simp
      | succ j =>
        have := h3 j (by omega)
        rw [show w.conns.length + (j + 1) = w.conns.length + 1 + j by omega,
          show i + (j + 1) = i + 1 + j by omega,
          show w.factoryCalls + (j + 1) = w.factoryCalls + 1 + j by omega]
        exact this
    · intro b hb
      rw [h4 b (by omega), List.getElem?_append_left hb]
    · rw [h6]

theorem NewLoop_fail (factory : Factory) (clock : Nat → Int) (fuel : Nat) (res : Nat → Nat)
    (err : error) :
    ∀ (j k i : Nat) (w : World), Queued w (List.range w.conns.length) → j < k →
      (∀ m, m < j → factory (w.factoryCalls + m) = .ok (res (w.factoryCalls + m))) →
      factory (w.factoryCalls + j) = .error err →
      ∃ w1, NewLoop factory clock (fuel + 1) k i w = .ok (some err, w1) ∧
        w1.factoryCalls = w.factoryCalls + j + 1 ∧
        w1.conns.length = w.conns.length + j ∧
        w1.closeLog = w.closeLog ∧ w1.healthyStarted = w.healthyStarted := by
  intro j
  induction j with
  | zero =>
    intro k i w _ hk _ hfe
    rw [Nat.add_zero] at hfe
    obtain ⟨k1, rfl⟩ : ∃ k1, k = k1 + 1 := ⟨k - 1, by omega⟩
    refine ⟨{ w with factoryCalls := w.factoryCalls + 1 }, ?_, rfl, rfl, rfl, rfl⟩
    simp only [NewLoop, hfe]
  | succ j ih =>
    intro k i w hq hk hf hfe
    obtain ⟨k1, rfl⟩ : ∃ k1, k = k1 + 1 := ⟨k - 1, by omega⟩
    have hf0 := hf 0 (by omega)
    rw [Nat.add_zero] at hf0
    obtain ⟨q1, e1, hq1, _⟩ := Enqueue_spec w.p.clients _ (some w.conns.length) fuel hq
    obtain ⟨w1, e, h1, h2, h3, h4⟩ := ih k1 (i + 1)
      { w with p := { w.p with clients := q1 },
               conns := w.conns ++ [newClientConn (res w.factoryCalls) (clock i)],
               factoryCalls := w.factoryCalls + 1 }
      (by
        show QInv q1 ((List.range
          (w.conns ++ [newClientConn (res w.factoryCalls) (clock i)]).length).map some)
        rw [List.length_append, List.length_singleton, List.range_succ, List.map_append]
        exact hq1)
      (by omega)
      (by
        intro m hm
        have := hf (m + 1) (by omega)
        rw [show w.factoryCalls + (m + 1) = w.factoryCalls + 1 + m by omega] at this
        exact this)
      (by
        rw [show w.factoryCalls + (j + 1) = w.factoryCalls + 1 + j by omega] at hfe
        exact hfe)
    simp only [List.length_append, List.length_singleton] at h2
    have h1a : w1.factoryCalls = w.factoryCalls + 1 + j + 1 := h1
    refine ⟨w1, ?_, by omega, by omega, h3, h4⟩
    simp only [NewLoop, hf0, e1]
    exact e

theorem NewWithContext_ok (factory : Factory) (clock : Nat → Int) (fuel : Nat)
    (capacity maxLifeDuration : Int) (maxUseCount : Nat) (res : Nat → Nat)
    (hf : ∀ k, k < (max capacity 2).toNat → factory k = .ok (res k)) :
    ∃ w0, NewWithContext factory clock (fuel + 1) capacity maxLifeDuration maxUseCount
        = .ok ((true, none), w0) ∧
      w0.p = { clients := w0.p.clients, maxLifeDuration := maxLifeDuration,
               maxUseCount := maxUseCount, close := 0, unHealthyCount := 0,
               cap := max capacity 2 } ∧
      Queued w0 (List.range (max capacity 2).toNat) ∧
      w0.conns.length = (max capacity 2).toNat ∧
      (∀ j, j < (max capacity 2).toNat →
        w0.conns[j]? = some (newClientConn (res j) (clock j))) ∧
      w0.factoryCalls = (max capacity 2).toNat ∧
      w0.closeLog = [] ∧ w0.healthyStarted = true := by
  have hcap : (if capacity < 2 then 2 else capacity) = max capacity 2 := by
    rw [max_def]
    split <;> split <;> omega
  obtain ⟨w1, e, h1, h2, h3, _, h5, h6, h7, _⟩ := NewLoop_ok factory clock fuel res
    (max capacity 2).toNat 0
    { p := { clients := NewQueue Nat, maxLifeDuration := maxLifeDuration,
             maxUseCount := maxUseCount, cap := max capacity 2, close := 0,
             unHealthyCount := 0 },
      conns := [], closeLog := [], factoryCalls := 0, healthyStarted := false }
    (QInv_NewQueue Nat)
    (by
      intro j hj
      show factory (0 + j) = .ok (res (0 + j))
      rw [Nat.zero_add]
      exact hf j hj)
  simp only [List.length_nil, Nat.zero_add] at h2 h3 h5
  refine ⟨{ w1 with healthyStarted := true }, ?_, h6, ?_, h2, h3, h5, h7, rfl⟩
  · simp only [NewWithContext, hcap, e]
  · show QInv w1.p.clients _
    rw [← h2]
    exact h1

/-- C11: for every requested capacity and a factory that always succeeds
(call `k` gives connection `res k`), `New` (which is `NewWithContext`)
returns a pool with `cap = max capacity 2` after exactly `cap` factory
calls; the queue holds exactly the `cap` handles at addresses `0 .. cap-1`
in creation order, handle `j` wrapping `res j`, healthy, with `use = 0` and
`useCount = 0`; `unHealthyCount = 0` and the pool is not closed. -/
theorem New_fills (factory : Factory) (clock : Nat → Int) (fuel : Nat)
    (capacity maxLifeDuration : Int) (maxUseCount : Nat) (res : Nat → Nat)
    (hf : ∀ k, factory k = .ok (res k)) :
    ∃ w0, New factory clock (fuel + 1) capacity maxLifeDuration maxUseCount
        = .ok ((true, none), w0) ∧
      NewWithContext factory clock (fuel + 1) capacity maxLifeDuration maxUseCount
        = .ok ((true, none), w0) ∧
      w0.p.cap = max capacity 2 ∧ (w0.factoryCalls : Int) = w0.p.cap ∧
      Queued w0 (List.range w0.factoryCalls) ∧ w0.conns.length = w0.factoryCalls ∧
      (∀ j, j < w0.factoryCalls → ∃ c, w0.conns[j]? = some c ∧ c.conn = res j ∧
        c.IsHealthy = true ∧ c.use = 0 ∧ c.useCount = 0) ∧
      w0.p.unHealthyCount = 0 ∧ w0.p.IsClosed = false := by
  obtain ⟨w0, e, hp, hq, hlen, hc, hfc, _, _⟩ := NewWithContext_ok factory clock fuel capacity
    maxLifeDuration maxUseCount res (fun k _ => hf k)
  have hcap : w0.p.cap = max capacity 2 := by rw [hp]
  refine ⟨w0, e, e, hcap, ?_, by rw [hfc]; exact hq, by rw [hfc]; exact hlen, ?_, by rw [hp],
    by rw [hp]; rfl⟩
  · rw [hfc, hcap]
    exact Int.toNat_of_nonneg (le_trans (by norm_num) (le_max_right capacity 2))
  · intro j hj
    rw [hfc] at hj
    exact ⟨_, hc j hj, rfl, rfl, rfl, rfl⟩

theorem New_fills_witness :
    ∃ w0, New exFactory exClock (0 + 1) 0 0 0 = .ok ((true, none), w0) ∧
      w0.p.cap = max 0 2 ∧ (w0.factoryCalls : Int) = w0.p.cap ∧
      Queued w0 (List.range w0.factoryCalls) :=
  have h := New_fills exFactory exClock 0 0 0 0 (fun k => 100 + k) (fun _ => rfl)
  ⟨h.choose, h.choose_spec.1, h.choose_spec.2.2.1, h.choose_spec.2.2.2.1,
    h.choose_spec.2.2.2.2.1⟩

/-- C12: when the factory succeeds on its first `j` calls and fails with
`err` on call `j + 1`, with `j < max capacity 2`, construction returns the
nil pool and exactly that error; the factory has been called `j + 1` times,
so not again after the failure. -/
theorem New_factory_fails (factory : Factory) (clock : Nat → Int) (fuel : Nat)
    (capacity maxLifeDuration : Int) (maxUseCount : Nat) (res : Nat → Nat) (err : error)
    (j : Nat) (hj : j < (max capacity 2).toNat) (hok : ∀ m, m < j → factory m = .ok (res m))
    (hfail : factory j = .error err) :
    ∃ w1, New factory clock (fuel + 1) capacity maxLifeDuration maxUseCount
        = .ok ((false, some err), w1) ∧
      NewWithContext factory clock (fuel + 1) capacity maxLifeDuration maxUseCount
        = .ok ((false, some err), w1) ∧
      w1.factoryCalls = j + 1 := by
  have hcap : (if capacity < 2 then 2 else capacity) = max capacity 2 := by
    rw [max_def]
    split <;> split <;> omega
  obtain ⟨w1, e, h1, _⟩ := NewLoop_fail factory clock fuel res err j
    (max capacity 2).toNat 0
    { p := { clients := NewQueue Nat, maxLifeDuration := maxLifeDuration,
             maxUseCount := maxUseCount, cap := max capacity 2, close := 0,
             unHealthyCount := 0 },
      conns := [], closeLog := [], factoryCalls := 0, healthyStarted := false }
    (QInv_NewQueue Nat) hj
    (by
      intro m hm
      show factory (0 + m) = .ok (res (0 + m))
      rw [Nat.zero_add]
      exact hok m hm)
    (by
      show factory (0 + j) = .error err
      rw [Nat.zero_add]
      exact hfail)
  have e2 : NewWithContext factory clock (fuel + 1) capacity maxLifeDuration maxUseCount
      = .ok ((false, some err), w1) := by
    simp only [NewWithContext, hcap, e]
  refine ⟨w1, e2, e2, ?_⟩
  have : w1.factoryCalls = 0 + j + 1 := h1
  omega

theorem New_factory_fails_witness :
    ∃ w1, New failFactory exClock (0 + 1) 3 0 0 = .ok ((false, some (.other 7)), w1) ∧
      w1.factoryCalls = 1 + 1 :=
  have h := New_factory_fails failFactory exClock 0 3 0 0 (fun k => 100 + k) (.other 7) 1
    (by decide)
    (by intro m hm
        have : m = 0 := by omega
        subst this
        rfl)
    rfl
  ⟨h.choose, h.choose_spec.1, h.choose_spec.2.2⟩

/-! ## Theorems: what a returning call has done -/

theorem GetLoop_inv (ctx : Nat → Bool) (qfuel : Nat) :
    ∀ (fuel i : Nat) (w w1 : World) (r : Option Nat × Option error),
      GetLoop ctx qfuel fuel i w = .ok (r, w1) →
      ∃ q, (r = (none, some .ErrTimeout) ∧ w1 = w.withClients q) ∨
        (∃ a c, r = (some a, none) ∧ w.conns[a]? = some c ∧ c.unhealthy = false ∧
          w1 = { w.withClients q with
                 conns := w.conns.set a
                   { c with use := AddUint64 c.use 1,
                            useCount := AddUint64 c.useCount 1 } }) := by
  intro fuel
  induction fuel with
  | zero => intro i w w1 r h; simp [GetLoop] at h
  | succ fuel ih =>
    intro i w w1 r h
    unfold GetLoop at h
    split at h
    · injection h with h
      injection h with h1 h2
      subst h1; subst h2
      exact ⟨w.p.clients, Or.inl ⟨rfl, rfl⟩⟩
    · split at h
      · cases h
      · obtain ⟨q, hr⟩ := ih _ _ _ _ h
        rcases hr with ⟨h1, h2⟩ | ⟨a, c, h1, h2, h3, h4⟩
        · exact ⟨q, Or.inl ⟨h1, h2⟩⟩
        · exact ⟨q, Or.inr ⟨a, c, h1, h2, h3, h4⟩⟩
      · split at h
        · cases h
        · rename_i q2 _
          split at h
          · cases h
          · rename_i c hc
            split at h
            · rename_i hh
              injection h with h
              injection h with h1 h2
              subst h1; subst h2
              refine ⟨q2, Or.inr ⟨_, c, rfl, hc, ?_, rfl⟩⟩
              simpa [ClientConn.IsHealthy] using hh
            · obtain ⟨q, hr⟩ := ih _ _ _ _ h
              rcases hr with ⟨h1, h2⟩ | ⟨a, c, h1, h2, h3, h4⟩
              · exact ⟨q, Or.inl ⟨h1, h2⟩⟩
              · exact ⟨q, Or.inr ⟨a, c, h1, h2, h3, h4⟩⟩

theorem Get_inv (fuel : Nat) (ctx : Nat → Bool) (w w1 : World) (r : Option Nat × Option error)
    (h : Pool.Get fuel ctx w = .ok (r, w1)) :
    (r = (none, some .ErrClosed) ∧ w1 = w) ∨
    ∃ q, (r = (none, some .ErrTimeout) ∧ w1 = w.withClients q) ∨
      (∃ a c, r = (some a, none) ∧ w.conns[a]? = some c ∧ c.unhealthy = false ∧
        w1 = { w.withClients q with
               conns := w.conns.set a
                 { c with use := AddUint64 c.use 1,
                          useCount := AddUint64 c.useCount 1 } }) := by
  unfold Pool.Get at h
  split at h
  · injection h with h
    injection h with h1 h2
    subst h1; subst h2
    exact Or.inl ⟨rfl, rfl⟩
  · exact Or.inr (GetLoop_inv ctx fuel fuel 0 w w1 r h)

theorem healthyIter_inv (factory : Factory) (now : Int) (fuel : Nat) (w w1 : World)
    (h : healthyIter factory now fuel w = .ok w1) :
    ∃ q, w1 = w.withClients q ∨
      w1 = { w.withClients q with factoryCalls := w.factoryCalls + 1 } ∨
      (∃ (a : Nat) (c : ClientConn) (r : Nat), w.conns[a]? = some c ∧ c.unhealthy = true ∧
        c.use = 0 ∧
        factory w.factoryCalls = .ok r ∧
        w1 = { w with
               p := { w.p with clients := q,
                               unHealthyCount := AddUint64 w.p.unHealthyCount allOnes },
               conns := w.conns ++ [newClientConn r now],
               closeLog := w.closeLog ++ [c.conn],
               factoryCalls := w.factoryCalls + 1 }) := by
  unfold healthyIter at h
  split at h
  · cases h
  · rename_i q1 _
    injection h with h
    subst h
    exact ⟨q1, Or.inl rfl⟩
  · split at h
    · cases h
    · rename_i c hc
      split at h
      · rename_i hcond
        simp only [ClientConn.IsHealthy, Bool.and_eq_true, Bool.not_eq_true', beq_eq_false_iff_ne,
          ne_eq, Bool.not_eq_false, beq_iff_eq] at hcond
        split at h
        · split at h
          · cases h
          · rename_i q2 _
            injection h with h
            subst h
            exact ⟨q2, Or.inr (Or.inl rfl)⟩
        · rename_i r hf
          simp only [] at h
          split at h
          · cases h
          · rename_i q2 _
            injection h with h
            subst h
            exact ⟨q2, Or.inr (Or.inr ⟨_, c, r, hc, hcond.1, hcond.2, hf, rfl⟩)⟩
      · split at h
        · cases h
        · rename_i q2 _
          injection h with h
          subst h
          exact ⟨q2, Or.inl rfl⟩

theorem CloseLoop_frame :
    ∀ (fuel : Nat) (v : Option Nat) (w w1 : World), CloseLoop fuel v w = .ok w1 →
      w1.p = w.p ∧ w1.conns = w.conns := by
  intro fuel
  induction fuel with
  | zero =>
    intro v w w1 h
    cases v with
    | none =>
      simp only [CloseLoop] at h
      injection h with h
      subst h
      exact ⟨rfl, rfl⟩
    | some a => simp [CloseLoop] at h
  | succ fuel ih =>
    intro v w w1 h
    cases v with
    | none =>
      simp only [CloseLoop] at h
      injection h with h
      subst h
      exact ⟨rfl, rfl⟩
    | some a =>
      simp only [CloseLoop] at h
      split at h
      · cases h
      · rename_i w2 he
        unfold CloseIter at he
        split at he
        · cases he
        · injection he with he
          subst he
          obtain ⟨h1, h2⟩ := ih _ _ _ h
          exact ⟨h1, h2⟩

theorem Close_inv (fuel : Nat) (w w1 : World) (h : Pool.Close fuel w = .ok w1) :
    (w.p.close ≠ 0 ∧ w1 = w) ∨
      (w.p.close = 0 ∧ ∃ q, w1.p = { w.p with close := 1, clients := q } ∧
        w1.conns = w.conns) := by
  unfold Pool.Close at h
  split at h
  · rename_i h0
    simp only [] at h
    split at h
    · cases h
    · rename_i v q1 _
      obtain ⟨h1, h2⟩ := CloseLoop_frame _ _ _ _ h
      exact Or.inr ⟨h0, q1, h1, h2⟩
  · rename_i h0
    injection h with h
    subst h
    exact Or.inl ⟨h0, rfl⟩

theorem Step_frame (factory : Factory) (w w1 : World) (h : Step factory w w1) :
    w1.p.cap = w.p.cap ∧ w1.p.maxLifeDuration = w.p.maxLifeDuration ∧
      w1.p.maxUseCount = w.p.maxUseCount ∧
      (w1.p.close = w.p.close ∨ (w.p.close = 0 ∧ w1.p.close = 1)) := by
  cases h with
  | get fuel ctx r _ _ h =>
    rcases Get_inv fuel ctx w w1 r h with ⟨_, e⟩ | ⟨q, ⟨_, e⟩ | ⟨a, c, _, _, _, e⟩⟩ <;>
      subst e <;> exact ⟨rfl, rfl, rfl, Or.inl rfl⟩
  | release now a _ _ h =>
    cases hc : w.conns[a]? with
    | none => simp [ClientConn.Close, hc] at h
    | some c =>
      obtain ⟨f, n, e, _⟩ := Release_eq now a w c hc
      rw [e] at h
      injection h with h
      subst h
      exact ⟨rfl, rfl, rfl, Or.inl rfl⟩
  | evict now fuel _ _ _ h =>
    obtain ⟨q, e | e | ⟨a, c, r, _, _, _, _, e⟩⟩ := healthyIter_inv factory now fuel w w1 h <;>
      subst e <;> exact ⟨rfl, rfl, rfl, Or.inl rfl⟩
  | close fuel _ _ h =>
    rcases Close_inv fuel w w1 h with ⟨_, e⟩ | ⟨h0, q, e, _⟩
    · subst e
      exact ⟨rfl, rfl, rfl, Or.inl rfl⟩
    · rw [e]
      exact ⟨rfl, rfl, rfl, Or.inr ⟨h0, rfl⟩⟩
  | closeStart fuel _ v q h0 _ => exact ⟨rfl, rfl, rfl, Or.inr ⟨h0, rfl⟩⟩
  | closeSpin v _ _ h =>
    unfold CloseIter at h
    split at h
    · cases h
    · injection h with h
      subst h
      exact ⟨rfl, rfl, rfl, Or.inl rfl⟩

theorem Steps_frame (factory : Factory) (w w1 : World)
    (h : Relation.ReflTransGen (Step factory) w w1) :
    w1.p.cap = w.p.cap ∧ w1.p.maxLifeDuration = w.p.maxLifeDuration ∧
      w1.p.maxUseCount = w.p.maxUseCount ∧
      (w.p.close = 1 → w1.p.close = 1) := by
  induction h with
  | refl => exact ⟨rfl, rfl, rfl, id⟩
  | tail _ hstep ih =>
    obtain ⟨h1, h2, h3, h4⟩ := Step_frame factory _ _ hstep
    obtain ⟨i1, i2, i3, i4⟩ := ih
    refine ⟨h1.trans i1, h2.trans i2, h3.trans i3, ?_⟩
    intro hc
    rcases h4 with h4 | ⟨_, h4⟩
    · rw [h4]
      exact i4 hc
    · exact h4

theorem NewLoop_frame (factory : Factory) (clock : Nat → Int) (fuel : Nat) :
    ∀ (k i : Nat) (w w1 : World) (r : Option error),
      NewLoop factory clock fuel k i w = .ok (r, w1) →
      w1.p = { w.p with clients := w1.p.clients } := by
  intro k
  induction k with
  | zero =>
    intro i w w1 r h
    simp only [NewLoop] at h
    injection h with h
    injection h with _ h2
    subst h2
    rfl
  | succ k ih =>
    intro i w w1 r h
    unfold NewLoop at h
    split at h
    · injection h with h
      injection h with _ h2
      subst h2
      rfl
    · simp only [] at h
      split at h
      · cases h
      · have := ih _ _ _ _ h
        rw [this]

theorem NewWithContext_fields (factory : Factory) (clock : Nat → Int) (fuel : Nat)
    (capacity maxLifeDuration : Int) (maxUseCount : Nat) (w0 : World) (b : Bool)
    (r : Option error)
    (h : NewWithContext factory clock fuel capacity maxLifeDuration maxUseCount
      = .ok ((b, r), w0)) :
    w0.p.cap = max capacity 2 ∧ w0.p.maxLifeDuration = maxLifeDuration ∧
      w0.p.maxUseCount = maxUseCount ∧ w0.p.close = 0 ∧ w0.p.unHealthyCount = 0 := by
  have hcap : (if capacity < 2 then 2 else capacity) = max capacity 2 := by
    rw [max_def]
    split <;> split <;> omega
  unfold NewWithContext at h
  simp only [] at h
  split at h
  · cases h
  · rename_i w1 he
    injection h with h
    injection h with _ h2
    subst h2
    have := NewLoop_frame _ _ _ _ _ _ _ _ he
    rw [this]
    exact ⟨hcap, rfl, rfl, rfl, rfl⟩
  · rename_i w1 he
    injection h with h
    injection h with _ h2
    subst h2
    have := NewLoop_frame _ _ _ _ _ _ _ _ he
    show w1.p.cap = _ ∧ _
    rw [this]
    exact ⟨hcap, rfl, rfl, rfl, rfl⟩

/-- C13 (as stated, refuted): `New` with `maxLifeDuration = 0` and
`maxUseCount = 0` builds the pool `exWorld`, whose `maxLifeDuration` is 0, not
3600 seconds, and whose `maxUseCount` is 0, not 256; a handle of that pool
acquired at time 0 and released 4000 seconds later stays healthy. -/
theorem New_zero_limits_kept :
    New exFactory exClock 1 2 0 0 = .ok ((true, none), exWorld) ∧
      exWorld.p.maxLifeDuration = 0 ∧ exWorld.p.maxLifeDuration ≠ 3600 * 1000000000 ∧
      exWorld.p.maxUseCount = 0 ∧ exWorld.p.maxUseCount ≠ 256 ∧
      ∃ w1 w2, Pool.Get 1 ctxNever exWorld = .ok ((some 0, none), w1) ∧
        ClientConn.Close (4000 * 1000000000) 0 w1 = .ok w2 ∧
        (w2.conns[0]?).map (fun c => c.unhealthy) = some false :=
  ⟨rfl, rfl, by decide, rfl, by decide, _, _, rfl, rfl, rfl⟩

/-- C13 (amended): a pool constructed by `New` (or `NewWithContext`) keeps the
`maxLifeDuration` and `maxUseCount` it was given, in every world reachable
from it, and no default is put in their place: with `maxLifeDuration = 0`
a release marks a handle only for its use count, with `maxUseCount = 0`
only for its age. -/
theorem New_keeps_limits (factory : Factory) (clock : Nat → Int) (fuel : Nat)
    (capacity maxLifeDuration : Int) (maxUseCount : Nat) (res : Nat → Nat)
    (hf : ∀ k, factory k = .ok (res k)) :
    ∃ w0, New factory clock (fuel + 1) capacity maxLifeDuration maxUseCount
        = .ok ((true, none), w0) ∧
      ∀ w, Relation.ReflTransGen (Step factory) w0 w →
        w.p.maxLifeDuration = maxLifeDuration ∧ w.p.maxUseCount = maxUseCount ∧
        ∀ (now : Int) (a : Nat) (c : ClientConn), w.conns[a]? = some c →
          ∃ w1 c1, ClientConn.Close now a w = .ok w1 ∧ w1.conns[a]? = some c1 ∧
            (maxLifeDuration = 0 → (c1.unhealthy = true ↔ (c.unhealthy = true ∨
              ((0 < maxUseCount ∧ maxUseCount < c.useCount) ∧
                w.p.unHealthyCount < toUint64 (Int.tdiv w.p.cap 2))))) ∧
            (maxUseCount = 0 → (c1.unhealthy = true ↔ (c.unhealthy = true ∨
              ((0 < maxLifeDuration ∧ c.timeInitiated + maxLifeDuration < now) ∧
                w.p.unHealthyCount < toUint64 (Int.tdiv w.p.cap 2))))) := by
  obtain ⟨w0, e, hp, _⟩ := NewWithContext_ok factory clock fuel capacity maxLifeDuration
    maxUseCount res (fun k _ => hf k)
  refine ⟨w0, e, ?_⟩
  intro w hs
  obtain ⟨_, h2, h3, _⟩ := Steps_frame factory w0 w hs
  have hl : w.p.maxLifeDuration = maxLifeDuration := by rw [h2, hp]
  have hu : w.p.maxUseCount = maxUseCount := by rw [h3, hp]
  refine ⟨hl, hu, ?_⟩
  intro now a c hc
  obtain ⟨f, n, e1, hf1, _⟩ := Release_eq now a w c hc
  rw [hl, hu] at hf1
  refine ⟨_, _, e1, getElem?_set_self_of_some _ _ _ _ hc, ?_, ?_⟩
  · intro h0
    show f = true ↔ _
    rw [hf1, h0]
    simp
  · intro h0
    show f = true ↔ _
    rw [hf1, h0]
    simp

theorem New_keeps_limits_witness :
    ∃ w0, New exFactory exClock (0 + 1) 2 0 0 = .ok ((true, none), w0) ∧
      w0.p.maxLifeDuration = 0 ∧ w0.p.maxUseCount = 0 :=
  have h := New_keeps_limits exFactory exClock 0 2 0 0 (fun k => 100 + k) (fun _ => rfl)
  ⟨h.choose, h.choose_spec.1,
    (h.choose_spec.2 h.choose Relation.ReflTransGen.refl).1,
    (h.choose_spec.2 h.choose Relation.ReflTransGen.refl).2.1⟩

/-! ## Theorems: `Capacity` and repeated `Close` -/

theorem Capacity_open (p : Pool) (h : p.close = 0) : p.Capacity = p.cap := by
  simp [Pool.Capacity, Pool.IsClosed, h]

theorem Capacity_closed (p : Pool) (h : p.close = 1) : p.Capacity = 0 := by
  simp [Pool.Capacity, Pool.IsClosed, h]

/-- C14: in every world `w` reachable from a pool constructed with requested
capacity `capacity`, the closed flag is 0 or 1; while it is 0 (the pool has
not been closed) `Capacity` returns `max capacity 2`; once it is 1 `Capacity`
returns 0: in the world where `Close` has just set the flag (and run the init
statement of its loop), and in every world reachable after that. -/
theorem Capacity_spec (factory : Factory) (clock : Nat → Int) (fuel : Nat)
    (capacity maxLifeDuration : Int) (maxUseCount : Nat) (w0 w : World)
    (h0 : NewWithContext factory clock fuel capacity maxLifeDuration maxUseCount
      = .ok ((true, none), w0))
    (hs : Relation.ReflTransGen (Step factory) w0 w) :
    (w.p.close = 0 ∨ w.p.close = 1) ∧
    (w.p.close = 0 → w.p.Capacity = max capacity 2) ∧
    (w.p.close = 1 → w.p.Capacity = 0) ∧
    (∀ (q : Queue Nat),
      ({ w with p := { w.p with close := 1, clients := q } } : World).p.Capacity = 0) ∧
    (∀ w2, w.p.close = 1 → Relation.ReflTransGen (Step factory) w w2 →
      w2.p.Capacity = 0) := by
  obtain ⟨hc0, _⟩ := NewWithContext_fields factory clock fuel capacity maxLifeDuration
    maxUseCount w0 true none h0
  obtain ⟨hc1, _⟩ := Steps_frame factory w0 w hs
  obtain ⟨_, _, _, _, _, _, _, hcl, _⟩ := Reachable_PoolInv factory w
    ⟨clock, fuel, capacity, maxLifeDuration, maxUseCount, w0, h0, hs⟩
  refine ⟨hcl, ?_, fun h => Capacity_closed _ h, fun _ => Capacity_closed _ rfl, ?_⟩
  · intro h
    rw [Capacity_open _ h, hc1, hc0]
  · intro w2 h hs2
    exact Capacity_closed _ ((Steps_frame factory w w2 hs2).2.2.2 h)

theorem Capacity_spec_witness :
    (exWorld.p.close = 0 ∨ exWorld.p.close = 1) ∧
    (exWorld.p.close = 0 → exWorld.p.Capacity = max 0 2) ∧
    (∀ (q : Queue Nat),
      ({ exWorld with p := { exWorld.p with close := 1, clients := q } } : World).p.Capacity
        = 0) :=
  have h := Capacity_spec exFactory exClock 1 0 0 0 exWorld exWorld rfl
    Relation.ReflTransGen.refl
  ⟨h.1, h.2.1, h.2.2.2.1⟩

/-- C15: `Close` on a pool whose closed flag is already set returns at once
and changes nothing, whatever the loop bound: no handle is dequeued, no
connection is closed, the flag stays set. -/
theorem Close_idempotent (fuel : Nat) (w : World) (h : w.p.IsClosed = true) :
    Pool.Close fuel w = .ok w := by
  have h1 : w.p.close = 1 := by simpa [Pool.IsClosed] using h
  have h2 : ¬ w.p.close = 0 := by rw [h1]; decide
  simp only [Pool.Close, h2, if_false]

theorem Close_idempotent_witness :
    exWorldClosed.p.IsClosed = true ∧ Pool.Close 0 exWorldClosed = .ok exWorldClosed ∧
      Pool.Close 5 spinWorld = .ok spinWorld :=
  ⟨rfl, Close_idempotent 0 exWorldClosed rfl, Close_idempotent 5 spinWorld rfl⟩

/-! ## Theorems: availability and the size of the queue -/

theorem Reachable_step (factory : Factory) (w w1 : World) (h : Reachable factory w)
    (hs : Step factory w w1) : Reachable factory w1 := by
  obtain ⟨clock, fuel, capacity, maxLife, maxUse, w0, h0, hsteps⟩ := h
  exact ⟨clock, fuel, capacity, maxLife, maxUse, w0, h0, Relation.ReflTransGen.tail hsteps hs⟩

theorem first_healthy_split (conns : List ClientConn) :
    ∀ (l : List Nat), l.countP (unhealthyAt conns) < l.length →
      ∃ pre hk post, l = pre ++ hk :: post ∧ (∀ a ∈ pre, unhealthyAt conns a = true) ∧
        unhealthyAt conns hk = false ∧ pre.length ≤ l.countP (unhealthyAt conns) := by
  intro l
  induction l with
  | nil => intro h; simp at h
  | cons x xs ih =>
    intro h
    cases hx : unhealthyAt conns x with
    | false =>
      exact ⟨[], x, xs, rfl, fun a ha => absurd ha (List.not_mem_nil a), hx, Nat.zero_le _⟩
    | true =>
      have hc : (x :: xs).countP (unhealthyAt conns) = xs.countP (unhealthyAt conns) + 1 := by
        simp [List.countP_cons, hx]
      rw [hc, List.length_cons] at h
      obtain ⟨pre, hk, post, e, h1, h2, h3⟩ := ih (by omega)
      refine ⟨x :: pre, hk, post, by rw [e]; rfl, ?_, h2, ?_⟩
      · intro a ha
        rcases List.mem_cons.mp ha with ha | ha
        · rw [ha]; exact hx
        · exact h1 a ha
      · rw [hc, List.length_cons]
        omega

theorem unhealthyAt_true (conns : List ClientConn) (a : Nat) (h : unhealthyAt conns a = true) :
    ∃ c, conns[a]? = some c ∧ c.unhealthy = true := by
  unfold unhealthyAt at h
  split at h
  · rename_i c hc
    exact ⟨c, hc, h⟩
  · cases h

theorem Get_skip_hit (fuel : Nat) (ctx : Nat → Bool) (w : World) (pre post : List Nat)
    (hk : Nat) (c : ClientConn) (hopen : w.p.IsClosed = false)
    (hctx : ∀ j, j ≤ pre.length → ctx j = false) (hq : Queued w (pre ++ hk :: post))
    (hpre : AllUnhealthy w pre) (hc : w.conns[hk]? = some c) (hu : c.unhealthy = false)
    (hfuel : pre.length ≤ fuel) :
    ∃ q, Pool.Get (fuel + 1) ctx w =
        .ok ((some hk, none),
          { w.withClients q with
            conns := w.conns.set hk
              { c with use := AddUint64 c.use 1, useCount := AddUint64 c.useCount 1 } }) ∧
      QInv q ((post ++ pre ++ [hk]).map some) := by
  obtain ⟨q1, e1, hq1⟩ := GetLoop_skip ctx fuel pre (hk :: post) (fuel - pre.length + 1) 0 w hq
    hpre (by intro j hj; simpa using hctx j (by omega))
  rw [show fuel - pre.length + 1 + pre.length = fuel + 1 by omega] at e1
  have hq1a : Queued (w.withClients q1) (hk :: (post ++ pre)) := by
    simpa [Queued, World.withClients] using hq1
  obtain ⟨q2, e2, hq2⟩ := GetLoop_hit ctx fuel (fuel - pre.length) (0 + pre.length)
    (w.withClients q1) hk (post ++ pre) c (by simpa using hctx pre.length (le_refl _)) hq1a hc hu
  refine ⟨q2, ?_, by simpa using hq2⟩
  simp only [Pool.Get, hopen, Bool.false_eq_true, if_false]
  rw [e1, e2]
  rfl

theorem IsClosed_of_open (p : Pool) (h : p.close = 0) : p.IsClosed = false := by
  simp [Pool.IsClosed, h]

theorem length_eq_countP_add_not (p : Nat → Bool) (l : List Nat) :
    l.length = l.countP p + l.countP (fun a => !p a) := by
  induction l with
  | nil => rfl
  | cons x xs ih =>
    simp only [List.length_cons, List.countP_cons]
    cases p x <;> simp <;> omega

theorem exWorldAged_Reachable (factory : Factory) (h0 : factory 0 = .ok 100)
    (h1 : factory 1 = .ok 101) : Reachable factory exWorldAged := by
  have e0 : NewWithContext factory exClock 1 2 5 3 = .ok ((true, none), exWorldLimits) := by
    simp only [NewWithContext, NewLoop, h0, h1]
    rfl
  have s1 : Step factory exWorldLimits
      { exWorldAged with
        p := { exWorldAged.p with unHealthyCount := 0 },
        conns := [{ conn := 100, timeInitiated := 0, use := 1, useCount := 1,
                    unhealthy := false },
                  { conn := 101, timeInitiated := 1, use := 0, useCount := 0,
                    unhealthy := false }] } :=
    Step.get 1 ctxNever (some 0, none) _ _ rfl
  exact ⟨exClock, 1, 2, 5, 3, exWorldLimits, e0,
    (Relation.ReflTransGen.single s1).tail (Step.release 6 0 _ _ rfl)⟩

theorem exWorldEvict_Reachable (factory : Factory) (h0 : factory 0 = .ok 100)
    (h1 : factory 1 = .ok 101) : Reachable factory exWorldEvict := by
  have s1 : Step factory exWorldAged
      { exWorldEvict with
        conns := [{ conn := 100, timeInitiated := 0, use := 0, useCount := 1,
                    unhealthy := true },
                  { conn := 101, timeInitiated := 1, use := 1, useCount := 1,
                    unhealthy := false }] } :=
    Step.get 1 ctxNever (some 1, none) _ _ rfl
  exact Reachable_step factory _ _
    (Reachable_step factory _ _ (exWorldAged_Reachable factory h0 h1) s1)
    (Step.release 6 1 _ _ rfl)

theorem exWorldEvict_Queued : Queued exWorldEvict [0, 1] := wrapWorld_Queued

/-- C16: in every world reachable from a successfully constructed pool in
which the pool is still open, the queue holds `cap` handles of which at least
`cap - cap/2`, hence at least one, are healthy; so `Get` with a context that
is never done does not fail: the first healthy handle `hk` comes after at most
`cap/2` unhealthy ones, and `Get`, given at least `cap/2 + 1` iterations,
skips those and returns `hk` with no error. -/
theorem Get_never_fails (factory : Factory) (w : World) (ctx : Nat → Bool) (fuel : Nat)
    (hr : Reachable factory w) (hopen : w.p.close = 0) (hctx : ∀ i, ctx i = false)
    (hfuel : (w.p.cap / 2).toNat ≤ fuel) :
    ∃ l, Queued w l ∧ (l.length : Int) = w.p.cap ∧
      w.p.cap - w.p.cap / 2 ≤ ((l.countP (fun a => !unhealthyAt w.conns a) : Nat) : Int) ∧
      1 ≤ l.countP (fun a => !unhealthyAt w.conns a) ∧
      ∃ pre hk post c q, l = pre ++ hk :: post ∧ AllUnhealthy w pre ∧
        (pre.length : Int) ≤ w.p.cap / 2 ∧ w.conns[hk]? = some c ∧ c.IsHealthy = true ∧
        Pool.Get (fuel + 1) ctx w =
          .ok ((some hk, none),
            { w.withClients q with
              conns := w.conns.set hk
                { c with use := AddUint64 c.use 1, useCount := AddUint64 c.useCount 1 } }) := by
  obtain ⟨l, hq, _, h2, h3, h4, h5, _, h7⟩ := Reachable_PoolInv factory w hr
  have hlen := h7 hopen
  have h6 : (0 : Int) ≤ w.p.cap := by omega
  have e : Int.tdiv w.p.cap 2 = w.p.cap / 2 := Int.tdiv_eq_ediv h6 (by norm_num)
  have h8 := toUint64_le (Int.tdiv w.p.cap 2) (by rw [e]; omega)
  rw [e] at h8 h4
  have h9 : (w.p.unHealthyCount : Int) ≤ (toUint64 (w.p.cap / 2) : Int) := by
    exact_mod_cast h4
  have h10 : ((l.countP (unhealthyAt w.conns) : Nat) : Int) ≤ w.p.cap / 2 := by
    have : ((l.countP (unhealthyAt w.conns) : Nat) : Int) ≤ (w.p.unHealthyCount : Int) := by
      exact_mod_cast h3
    omega
  have hsum := length_eq_countP_add_not (unhealthyAt w.conns) l
  have hlt : l.countP (unhealthyAt w.conns) < l.length := by omega
  obtain ⟨pre, hk, post, el, hp1, hp2, hp3⟩ := first_healthy_split w.conns l hlt
  have hkl : hk < w.conns.length := h2 hk (by rw [el]; simp)
  obtain ⟨c, hc⟩ := some_of_lt_length _ _ hkl
  have hcu : c.unhealthy = false := by
    rw [← unhealthyAt_of_some _ _ _ hc]; exact hp2
  have hall : AllUnhealthy w pre := fun a ha => unhealthyAt_true _ _ (hp1 a ha)
  have hpl : (pre.length : Int) ≤ w.p.cap / 2 := by omega
  obtain ⟨q, eg, _⟩ := Get_skip_hit fuel ctx w pre post hk c (IsClosed_of_open _ hopen)
    (fun j _ => hctx j) (el ▸ hq) hall hc hcu (by omega)
  refine ⟨l, hq, hlen, by omega, by omega, pre, hk, post, c, q, el, hall, hpl, hc, ?_, eg⟩
  simp [ClientConn.IsHealthy, hcu]

theorem Get_never_fails_witness :
    ∃ l, Queued exWorldAged l ∧ (l.length : Int) = exWorldAged.p.cap ∧
      1 ≤ l.countP (fun a => !unhealthyAt exWorldAged.conns a) :=
  have h := Get_never_fails exFactory exWorldAged ctxNever 1
    (exWorldAged_Reachable exFactory rfl rfl) rfl (fun _ => rfl) (by decide)
  ⟨h.choose, h.choose_spec.1, h.choose_spec.2.1, h.choose_spec.2.2.2.1⟩

theorem PoolInv_length (w : World) (h : PoolInv w) (hopen : w.p.close = 0) :
    ∃ l, Queued w l ∧ (l.length : Int) = w.p.cap := by
  obtain ⟨l, hq, _, _, _, _, _, _, h7⟩ := h
  exact ⟨l, hq, h7 hopen⟩

/-- C17: in every world `w` reachable from a successfully constructed pool in
which the pool is open, the queue holds exactly `cap` handles, and it still
does after every completed `Get`, release or eviction step: the pool stays
open, `cap` is unchanged, and the queue of the resulting world holds `cap`
handles again; a release does not touch the queue at all. -/
theorem queue_holds_cap (factory : Factory) (w : World) (hr : Reachable factory w)
    (hopen : w.p.close = 0) :
    (∃ l, Queued w l ∧ (l.length : Int) = w.p.cap) ∧
    (∀ fuel ctx r w1, Pool.Get fuel ctx w = .ok (r, w1) →
      w1.p.cap = w.p.cap ∧ ∃ l1, Queued w1 l1 ∧ (l1.length : Int) = w.p.cap) ∧
    (∀ now a w1, ClientConn.Close now a w = .ok w1 →
      w1.p.cap = w.p.cap ∧ w1.p.clients = w.p.clients ∧
        ∃ l1, Queued w1 l1 ∧ (l1.length : Int) = w.p.cap) ∧
    (∀ now fuel w1, healthyIter factory now fuel w = .ok w1 →
      w1.p.cap = w.p.cap ∧ ∃ l1, Queued w1 l1 ∧ (l1.length : Int) = w.p.cap) := by
  have hclosed := IsClosed_of_open _ hopen
  refine ⟨PoolInv_length w (Reachable_PoolInv factory w hr) hopen, ?_, ?_, ?_⟩
  · intro fuel ctx r w1 h
    have hinv := Reachable_PoolInv factory w1 (Reachable_step factory w w1 hr (Step.get _ _ _ _ _ h))
    have hcl : w1.p.close = 0 ∧ w1.p.cap = w.p.cap := by
      rcases Get_inv fuel ctx w w1 r h with ⟨_, e⟩ | ⟨q, ⟨_, e⟩ | ⟨a, c, _, _, _, e⟩⟩ <;>
        subst e <;> exact ⟨hopen, rfl⟩
    obtain ⟨l1, h1, h2⟩ := PoolInv_length w1 hinv hcl.1
    exact ⟨hcl.2, l1, h1, by rw [h2, hcl.2]⟩
  · intro now a w1 h
    have hinv := Reachable_PoolInv factory w1
      (Reachable_step factory w w1 hr (Step.release _ _ _ _ h))
    have hcl : w1.p.close = 0 ∧ w1.p.cap = w.p.cap ∧ w1.p.clients = w.p.clients := by
      cases hc : w.conns[a]? with
      | none => simp [ClientConn.Close, hc] at h
      | some c =>
        obtain ⟨f, n, e, _⟩ := Release_eq now a w c hc
        rw [e] at h
        injection h with h
        subst h
        exact ⟨hopen, rfl, rfl⟩
    obtain ⟨l1, h1, h2⟩ := PoolInv_length w1 hinv hcl.1
    exact ⟨hcl.2.1, hcl.2.2, l1, h1, by rw [h2, hcl.2.1]⟩
  · intro now fuel w1 h
    have hinv := Reachable_PoolInv factory w1
      (Reachable_step factory w w1 hr (Step.evict _ _ _ _ hclosed h))
    have hcl : w1.p.close = 0 ∧ w1.p.cap = w.p.cap := by
      obtain ⟨q, e | e | ⟨a, c, r, _, _, _, _, e⟩⟩ := healthyIter_inv factory now fuel w w1 h <;>
        subst e <;> exact ⟨hopen, rfl⟩
    obtain ⟨l1, h1, h2⟩ := PoolInv_length w1 hinv hcl.1
    exact ⟨hcl.2, l1, h1, by rw [h2, hcl.2]⟩

theorem queue_holds_cap_witness :
    ∃ l, Queued exWorldAged l ∧ (l.length : Int) = exWorldAged.p.cap :=
  (queue_holds_cap exFactory exWorldAged (exWorldAged_Reachable exFactory rfl rfl) rfl).1

/-! ## Theorems: replacement by the eviction step -/

theorem StepOther_useCount (factory : Factory) (a : Nat) (w w1 : World) (c : ClientConn)
    (h : StepOther factory a w w1) (hc : w.conns[a]? = some c) :
    ∃ c1, w1.conns[a]? = some c1 ∧ c1.useCount = c.useCount := by
  obtain ⟨hs, hno⟩ := h
  cases hs with
  | get fuel ctx r _ _ h =>
    rcases Get_inv fuel ctx w w1 r h with ⟨_, e⟩ | ⟨q, ⟨_, e⟩ | ⟨b, d, er, hd, _, e⟩⟩
    · subst e; exact ⟨c, hc, rfl⟩
    · subst e; exact ⟨c, hc, rfl⟩
    · by_cases hb : b = a
      · subst hb
        subst er
        exact absurd ⟨fuel, ctx, h⟩ hno
      · subst e
        refine ⟨c, ?_, rfl⟩
        show (w.conns.set b _)[a]? = some c
        rw [List.getElem?_set_ne hb]
        exact hc
  | release now b _ _ h =>
    cases hd : w.conns[b]? with
    | none => simp [ClientConn.Close, hd] at h
    | some d =>
      obtain ⟨f, n, e, _⟩ := Release_eq now b w d hd
      rw [e] at h
      injection h with h
      subst h
      by_cases hb : b = a
      · subst hb
        rw [hc] at hd
        injection hd with hd
        subst hd
        exact ⟨_, getElem?_set_self_of_some _ _ _ _ hc, rfl⟩
      · refine ⟨c, ?_, rfl⟩
        show (w.conns.set b _)[a]? = some c
        rw [List.getElem?_set_ne hb]
        exact hc
  | evict now fuel _ _ _ h =>
    obtain ⟨q, e | e | ⟨b, d, r, _, _, _, _, e⟩⟩ := healthyIter_inv factory now fuel w w1 h
    · subst e; exact ⟨c, hc, rfl⟩
    · subst e; exact ⟨c, hc, rfl⟩
    · subst e
      refine ⟨c, ?_, rfl⟩
      show (w.conns ++ [newClientConn r now])[a]? = some c
      rw [List.getElem?_append_left (lt_length_of_some _ _ _ hc)]
      exact hc
  | close fuel _ _ h =>
    rcases Close_inv fuel w w1 h with ⟨_, e⟩ | ⟨_, q, _, e⟩
    · subst e; exact ⟨c, hc, rfl⟩
    · rw [e]; exact ⟨c, hc, rfl⟩
  | closeStart fuel _ v q _ _ => exact ⟨c, hc, rfl⟩
  | closeSpin v _ _ h =>
    unfold CloseIter at h
    split at h
    · cases h
    · injection h with h
      subst h
      exact ⟨c, hc, rfl⟩

theorem StepsOther_useCount (factory : Factory) (a : Nat) (w w1 : World) (c : ClientConn)
    (h : Relation.ReflTransGen (StepOther factory a) w w1) (hc : w.conns[a]? = some c) :
    ∃ c1, w1.conns[a]? = some c1 ∧ c1.useCount = c.useCount := by
  induction h with
  | refl => exact ⟨c, hc, rfl⟩
  | tail _ hstep ih =>
    obtain ⟨c1, h1, h2⟩ := ih
    obtain ⟨c2, h3, h4⟩ := StepOther_useCount factory a _ _ c1 hstep h1
    exact ⟨c2, h3, h4.trans h2⟩

theorem Get_returned_useCount (fuel : Nat) (ctx : Nat → Bool) (w w1 : World) (a : Nat)
    (c : ClientConn) (h : Pool.Get fuel ctx w = .ok ((some a, none), w1))
    (hc : w.conns[a]? = some c) :
    ∃ c1, w1.conns[a]? = some c1 ∧ c.unhealthy = false ∧
      c1.useCount = AddUint64 c.useCount 1 ∧ c1.use = AddUint64 c.use 1 := by
  rcases Get_inv fuel ctx w w1 _ h with ⟨er, _⟩ | ⟨q, ⟨er, _⟩ | ⟨b, d, er, hd, hu, e⟩⟩
  · cases er
  · cases er
  · injection er with e1 _
    injection e1 with e1
    subst e1
    rw [hc] at hd
    injection hd with hd
    subst hd
    subst e
    exact ⟨_, getElem?_set_self_of_some _ _ _ _ hc, hu, rfl, rfl⟩

/-- C19: in a world reachable from a successfully constructed pool, an
eviction step that finds at the head of the queue a handle `c` (address `a`)
that is unhealthy with `use = 0`, and whose factory call succeeds with `r`,
returns; it closes the connection of `c` once (one entry is added to the log
of `Close` calls), `unHealthyCount` was at least 1 and is decremented by
exactly 1, and a new handle object wrapping `r` — healthy, `use = 0`,
`useCount = 0`, created at the time `now` of the step — is allocated and
enqueued at the tail; the other queued handles `rest` keep their order and
no existing handle object changes. After any run of steps that are not a
`Get` returning the new handle, a `Get` that returns it leaves it with
`useCount = 1`. -/
theorem healthyIter_replaces (factory : Factory) (now : Int) (fuel : Nat) (w : World)
    (a : Nat) (rest : List Nat) (c : ClientConn) (r : Nat) (hr : Reachable factory w)
    (hq : Queued w (a :: rest)) (hc : w.conns[a]? = some c) (hu : c.unhealthy = true)
    (h0 : c.use = 0) (hf : factory w.factoryCalls = .ok r) :
    ∃ q w1, healthyIter factory now (fuel + 1) w = .ok w1 ∧
      w1 = { w with
             p := { w.p with clients := q, unHealthyCount := w.p.unHealthyCount - 1 },
             conns := w.conns ++ [newClientConn r now],
             closeLog := w.closeLog ++ [c.conn],
             factoryCalls := w.factoryCalls + 1 } ∧
      1 ≤ w.p.unHealthyCount ∧
      Queued w1 (rest ++ [w.conns.length]) ∧
      w1.conns[w.conns.length]? =
        some { conn := r, timeInitiated := now, use := 0, useCount := 0, unhealthy := false } ∧
      (∀ b, b < w.conns.length → w1.conns[b]? = w.conns[b]?) ∧
      (∀ (w2 w3 : World) (fuel2 : Nat) (ctx : Nat → Bool),
        Relation.ReflTransGen (StepOther factory w.conns.length) w1 w2 →
        Pool.Get fuel2 ctx w2 = .ok ((some w.conns.length, none), w3) →
        ∃ c3, w3.conns[w.conns.length]? = some c3 ∧ c3.useCount = 1) := by
  obtain ⟨q, e, hq1⟩ := healthyIter_replace factory now fuel w a rest c r hq hc hu h0 hf
  obtain ⟨_, _, h3, h4, _⟩ := PoolInv_open w _ (Reachable_PoolInv factory w hr) hq
  have hua : unhealthyAt w.conns a = true := by
    rw [unhealthyAt_of_some _ _ _ hc]; exact hu
  have hpos : 1 ≤ w.p.unHealthyCount := by
    have : 1 ≤ List.countP (unhealthyAt w.conns) (a :: rest) := by
      simp [List.countP_cons, hua]
    omega
  have hlt := toUint64_lt (Int.tdiv w.p.cap 2)
  have hdec : AddUint64 w.p.unHealthyCount allOnes = w.p.unHealthyCount - 1 :=
    AddUint64_allOnes_pos _ hpos (by omega)
  rw [hdec] at e
  have hnew : (w.conns ++ [newClientConn r now])[w.conns.length]? =
      some (newClientConn r now) := by
    rw [List.getElem?_append_right (le_refl _)]
    simp
  refine ⟨q, _, e, rfl, hpos, hq1, hnew, ?_, ?_⟩
  · intro b hb
    exact List.getElem?_append_left hb
  · intro w2 w3 fuel2 ctx hs hg
    obtain ⟨c2, hc2, hcount⟩ := StepsOther_useCount factory w.conns.length _ w2 _ hs hnew
    obtain ⟨c3, hc3, _, h5, _⟩ := Get_returned_useCount fuel2 ctx w2 w3 _ c2 hg hc2
    refine ⟨c3, hc3, ?_⟩
    rw [h5, hcount]
    show AddUint64 0 1 = 1
    exact AddUint64_one 0 (by rw [u64_val]; decide)

theorem healthyIter_replaces_witness :
    ∃ q w1, healthyIter exFactory 9 (0 + 1) exWorldEvict = .ok w1 ∧
      w1 = { exWorldEvict with
             p := { exWorldEvict.p with clients := q,
                                        unHealthyCount := exWorldEvict.p.unHealthyCount - 1 },
             conns := exWorldEvict.conns ++ [newClientConn 102 9],
             closeLog := exWorldEvict.closeLog ++ [100],
             factoryCalls := exWorldEvict.factoryCalls + 1 } ∧
      1 ≤ exWorldEvict.p.unHealthyCount ∧
      Queued w1 ([1] ++ [exWorldEvict.conns.length]) :=
  have h := healthyIter_replaces exFactory 9 0 exWorldEvict 0 [1]
    { conn := 100, timeInitiated := 0, use := 0, useCount := 1, unhealthy := true } 102
    (exWorldEvict_Reachable exFactory rfl rfl) exWorldEvict_Queued rfl rfl rfl rfl
  ⟨h.choose, h.choose_spec.choose, h.choose_spec.choose_spec.1,
    h.choose_spec.choose_spec.2.1, h.choose_spec.choose_spec.2.2.1,
    h.choose_spec.choose_spec.2.2.2.1⟩

/-- C20: an eviction step that finds at the head of the queue a handle `c`
(address `a`) that is unhealthy with `use = 0`, and whose factory call fails,
returns normally (the error is only logged), and the world is what it was
apart from the rotation of the queue (and the count of factory calls): the
same handle is re-enqueued at the tail, still unhealthy, no handle object
changes, no connection is closed, `unHealthyCount` is unchanged; and no `Get`
on the resulting world returns that handle. -/
theorem healthyIter_factory_error (factory : Factory) (now : Int) (fuel : Nat) (w : World)
    (a : Nat) (rest : List Nat) (c : ClientConn) (err : error)
    (hq : Queued w (a :: rest)) (hc : w.conns[a]? = some c) (hu : c.unhealthy = true)
    (h0 : c.use = 0) (hf : factory w.factoryCalls = .error err) :
    ∃ q w1, healthyIter factory now (fuel + 1) w = .ok w1 ∧
      w1 = { w.withClients q with factoryCalls := w.factoryCalls + 1 } ∧
      Queued w1 (rest ++ [a]) ∧ w1.conns = w.conns ∧ w1.closeLog = w.closeLog ∧
      w1.p.unHealthyCount = w.p.unHealthyCount ∧
      (∃ c1, w1.conns[a]? = some c1 ∧ c1.unhealthy = true) ∧
      (∀ (fuel2 : Nat) (ctx : Nat → Bool) (r : Option Nat × Option error) (w2 : World),
        Pool.Get fuel2 ctx w1 = .ok (r, w2) → r.1 ≠ some a) := by
  obtain ⟨q, e, hq1⟩ := healthyIter_factory_fails factory now fuel w a rest c err hq hc hu h0 hf
  refine ⟨q, _, e, rfl, hq1, rfl, rfl, rfl, ⟨c, hc, hu⟩, ?_⟩
  intro fuel2 ctx r w2 hg hra
  rcases Get_inv fuel2 ctx _ w2 r hg with ⟨er, _⟩ | ⟨q2, ⟨er, _⟩ | ⟨b, d, er, hd, hdu, _⟩⟩
  · subst er; cases hra
  · subst er; cases hra
  · subst er
    injection hra with hra
    subst hra
    have hd1 : w.conns[b]? = some d := hd
    rw [hc] at hd1
    injection hd1 with hd1
    subst hd1
    rw [hu] at hdu
    cases hdu

theorem healthyIter_factory_error_witness :
    ∃ q w1, healthyIter failFactory2 9 (0 + 1) exWorldEvict = .ok w1 ∧
      w1 = { exWorldEvict.withClients q with factoryCalls := exWorldEvict.factoryCalls + 1 } ∧
      Queued w1 ([1] ++ [0]) :=
  have h := healthyIter_factory_error failFactory2 9 0 exWorldEvict 0 [1]
    { conn := 100, timeInitiated := 0, use := 0, useCount := 1, unhealthy := true } (.other 9)
    exWorldEvict_Queued rfl rfl rfl rfl
  ⟨h.choose, h.choose_spec.choose, h.choose_spec.choose_spec.1,
    h.choose_spec.choose_spec.2.1, h.choose_spec.choose_spec.2.2.1⟩

/-! ## Theorems: PKCS7 padding -/

/-- C30: for every byte sequence `x` and every `blockSize` from 1 to 255,
`PKCS7Padding x blockSize` returns a sequence whose length is a positive
multiple of `blockSize` and strictly greater than the length of `x`, and
`PKCS7UnPadding` of it returns `x`. -/
theorem PKCS7_round_trip (x : List Nat) (blockSize : Int) (h1 : 1 ≤ blockSize)
    (h2 : blockSize ≤ 255) :
    ∃ y, PKCS7Padding x blockSize = some y ∧ 0 < y.length ∧
      (∃ k : Nat, 0 < k ∧ (y.length : Int) = k * blockSize) ∧
      x.length < y.length ∧ PKCS7UnPadding y = some x := by
  have hbs : ¬ blockSize = 0 := by omega
  have hm0 : 0 ≤ Int.tmod (x.length : Int) blockSize :=
    Int.tmod_nonneg _ (Int.ofNat_nonneg _)
  have hm1 : Int.tmod (x.length : Int) blockSize < blockSize :=
    Int.tmod_lt_of_pos _ (by omega)
  have hme : Int.tmod (x.length : Int) blockSize = (x.length : Int) % blockSize :=
    Int.tmod_eq_emod (Int.ofNat_nonneg _) (by omega)
  obtain ⟨p, hp⟩ : ∃ p : Nat, (p : Int) = blockSize - Int.tmod (x.length : Int) blockSize :=
    ⟨(blockSize - Int.tmod (x.length : Int) blockSize).toNat, Int.toNat_of_nonneg (by omega)⟩
  have hp1 : 1 ≤ p := by omega
  have hp2 : p ≤ 255 := by omega
  have hbyte : toByte (p : Int) = p := by
    unfold toByte
    omega
  have hpad : PKCS7Padding x blockSize = some (x ++ List.replicate p p) := by
    unfold PKCS7Padding
    rw [if_neg hbs]
    simp only []
    rw [← hp, if_neg (by omega), hbyte, Int.toNat_ofNat]
  have hlen : (x ++ List.replicate p p).length = x.length + p := by
    rw [List.length_append, List.length_replicate]
  refine ⟨_, hpad, by rw [hlen]; omega, ?_, by rw [hlen]; omega, ?_⟩
  · have hd := Int.emod_add_ediv (x.length : Int) blockSize
    have hq0 : 0 ≤ (x.length : Int) / blockSize :=
      Int.ediv_nonneg (Int.ofNat_nonneg _) (by omega)
    refine ⟨((x.length : Int) / blockSize + 1).toNat, by omega, ?_⟩
    rw [hlen, Int.toNat_of_nonneg (by omega)]
    push_cast
    rw [hp, hme]
    linarith
  · unfold PKCS7UnPadding
    simp only []
    rw [hlen, if_neg (by omega)]
    have hlast : (x ++ List.replicate p p)[x.length + p - 1]? = some p := by
      rw [List.getElem?_append_right (by omega), List.getElem?_replicate]
      rw [if_pos (by omega)]
    rw [hlast]
    simp only []
    rw [if_neg (by omega)]
    rw [show x.length + p - p = x.length by omega, List.take_left]

theorem PKCS7_round_trip_witness :
    ∃ y, PKCS7Padding [1, 2, 3, 4] 4 = some y ∧ 0 < y.length ∧
      (∃ k : Nat, 0 < k ∧ (y.length : Int) = k * 4) ∧
      [1, 2, 3, 4].length < y.length ∧ PKCS7UnPadding y = some [1, 2, 3, 4] :=
  PKCS7_round_trip [1, 2, 3, 4] 4 (by decide) (by decide)

/-! ## Theorems: `Register` -/

/-- C26: with a factory that always succeeds, `Register` returns no error and
stores under `name` the pool that `New` builds from the limits after the
defaults have been applied: `maxLifeDuration = 0` gives a pool with
`maxLifeDuration` 3600 seconds, `maxUseCount = 0` one with `maxUseCount` 256,
and a non-zero value is passed through unchanged. -/
theorem Register_defaults (client : Registry) (factory : Factory) (clock : Nat → Int)
    (fuel : Nat) (name : String) (capacity maxLifeDuration : Int) (maxUseCount : Nat)
    (res : Nat → Nat) (hf : ∀ k, factory k = .ok (res k)) :
    ∃ pool, Register client factory clock (fuel + 1) name capacity maxLifeDuration maxUseCount
        = .ok (none, (name, pool) :: client) ∧
      New factory clock (fuel + 1) capacity
          (if maxLifeDuration = 0 then 3600 * Second else maxLifeDuration)
          (if maxUseCount = 0 then 256 else maxUseCount)
        = .ok ((true, none), pool) ∧
      (maxLifeDuration = 0 → pool.p.maxLifeDuration = 3600 * 1000000000) ∧
      (maxLifeDuration ≠ 0 → pool.p.maxLifeDuration = maxLifeDuration) ∧
      (maxUseCount = 0 → pool.p.maxUseCount = 256) ∧
      (maxUseCount ≠ 0 → pool.p.maxUseCount = maxUseCount) := by
  obtain ⟨w0, e, hp, _⟩ := NewWithContext_ok factory clock fuel capacity
    (if maxLifeDuration = 0 then 3600 * Second else maxLifeDuration)
    (if maxUseCount = 0 then 256 else maxUseCount) res (fun k _ => hf k)
  have e1 : New factory clock (fuel + 1) capacity
      (if maxLifeDuration = 0 then 3600 * Second else maxLifeDuration)
      (if maxUseCount = 0 then 256 else maxUseCount) = .ok ((true, none), w0) := e
  refine ⟨w0, ?_, e1, ?_, ?_, ?_, ?_⟩
  · simp only [Register, e1]
  · intro h
    rw [hp]
    show (if maxLifeDuration = 0 then 3600 * Second else maxLifeDuration) = _
    rw [if_pos h]
    rfl
  · intro h
    rw [hp]
    show (if maxLifeDuration = 0 then 3600 * Second else maxLifeDuration) = _
    rw [if_neg h]
  · intro h
    rw [hp]
    show (if maxUseCount = 0 then 256 else maxUseCount) = _
    rw [if_pos h]
  · intro h
    rw [hp]
    show (if maxUseCount = 0 then 256 else maxUseCount) = _
    rw [if_neg h]

theorem Register_defaults_witness :
    ∃ pool, Register [] exFactory exClock (0 + 1) "svc" 2 0 0 = .ok (none, [("svc", pool)]) ∧
      pool.p.maxLifeDuration = 3600 * 1000000000 ∧ pool.p.maxUseCount = 256 :=
  have h := Register_defaults [] exFactory exClock 0 "svc" 2 0 0 (fun k => 100 + k)
    (fun _ => rfl)
  ⟨h.choose, h.choose_spec.1, h.choose_spec.2.2.1 rfl, h.choose_spec.2.2.2.2.1 rfl⟩

/-! ## Theorems: a failed construction -/

/-- C29: when the factory succeeds on its first `i` calls and fails on call
`i + 1` (`i < max capacity 2`), construction returns the nil pool and the
error; the `i` handles already created still exist, none of their
connections has been closed (the log of `Close` calls is empty), and the
background eviction task has not been started. -/
theorem New_failure_leaks (factory : Factory) (clock : Nat → Int) (fuel : Nat)
    (capacity maxLifeDuration : Int) (maxUseCount : Nat) (res : Nat → Nat) (err : error)
    (i : Nat) (hi : i < (max capacity 2).toNat) (hok : ∀ m, m < i → factory m = .ok (res m))
    (hfail : factory i = .error err) :
    ∃ w1, NewWithContext factory clock (fuel + 1) capacity maxLifeDuration maxUseCount
        = .ok ((false, some err), w1) ∧
      New factory clock (fuel + 1) capacity maxLifeDuration maxUseCount
        = .ok ((false, some err), w1) ∧
      w1.conns.length = i ∧ w1.closeLog = [] ∧ w1.healthyStarted = false := by
  have hcap : (if capacity < 2 then 2 else capacity) = max capacity 2 := by
    rw [max_def]
    split <;> split <;> omega
  obtain ⟨w1, e, _, h2, h3, h4⟩ := NewLoop_fail factory clock fuel res err i
    (max capacity 2).toNat 0
    { p := { clients := NewQueue Nat, maxLifeDuration := maxLifeDuration,
             maxUseCount := maxUseCount, cap := max capacity 2, close := 0,
             unHealthyCount := 0 },
      conns := [], closeLog := [], factoryCalls := 0, healthyStarted := false }
    (QInv_NewQueue Nat) hi
    (by
      intro m hm
      show factory (0 + m) = .ok (res (0 + m))
      rw [Nat.zero_add]
      exact hok m hm)
    (by
      show factory (0 + i) = .error err
      rw [Nat.zero_add]
      exact hfail)
  have e2 : NewWithContext factory clock (fuel + 1) capacity maxLifeDuration maxUseCount
      = .ok ((false, some err), w1) := by
    simp only [NewWithContext, hcap, e]
  refine ⟨w1, e2, e2, ?_, h3, h4⟩
  have : w1.conns.length = 0 + i := h2
  omega

theorem New_failure_leaks_witness :
    ∃ w1, NewWithContext failFactory exClock (0 + 1) 3 0 0
        = .ok ((false, some (.other 7)), w1) ∧
      w1.conns.length = 1 ∧ w1.closeLog = [] ∧ w1.healthyStarted = false :=
  have h := New_failure_leaks failFactory exClock 0 3 0 0 (fun k => 100 + k) (.other 7) 1
    (by decide)
    (by intro m hm
        have : m = 0 := by omega
        subst this
        rfl)
    rfl
  ⟨h.choose, h.choose_spec.1, h.choose_spec.2.2.1, h.choose_spec.2.2.2.1,
    h.choose_spec.2.2.2.2⟩

/-! ## Theorems: the counters modulo `2^64` -/

/-- C28: release (`ClientConn.Close`) decrements `use` modulo `2^64` without
a guard: for a handle with `use = 0` it sets `use` to `2^64 - 1`, for
`use ≥ 1` to `use - 1`; and an eviction step that finds at the head of the
queue a handle whose `use` is `2^64 - 1` does not replace it: the handle
is re-enqueued, no handle object changes and nothing is closed. -/
theorem Release_modular_decrement (now : Int) (a : Nat) (w : World) (c : ClientConn)
    (hc : w.conns[a]? = some c) (huse : c.use < u64) :
    (∃ w1 c1, ClientConn.Close now a w = .ok w1 ∧ w1.conns[a]? = some c1 ∧
      (c.use = 0 → c1.use = 18446744073709551615) ∧ (1 ≤ c.use → c1.use = c.use - 1)) ∧
    (∀ (factory : Factory) (now2 : Int) (fuel : Nat) (w2 : World) (rest : List Nat)
      (d : ClientConn), Queued w2 (a :: rest) → w2.conns[a]? = some d →
      d.use = 18446744073709551615 →
      ∃ q, healthyIter factory now2 (fuel + 1) w2 = .ok (w2.withClients q) ∧
        QInv q ((rest ++ [a]).map some)) := by
  constructor
  · obtain ⟨f, n, e, _⟩ := Release_eq now a w c hc
    refine ⟨_, _, e, getElem?_set_self_of_some _ _ _ _ hc, ?_, ?_⟩
    · intro h0
      show AddUint64 c.use allOnes = _
      rw [h0, AddUint64_allOnes_zero, u64_val]
    · intro h1
      exact AddUint64_allOnes_pos c.use h1 huse
  · intro factory now2 fuel w2 rest d hq hd hw
    exact healthyIter_keep factory now2 fuel w2 a rest d hq hd
      (by intro h; rw [hw] at h; exact absurd h.2 (by decide))

theorem Release_modular_decrement_witness :
    ∃ w1 c1, ClientConn.Close 5 0 exWorld = .ok w1 ∧ w1.conns[0]? = some c1 ∧
      ((newClientConn 100 0).use = 0 → c1.use = 18446744073709551615) :=
  have h := (Release_modular_decrement 5 0 exWorld (newClientConn 100 0) rfl
    (by rw [u64_val]; decide)).1
  ⟨h.choose, h.choose_spec.choose, h.choose_spec.choose_spec.1,
    h.choose_spec.choose_spec.2.1, h.choose_spec.choose_spec.2.2.1⟩

/-- C27: in every world reachable from a successfully constructed pool, the
queued handles whose `unhealthy` flag is set are at most `unHealthyCount`;
so an eviction step either leaves `unHealthyCount` as it is, or finds it at
least 1 and decrements it by exactly 1: the counter never wraps from 0 to
`2^64 - 1`. -/
theorem unhealthy_le_count (factory : Factory) (w : World) (hr : Reachable factory w) :
    ∃ l, Queued w l ∧ l.countP (unhealthyAt w.conns) ≤ w.p.unHealthyCount ∧
      ∀ (now : Int) (fuel : Nat) (w1 : World), healthyIter factory now fuel w = .ok w1 →
        (w1.p.unHealthyCount = w.p.unHealthyCount ∨
          (1 ≤ w.p.unHealthyCount ∧ w1.p.unHealthyCount = w.p.unHealthyCount - 1)) ∧
        ¬ (w.p.unHealthyCount = 0 ∧ w1.p.unHealthyCount = 18446744073709551615) := by
  obtain ⟨l, hq, h1, h2, h3, h4, _⟩ := Reachable_PoolInv factory w hr
  refine ⟨l, hq, h3, ?_⟩
  intro now fuel w1 h
  have key : w1.p.unHealthyCount = w.p.unHealthyCount ∨
      (1 ≤ w.p.unHealthyCount ∧ w1.p.unHealthyCount = w.p.unHealthyCount - 1) := by
    cases fuel with
    | zero => simp [healthyIter, Dequeue, DequeueLoop] at h
    | succ fuel =>
      cases l with
      | nil =>
        rw [healthyIter_empty factory now fuel w hq] at h
        injection h with h
        subst h
        exact Or.inl rfl
      | cons a rest =>
        obtain ⟨c, hc⟩ := some_of_lt_length _ _ (h2 a (List.mem_cons_self a rest))
        by_cases hcond : c.unhealthy = true ∧ c.use = 0
        · cases hf : factory w.factoryCalls with
          | error err =>
            obtain ⟨q, e, _⟩ := healthyIter_factory_fails factory now fuel w a rest c err hq hc
              hcond.1 hcond.2 hf
            rw [e] at h
            injection h with h
            subst h
            exact Or.inl rfl
          | ok r =>
            obtain ⟨q, e, _⟩ := healthyIter_replace factory now fuel w a rest c r hq hc
              hcond.1 hcond.2 hf
            have hua : unhealthyAt w.conns a = true := by
              rw [unhealthyAt_of_some _ _ _ hc]; exact hcond.1
            have hpos : 1 ≤ w.p.unHealthyCount := by
              have : 1 ≤ List.countP (unhealthyAt w.conns) (a :: rest) := by
                simp [List.countP_cons, hua]
              omega
            have hlt := toUint64_lt (Int.tdiv w.p.cap 2)
            have hdec : AddUint64 w.p.unHealthyCount allOnes = w.p.unHealthyCount - 1 :=
              AddUint64_allOnes_pos _ hpos (by omega)
            rw [hdec, h] at e
            injection e with e
            subst e
            exact Or.inr ⟨hpos, rfl⟩
        · obtain ⟨q, e, _⟩ := healthyIter_keep factory now fuel w a rest c hq hc hcond
          rw [e] at h
          injection h with h
          subst h
          exact Or.inl rfl
  refine ⟨key, ?_⟩
  rintro ⟨h0, h9⟩
  rcases key with k | ⟨k, _⟩
  · rw [k, h0] at h9
    exact absurd h9 (by decide)
  · omega

theorem unhealthy_le_count_witness :
    ∃ l, Queued exWorldEvict l ∧
      l.countP (unhealthyAt exWorldEvict.conns) ≤ exWorldEvict.p.unHealthyCount :=
  have h := unhealthy_le_count exFactory exWorldEvict (exWorldEvict_Reachable exFactory rfl rfl)
  ⟨h.choose, h.choose_spec.1, h.choose_spec.2.1⟩

/-! ## Theorems: the sentinel node and `Len` -/

theorem Dequeue_cons_full {α : Type} (q : Queue α) (x : Option α) (l : List (Option α))
    (fuel : Nat) (hq : QInv q (x :: l)) :
    ∃ q1, Dequeue (fuel + 1) q = .ok (x, q1) ∧ QInv q1 l ∧
      (deref q1 q1.head).map (fun nd => nd.value) = some x ∧ q1.nodes = q.nodes ∧
      (x = none → q1.len = q.len) ∧ (x ≠ none → q1.len = AddUint64 q.len allOnes) := by
  have hq0 := hq
  obtain ⟨h, hh, ht, hlen, hval, hnext⟩ := hq
  simp only [List.length_cons] at ht hlen
  obtain ⟨hnode, hhn⟩ : ∃ nd, q.nodes[h]? = some nd :=
    ⟨q.nodes[h], List.getElem?_eq_getElem (by omega)⟩
  obtain ⟨nnode, hnn⟩ : ∃ nd, q.nodes[h + 1]? = some nd :=
    ⟨q.nodes[h + 1], List.getElem?_eq_getElem (by omega)⟩
  have hn : hnode.next = some (h + 1) := by
    rw [hnext _ _ hhn, if_pos (by omega)]
  have hv : nnode.value = x := by
    have := hval 0
    simpa [hnn] using this
  have hne : ¬ (some h = some (h + (l.length + 1))) := by
    intro e; injection e; omega
  have e1 : DequeueLoop (fuel + 1) q = .ok (x, { q with head := some (h + 1) }) := by
    simp only [DequeueLoop, deref, hh, ht, hhn, hn, hnn, hv, cas, if_true, hne, if_false]
  obtain ⟨q2, e2, hq2, _⟩ := DequeueLoop_cons q x l fuel hq0
  rw [e1] at e2
  injection e2 with e2
  injection e2 with _ e2
  subst e2
  have hd : (deref ({ q with head := some (h + 1) } : Queue α) (some (h + 1))).map
      (fun nd => nd.value) = some x := by
    simp only [deref, hnn, Option.map_some', hv]
  cases x with
  | none =>
    refine ⟨{ q with head := some (h + 1) }, ?_, hq2, hd, rfl, fun _ => rfl,
      fun h => absurd rfl h⟩
    simp only [Dequeue, e1, Option.isSome_none, Bool.false_eq_true, if_false]
  | some x =>
    refine ⟨{ q with head := some (h + 1), len := AddUint64 q.len allOnes }, ?_,
      QInv_len _ _ _ hq2, ?_, rfl, fun h => Option.noConfusion h, fun _ => rfl⟩
    · simp only [Dequeue, e1, Option.isSome_some, if_true]
    · simp only [deref, hnn, Option.map_some', hv]

/-- C24 (as stated, refuted): after `Enqueue(7)` and a `Dequeue` that
returned 7 on a new queue, the node that `head` now points to still holds 7
in its value field: it has not been cleared. -/
theorem Dequeue_head_not_cleared :
    ∃ q1 q2, Enqueue 1 (NewQueue Nat) (some 7) = .ok q1 ∧ Dequeue 1 q1 = .ok (some 7, q2) ∧
      deref q2 q2.head = some { value := some 7, next := none } :=
  ⟨_, _, rfl, rfl, rfl⟩

/-- C24 (amended): the sentinel of a new queue holds no value; a `Dequeue`
that returns `v` makes the node that carried `v` the new sentinel and leaves
its value field as it is, so the node `head` points to still holds `v`
(`Dequeue` never writes a value field). -/
theorem Dequeue_head_keeps_value {α : Type} (q : Queue α) (x : Option α)
    (l : List (Option α)) (fuel : Nat) (hq : QInv q (x :: l)) :
    (deref (NewQueue α) (NewQueue α).head).map (fun nd => nd.value) = some none ∧
    ∃ q1, Dequeue (fuel + 1) q = .ok (x, q1) ∧ QInv q1 l ∧ q1.nodes = q.nodes ∧
      (deref q1 q1.head).map (fun nd => nd.value) = some x := by
  refine ⟨rfl, ?_⟩
  obtain ⟨q1, e, h1, h2, h3, _⟩ := Dequeue_cons_full q x l fuel hq
  exact ⟨q1, e, h1, h3, h2⟩

theorem Dequeue_head_keeps_value_witness :
    ∃ q1, Dequeue (0 + 1) exQueue = .ok (some 0, q1) ∧ QInv q1 [some 1] ∧
      q1.nodes = exQueue.nodes ∧
      (deref q1 q1.head).map (fun nd => nd.value) = some (some 0) :=
  (Dequeue_head_keeps_value exQueue (some 0) [some 1] 0 exQueue_QInv).2

theorem AddUint64_len_succ (n : Nat) : AddUint64 (n % u64) 1 = (n + 1) % u64 := by
  unfold AddUint64
  rw [u64_val]
  omega

theorem AddUint64_len_pred (n : Nat) : AddUint64 ((n + 1) % u64) allOnes = n % u64 := by
  unfold AddUint64 allOnes
  rw [u64_val]
  omega

theorem execQueue_len_nonnil {α : Type} (fuel : Nat) (ops : List (Option (Option α)))
    (hops : ∀ v, some v ∈ ops → v ≠ none) :
    ∀ (q : Queue α) (l : List (Option α)), QInv q l → (∀ v ∈ l, v ≠ none) →
      q.len = l.length % u64 →
      ∃ q1, execQueue (fuel + 1) ops q = .ok q1 ∧ QInv q1 (execModel ops l) ∧
        q1.Len = (execModel ops l).length % u64 := by
  induction ops with
  | nil =>
    intro q l hq _ hlen
    exact ⟨q, rfl, hq, hlen⟩
  | cons op ops ih =>
    intro q l hq hl hlen
    have hops1 : ∀ v, some v ∈ ops → v ≠ none := fun v hv => hops v (List.mem_cons_of_mem _ hv)
    cases op with
    | some v =>
      obtain ⟨q1, e, hq1, hlen1⟩ := Enqueue_spec q l v fuel hq
      have hv : v ≠ none := hops v (List.mem_cons_self _ _)
      obtain ⟨q2, e2, h2⟩ := ih hops1 q1 (l ++ [v]) hq1
        (by
          intro u hu
          rcases List.mem_append.mp hu with hu | hu
          · exact hl u hu
          · rw [List.mem_singleton.mp hu]; exact hv)
        (by rw [hlen1, hlen, List.length_append, List.length_singleton, AddUint64_len_succ])
      exact ⟨q2, by simp only [execQueue, e, e2], h2⟩
    | none =>
      cases l with
      | nil =>
        have e := Dequeue_nil q fuel hq
        obtain ⟨q2, e2, h2⟩ := ih hops1 q [] hq hl hlen
        exact ⟨q2, by simp only [execQueue, e, e2], h2⟩
      | cons x l =>
        obtain ⟨q1, e, hq1, _, _, _, hlen1⟩ := Dequeue_cons_full q x l fuel hq
        have hx : x ≠ none := hl x (List.mem_cons_self _ _)
        obtain ⟨q2, e2, h2⟩ := ih hops1 q1 l hq1
          (fun u hu => hl u (List.mem_cons_of_mem _ hu))
          (by rw [hlen1 hx, hlen, List.length_cons, AddUint64_len_pred])
        exact ⟨q2, by simp only [execQueue, e, e2], h2⟩

/-- C25 (what the code does): on a new queue, `Enqueue(nil)` followed by
`Dequeue()` returns nil and unlinks the node, so no node is linked after the
sentinel any more (the queue is empty), but the deferred decrement is skipped
because the returned value is nil: `Len()` is 1, not 0. -/
theorem Len_wrong_after_nil :
    ∃ q1 q2, Enqueue 1 (NewQueue Nat) none = .ok q1 ∧ Dequeue 1 q1 = .ok (none, q2) ∧
      QInv q2 [] ∧ (deref q2 q2.head).map (fun nd => nd.next) = some none ∧ q2.Len = 1 := by
  have h1 := Enqueue_inv (NewQueue Nat)
    { nodes := [⟨none, some 1⟩, ⟨none, none⟩], head := some 0, tail := some 1, len := 1 }
    [] none 1 (QInv_NewQueue Nat) rfl
  obtain ⟨l1, e1, h2⟩ := (Dequeue_inv _
    { nodes := [⟨none, some 1⟩, ⟨none, none⟩], head := some 1, tail := some 1, len := 1 }
    _ none 1 h1 rfl).resolve_left (by simp)
  have e2 : l1 = [] := by simpa using e1.symm
  subst e2
  exact ⟨_, _, rfl, rfl, h2, rfl, rfl⟩

/-! ## Theorems: termination of `Get` and round-robin -/

theorem countP_lt_length_of_mem (p : Nat → Bool) (l : List Nat) (a : Nat) (ha : a ∈ l)
    (hp : p a = false) : l.countP p < l.length := by
  have h1 := length_eq_countP_add_not p l
  have h2 : 0 < l.countP (fun a => !p a) :=
    List.countP_pos_iff.mpr ⟨a, ha, by simp [hp]⟩
  omega

/-- C22: for every open pool whose queue `l` of `n` existing handles contains
at least one healthy handle, with a context that is never done, `Get` run
with a bound of `n` loop iterations returns: it returns the first healthy
handle `hk` with no error, after skipping the `pre.length < n` unhealthy
handles before it, one dequeue and re-enqueue per iteration. -/
theorem Get_within_n (fuel : Nat) (ctx : Nat → Bool) (w : World) (l : List Nat)
    (hopen : w.p.IsClosed = false) (hctx : ∀ i, ctx i = false) (hq : Queued w l)
    (hvalid : ∀ a ∈ l, ∃ c, w.conns[a]? = some c)
    (hh : ∃ a ∈ l, ∃ c, w.conns[a]? = some c ∧ c.IsHealthy = true)
    (hfuel : l.length ≤ fuel) :
    ∃ pre hk post c q, l = pre ++ hk :: post ∧ pre.length + 1 ≤ l.length ∧
      AllUnhealthy w pre ∧ w.conns[hk]? = some c ∧ c.IsHealthy = true ∧
      Pool.Get fuel ctx w =
        .ok ((some hk, none),
          { w.withClients q with
            conns := w.conns.set hk
              { c with use := AddUint64 c.use 1, useCount := AddUint64 c.useCount 1 } }) ∧
      QInv q ((post ++ pre ++ [hk]).map some) := by
  obtain ⟨a, ha, ca, hca, hhealthy⟩ := hh
  have hau : unhealthyAt w.conns a = false := by
    rw [unhealthyAt_of_some _ _ _ hca]
    simpa [ClientConn.IsHealthy] using hhealthy
  have hlt := countP_lt_length_of_mem (unhealthyAt w.conns) l a ha hau
  obtain ⟨pre, hk, post, el, hp1, hp2, hp3⟩ := first_healthy_split w.conns l hlt
  obtain ⟨c, hc⟩ := hvalid hk (by rw [el]; simp)
  have hcu : c.unhealthy = false := by
    rw [← unhealthyAt_of_some _ _ _ hc]; exact hp2
  have hall : AllUnhealthy w pre := fun b hb => unhealthyAt_true _ _ (hp1 b hb)
  have hlen : pre.length + 1 ≤ l.length := by
    rw [el, List.length_append, List.length_cons]
    omega
  obtain ⟨f1, rfl⟩ : ∃ f1, fuel = f1 + 1 := ⟨fuel - 1, by omega⟩
  obtain ⟨q, eg, hq1⟩ := Get_skip_hit f1 ctx w pre post hk c hopen (fun j _ => hctx j)
    (el ▸ hq) hall hc hcu (by omega)
  exact ⟨pre, hk, post, c, q, el, hlen, hall, hc, by simp [ClientConn.IsHealthy, hcu], eg, hq1⟩

theorem Get_within_n_witness :
    ∃ pre hk post c q, [0, 1] = pre ++ hk :: post ∧ pre.length + 1 ≤ [0, 1].length ∧
      AllUnhealthy exWorldU pre ∧ exWorldU.conns[hk]? = some c ∧ c.IsHealthy = true ∧
      Pool.Get 2 ctxNever exWorldU =
        .ok ((some hk, none),
          { exWorldU.withClients q with
            conns := exWorldU.conns.set hk
              { c with use := AddUint64 c.use 1, useCount := AddUint64 c.useCount 1 } }) ∧
      QInv q ((post ++ pre ++ [hk]).map some) :=
  Get_within_n 2 ctxNever exWorldU [0, 1] rfl (fun _ => rfl) exWorldU_Queued
    (by intro a ha
        simp only [List.mem_cons, List.mem_singleton, List.not_mem_nil, or_false] at ha
        rcases ha with h | h <;> subst h <;> exact ⟨_, rfl⟩)
    ⟨1, by simp, _, rfl, rfl⟩ (by decide)

theorem Gets_prefix (fuel : Nat) (ctx : Nat → Bool) (hctx : ctx 0 = false) :
    ∀ (todo done : List Nat) (w : World), w.p.IsClosed = false → Queued w (todo ++ done) →
      (∀ a ∈ todo ++ done, ∃ c, w.conns[a]? = some c ∧ c.unhealthy = false) →
      ∃ w1, Gets (fuel + 1) ctx todo.length w
          = .ok (todo.map (fun a => (some a, none)), w1) ∧
        w1.p.IsClosed = false ∧ Queued w1 (done ++ todo) ∧
        (∀ a ∈ todo ++ done, ∃ c, w1.conns[a]? = some c ∧ c.unhealthy = false) := by
  intro todo
  induction todo with
  | nil =>
    intro done w ho hq hall
    exact ⟨w, rfl, ho, by simpa using hq, hall⟩
  | cons a todo ih =>
    intro done w ho hq hall
    obtain ⟨c, hc, hcu⟩ := hall a (by simp)
    obtain ⟨q, eg, hq1⟩ := Get_skip_hit fuel ctx w [] (todo ++ done) a c ho
      (by intro j hj
          have : j = 0 := by simpa using hj
          rw [this]; exact hctx)
      hq (fun b hb => absurd hb (List.not_mem_nil b)) hc hcu (Nat.zero_le _)
    have hkeep : ∀ b : Nat, (∃ d : ClientConn, w.conns[b]? = some d ∧ d.unhealthy = false) →
        ∃ d : ClientConn, (w.conns.set a
          { c with use := AddUint64 c.use 1, useCount := AddUint64 c.useCount 1 })[b]? = some d ∧
          d.unhealthy = false := by
      intro b hb
      by_cases hba : b = a
      · subst hba
        exact ⟨_, getElem?_set_self_of_some _ _ _ _ hc, hcu⟩
      · obtain ⟨d, hd, hdu⟩ := hb
        exact ⟨d, by rw [List.getElem?_set_ne (Ne.symm hba)]; exact hd, hdu⟩
    obtain ⟨w1, e1, h1, h2, h3⟩ := ih (done ++ [a])
      { w.withClients q with
        conns := w.conns.set a
          { c with use := AddUint64 c.use 1, useCount := AddUint64 c.useCount 1 } }
      ho
      (by
        show QInv q ((todo ++ (done ++ [a])).map some)
        simpa using hq1)
      (by
        intro b hb
        apply hkeep b
        apply hall b
        simp only [List.mem_append, List.mem_cons, List.mem_singleton, List.not_mem_nil,
          or_false] at hb ⊢
        tauto)
    refine ⟨w1, ?_, h1, by simpa using h2, ?_⟩
    · simp only [List.length_cons, Gets, eg, e1, List.map_cons]
    · intro b hb
      apply h3 b
      simp only [List.mem_append, List.mem_cons, List.mem_singleton, List.not_mem_nil,
        or_false] at hb ⊢
      tauto

theorem Gets_add (fuel : Nat) (ctx : Nat → Bool) :
    ∀ (j k : Nat) (w w1 w2 : World) (rs1 rs2 : List (Option Nat × Option error)),
      Gets fuel ctx j w = .ok (rs1, w1) → Gets fuel ctx k w1 = .ok (rs2, w2) →
      Gets fuel ctx (j + k) w = .ok (rs1 ++ rs2, w2) := by
  intro j
  induction j with
  | zero =>
    intro k w w1 w2 rs1 rs2 h1 h2
    simp only [Gets] at h1
    injection h1 with h1
    injection h1 with h1 h3
    subst h1; subst h3
    rw [Nat.zero_add]
    exact h2
  | succ j ih =>
    intro k w w1 w2 rs1 rs2 h1 h2
    rw [show j + 1 + k = (j + k) + 1 by omega]
    simp only [Gets] at h1 ⊢
    split at h1
    · cases h1
    · rename_i r w3 he
      split at h1
      · cases h1
      · rename_i rs w4 he2
        injection h1 with h1
        injection h1 with h1 h3
        subst h1; subst h3
        rw [ih k _ _ _ _ _ he2 h2]
        rfl

/-- C23: for every open pool whose `n` queued handles `l` are all healthy,
with a context that is not done, `n` calls of `Get` in a row return the
handles of `l` one after the other in queue order, each with no error, and
leave the queue in its original order `l`; the next, `(n+1)`-th, `Get`
returns the first handle of `l` again. -/
theorem Gets_round_robin (fuel : Nat) (ctx : Nat → Bool) (w : World) (l : List Nat)
    (hopen : w.p.IsClosed = false) (hctx : ∀ i, ctx i = false) (hq : Queued w l)
    (hall : ∀ a ∈ l, ∃ c, w.conns[a]? = some c ∧ c.IsHealthy = true) :
    ∃ w1, Gets (fuel + 1) ctx l.length w = .ok (l.map (fun a => (some a, none)), w1) ∧
      Queued w1 l ∧
      ∀ a0 rest, l = a0 :: rest →
        ∃ w2, Gets (fuel + 1) ctx (l.length + 1) w
          = .ok (l.map (fun a => (some a, none)) ++ [(some a0, none)], w2) := by
  have hall1 : ∀ a ∈ l ++ [], ∃ c, w.conns[a]? = some c ∧ c.unhealthy = false := by
    intro a ha
    obtain ⟨c, hc, hh⟩ := hall a (by simpa using ha)
    exact ⟨c, hc, by simpa [ClientConn.IsHealthy] using hh⟩
  obtain ⟨w1, e1, h1, h2, h3⟩ := Gets_prefix fuel ctx (hctx 0) l [] w hopen
    (by simpa using hq) hall1
  have h2a : Queued w1 l := by simpa using h2
  refine ⟨w1, e1, h2a, ?_⟩
  intro a0 rest el
  subst el
  obtain ⟨w2, e2, _⟩ := Gets_prefix fuel ctx (hctx 0) [a0] rest w1 h1 h2a
    (by
      intro b hb
      apply h3 b
      simpa using hb)
  exact ⟨w2, Gets_add (fuel + 1) ctx _ 1 w w1 w2 _ _ e1 e2⟩

theorem Gets_round_robin_witness :
    ∃ w1, Gets (0 + 1) ctxNever [0, 1].length exWorld
        = .ok ([0, 1].map (fun a => (some a, none)), w1) ∧
      Queued w1 [0, 1] :=
  have h := Gets_round_robin 0 ctxNever exWorld [0, 1] rfl (fun _ => rfl) exWorld_Queued
    (by intro a ha
        simp only [List.mem_cons, List.mem_singleton, List.not_mem_nil, or_false] at ha
        rcases ha with h | h <;> subst h <;> exact ⟨_, rfl, rfl⟩)
  ⟨h.choose, h.choose_spec.1, h.choose_spec.2.1⟩

/-! ## Theorems: the counter of unhealthy handles -/

theorem Gets_steps (factory : Factory) (fuel : Nat) (ctx : Nat → Bool) :
    ∀ (k : Nat) (w w1 : World) (rs : List (Option Nat × Option error)),
      Gets fuel ctx k w = .ok (rs, w1) → Relation.ReflTransGen (Step factory) w w1 := by
  intro k
  induction k with
  | zero =>
    intro w w1 rs h
    simp only [Gets] at h
    injection h with h
    injection h with _ h
    subst h
    exact Relation.ReflTransGen.refl
  | succ k ih =>
    intro w w1 rs h
    simp only [Gets] at h
    split at h
    · cases h
    · rename_i r w3 he
      split at h
      · cases h
      · rename_i rs2 w4 he2
        injection h with h
        injection h with _ h
        subst h
        exact Relation.ReflTransGen.head (Step.get fuel ctx r _ _ he) (ih _ _ _ he2)

theorem doubleCountWorld_Queued : Queued doubleCountWorld [1, 2, 3, 0] := by
  refine ⟨5, rfl, rfl, rfl, ?_, ?_⟩
  · intro i
    match i with
    | 0 => rfl
    | 1 => rfl
    | 2 => rfl
    | 3 => rfl
    | i + 4 =>
      rw [show 5 + 1 + (i + 4) = i + 10 by omega]
      rfl
  · intro i nd h
    match i, h with
    | 0, h => cases h; rfl
    | 1, h => cases h; rfl
    | 2, h => cases h; rfl
    | 3, h => cases h; rfl
    | 4, h => cases h; rfl
    | 5, h => cases h; rfl
    | 6, h => cases h; rfl
    | 7, h => cases h; rfl
    | 8, h => cases h; rfl
    | 9, h => cases h; rfl
    | i + 10, h => cases h

/-- C21 (refuted by the code): a world reachable from a successfully
constructed pool by `Get` and release steps in which `unHealthyCount` is 2
while exactly one handle of the pool is unhealthy. The pool of four handles
with `maxLifeDuration = 5` and `maxUseCount = 1` is built by `NewWithContext`,
five `Get` calls return the handles 0, 1, 2, 3, 0, and one release of handle 0
at time 6 finds both its age and its use count over the limit and calls
`Unhealthy` twice, so that the counter goes from 0 to 2 for one handle. -/
theorem Release_double_counts :
    NewWithContext exFactory exClock 1 4 5 1 = .ok ((true, none), doubleCountStart) ∧
    Gets 1 ctxNever 5 doubleCountStart
      = .ok ([(some 0, none), (some 1, none), (some 2, none), (some 3, none), (some 0, none)],
          doubleCountBefore) ∧
    doubleCountBefore.p.unHealthyCount = 0 ∧
    ClientConn.Close 6 0 doubleCountBefore = .ok doubleCountWorld ∧
    Reachable exFactory doubleCountWorld ∧
    Queued doubleCountWorld [1, 2, 3, 0] ∧
    doubleCountWorld.p.unHealthyCount = 2 ∧
    [1, 2, 3, 0].countP (unhealthyAt doubleCountWorld.conns) = 1 ∧
    doubleCountWorld.conns.countP (fun c => c.unhealthy) = 1 := by
  have e0 : NewWithContext exFactory exClock 1 4 5 1 = .ok ((true, none), doubleCountStart) :=
    rfl
  have e1 : Gets 1 ctxNever 5 doubleCountStart
      = .ok ([(some 0, none), (some 1, none), (some 2, none), (some 3, none), (some 0, none)],
          doubleCountBefore) := rfl
  have e2 : ClientConn.Close 6 0 doubleCountBefore = .ok doubleCountWorld := rfl
  refine ⟨e0, e1, rfl, e2, ?_, doubleCountWorld_Queued, rfl, by decide, by decide⟩
  exact ⟨exClock, 1, 4, 5, 1, doubleCountStart, e0,
    (Gets_steps exFactory 1 ctxNever 5 _ _ _ e1).tail (Step.release 6 0 _ _ e2)⟩

/-! ## Theorems: interleaved runs of the queue -/

/-- One goroutine alone: the interleaved run of `Enqueue(7)`, `Enqueue(nil)`
and three `Dequeue` calls ends with the queue of the sequential embedding
(heap, `head`, `tail` and `len`), and the `Dequeue` calls return 7, nil, nil. -/
theorem solo_run_agrees :
    (runSched (List.replicate 40 0)
        (initConc [[.enqueue (some 7), .enqueue none, .dequeue, .dequeue, .dequeue]])).map
      (fun c => (c.s.q, c.threads.map (fun t => t.results)))
    = (execQueue 1 [some (some 7), some none, none, none, none] (NewQueue Nat)).map
      (fun q => (q, [[some 7, none, none]])) := by
  rfl

end GinUtils
